import Mathlib

/-!
Shallow embedding of the `dedup` tool (src/lib.rs, src/models.rs, src/digest.rs).

Devices, inodes, paths and content digests are modelled as natural numbers.
Rust `HashMap`s are modelled as association lists in insertion order
(`HashMap` iteration order is arbitrary; the claims proved here do not
depend on it).  The content digest function `sha256file` is modelled as an
abstract parameter `hashFn : FsPath → HashV` (the spec treats it as a
black-box deterministic function of the file at the path); every invocation
is logged in a `HashCall` record so that hashing-count properties can be
stated.  Rust `unwrap`/indexing panics are modelled by returning `none`.
-/

abbrev Ino := Nat
abbrev Dev := Nat
abbrev FsPath := Nat
abbrev HashV := Nat
abbrev FileTime := Int

/-- Association-list lookup, modelling `HashMap::get`. -/
def lookupA {V : Type} (k : Nat) : List (Nat × V) → Option V
  | [] => none
  | (k', v) :: rest => if k' = k then some v else lookupA k rest

/-- Replace the value bound to `k`, or append the binding, modelling an
in-place `HashMap` entry update (`entry().or_insert` / `insert`). -/
def setA {V : Type} (k : Nat) (v : V) : List (Nat × V) → List (Nat × V)
  | [] => [(k, v)]
  | (k', v') :: rest => if k' = k then (k, v) :: rest else (k', v') :: setA k v rest

/-- models `struct Inode` of src/models.rs -/
structure Inode where
  mtime : FileTime
  nlink : Nat
  realsize : Nat
  files : List FsPath
deriving DecidableEq

/-- models `Inode::new` -/
def Inode.new (mtime : FileTime) (nlink : Nat) (realsize : Nat) : Inode :=
  { mtime := mtime, nlink := nlink, realsize := realsize, files := [] }

/-- models `struct Inodes` -/
structure Inodes where
  map : List (Ino × Inode)
deriving DecidableEq

/-- models `Inodes::get` -/
def Inodes.get (s : Inodes) (i : Ino) : Option Inode := lookupA i s.map

/-- models `inode.files.push(path)` performed through `get_mut`/`get_or_insert`
(no-op when the inode is absent, matching the call sites where it is present) -/
def Inodes.push_file (s : Inodes) (i : Ino) (p : FsPath) : Inodes :=
  match lookupA i s.map with
  | some r => ⟨setA i { r with files := r.files ++ [p] } s.map⟩
  | none => s

/-- models `Inodes::get_or_insert` (the returned reference is consumed by
 `push_file` at the call site) -/
def Inodes.get_or_insert (s : Inodes) (i : Ino) (mtime : FileTime)
    (nlink realsize : Nat) : Inodes :=
  match lookupA i s.map with
  | some _ => s
  | none => ⟨s.map ++ [(i, Inode.new mtime nlink realsize)]⟩

/-- models `enum FileSizeSieveEntry` -/
inductive FileSizeSieveEntry where
  | Unique (ino : Ino)
  | Ambiguous
deriving DecidableEq

/-- models `struct FileSizeSieve` -/
structure FileSizeSieve where
  map : List (Nat × FileSizeSieveEntry)
deriving DecidableEq

/-- models `FileSizeSieve::get_mut` (read access; writes are the two setters) -/
def FileSizeSieve.get (s : FileSizeSieve) (size : Nat) : Option FileSizeSieveEntry :=
  lookupA size s.map

/-- models `FileSizeSieve::set_unique` -/
def FileSizeSieve.set_unique (s : FileSizeSieve) (size : Nat) (i : Ino) : FileSizeSieve :=
  ⟨setA size (.Unique i) s.map⟩

/-- models the in-place write `*sieve_entry = FileSizeSieveEntry::Ambiguous` -/
def FileSizeSieve.set_ambiguous (s : FileSizeSieve) (size : Nat) : FileSizeSieve :=
  ⟨setA size .Ambiguous s.map⟩

/-- models `struct IdenticalFile` -/
structure IdenticalFile where
  inos : List Ino
deriving DecidableEq

/-- models `struct IdenticalFiles` -/
structure IdenticalFiles where
  map : List (HashV × IdenticalFile)
deriving DecidableEq

/-- models `identicals.get_or_insert(hash)` followed by `identical.inos.push(ino)` -/
def IdenticalFiles.push_ino (s : IdenticalFiles) (h : HashV) (i : Ino) : IdenticalFiles :=
  match lookupA h s.map with
  | some g => ⟨setA h ⟨g.inos ++ [i]⟩ s.map⟩
  | none => ⟨s.map ++ [(h, ⟨[i]⟩)]⟩

/-- models `struct VisitedDirs` -/
structure VisitedDirs where
  set : List Ino
deriving DecidableEq

/-- models `VisitedDirs::visit` (`HashSet::insert`): the updated set together
with `true` iff the inode was newly inserted -/
def VisitedDirs.visit (s : VisitedDirs) (i : Ino) : VisitedDirs × Bool :=
  if i ∈ s.set then (s, false) else (⟨s.set ++ [i]⟩, true)

/-- models `struct Device` -/
structure Device where
  inodes : Inodes
  sieve : FileSizeSieve
  identicals : IdenticalFiles
  visited_dirs : VisitedDirs
deriving DecidableEq

/-- models `Device::new` -/
def Device.new : Device := ⟨⟨[]⟩, ⟨[]⟩, ⟨[]⟩, ⟨[]⟩⟩

/-- models `struct Database` -/
structure Database where
  devices : List (Dev × Device)
deriving DecidableEq

/-- models `Database::new` -/
def Database.new : Database := ⟨[]⟩

/-- models `database.get_or_insert(dev)` (read part: the present-or-fresh bundle) -/
def Database.get_device (db : Database) (d : Dev) : Device :=
  (lookupA d db.devices).getD Device.new

/-- write-back of the mutations performed through the reference returned by
`database.get_or_insert(dev)` -/
def Database.set_device (db : Database) (d : Dev) (dev : Device) : Database :=
  ⟨setA d dev db.devices⟩

/-- the fields of `fs::Metadata` that src/lib.rs reads -/
structure Metadata where
  dev : Dev
  ino : Ino
  size : Nat
  mtime : FileTime
  nlink : Nat
  blocks : Nat
deriving DecidableEq

/-- an invocation of the digest function `sha256file` on `path`, recorded
with the device and inode the result was filed under -/
structure HashCall where
  dev : Dev
  ino : Ino
  path : FsPath
deriving DecidableEq

/-- models `insert_identical_file` of src/lib.rs: hash the path and push the
inode into the content group keyed by the digest -/
def insert_identical_file (hashFn : FsPath → HashV) (identicals : IdenticalFiles)
    (p : FsPath) (i : Ino) : IdenticalFiles :=
  identicals.push_ino (hashFn p) i

/-- models `prepare_file` of src/lib.rs.  `none` models a panic of the
`unwrap()` / `files[0]` at the Unique→Ambiguous transition; the returned
list records the `sha256file` invocations this step performed, in order. -/
def prepare_file (hashFn : FsPath → HashV) (db : Database) (p : FsPath)
    (md : Metadata) : Option (Database × List HashCall) :=
  let dev := md.dev
  let ino := md.ino
  let device := db.get_device dev
  match device.inodes.get ino with
  | some _ =>
      some (db.set_device dev { device with inodes := device.inodes.push_file ino p }, [])
  | none =>
      let realsize := md.blocks * 512
      let device := { device with
        inodes := (device.inodes.get_or_insert ino md.mtime md.nlink realsize).push_file ino p }
      match device.sieve.get md.size with
      | none =>
          some (db.set_device dev { device with sieve := device.sieve.set_unique md.size ino }, [])
      | some (.Unique ino0) =>
          let device := { device with sieve := device.sieve.set_ambiguous md.size }
          match device.inodes.get ino0 with
          | none => none
          | some inode0 =>
              match inode0.files.head? with
              | none => none
              | some path0 =>
                  let device := { device with
                    identicals := insert_identical_file hashFn device.identicals path0 ino0 }
                  let device := { device with
                    identicals := insert_identical_file hashFn device.identicals p ino }
                  some (db.set_device dev device,
                    [⟨dev, ino0, path0⟩, ⟨dev, ino, p⟩])
      | some .Ambiguous =>
          let device := { device with
            identicals := insert_identical_file hashFn device.identicals p ino }
          some (db.set_device dev device, [⟨dev, ino, p⟩])

/-- the regular-file part of `walk_and_prepare`: feed a sequence of
(path, metadata) file entries through `prepare_file`, accumulating the
database and the log of digest invocations -/
def prepare_files (hashFn : FsPath → HashV) :
    List (FsPath × Metadata) → Database → List HashCall → Option (Database × List HashCall)
  | [], db, calls => some (db, calls)
  | (p, md) :: rest, db, calls =>
      match prepare_file hashFn db p md with
      | none => none
      | some (db', newCalls) => prepare_files hashFn rest db' (calls ++ newCalls)

/-! ### Association-list lemmas -/

theorem lookupA_setA_self {V : Type} (k : Nat) (v : V) (l : List (Nat × V)) :
    lookupA k (setA k v l) = some v := by
  induction l with
  | nil => simp [setA, lookupA]
  | cons e rest ih =>
      obtain ⟨k', v'⟩ := e
      by_cases h : k' = k
      · simp [setA, h, lookupA]
      · simp [setA, h, lookupA, ih]

theorem lookupA_setA_ne {V : Type} {k k' : Nat} (v : V) (l : List (Nat × V))
    (h : k' ≠ k) : lookupA k' (setA k v l) = lookupA k' l := by
  induction l with
  | nil => simp [setA, lookupA, Ne.symm h]
  | cons e rest ih =>
      obtain ⟨k0, v0⟩ := e
      by_cases hk : k0 = k
      · subst hk
        simp [setA, lookupA, Ne.symm h]
      · simp only [setA, if_neg hk, lookupA]
        by_cases hk' : k0 = k'
        · simp [hk']
        · simp [hk', ih]

theorem setA_of_lookupA_none {V : Type} {k : Nat} (v : V) {l : List (Nat × V)}
    (h : lookupA k l = none) : setA k v l = l ++ [(k, v)] := by
  induction l with
  | nil => simp [setA]
  | cons e rest ih =>
      obtain ⟨k0, v0⟩ := e
      by_cases hk : k0 = k
      · simp [lookupA, hk] at h
      · simp only [lookupA, if_neg hk] at h
        simp [setA, hk, ih h]

theorem keys_setA_of_lookupA_some {V : Type} {k : Nat} (v : V) {l : List (Nat × V)}
    (h : (lookupA k l).isSome) : (setA k v l).map Prod.fst = l.map Prod.fst := by
  induction l with
  | nil => simp [lookupA] at h
  | cons e rest ih =>
      obtain ⟨k0, v0⟩ := e
      by_cases hk : k0 = k
      · simp [setA, hk]
      · simp only [lookupA, if_neg hk] at h
        simp [setA, hk, ih h]

theorem lookupA_eq_none_iff {V : Type} (k : Nat) (l : List (Nat × V)) :
    lookupA k l = none ↔ k ∉ l.map Prod.fst := by
  induction l with
  | nil => simp [lookupA]
  | cons e rest ih =>
      obtain ⟨k0, v0⟩ := e
      by_cases hk : k0 = k
      · subst hk; simp [lookupA]
      · simp [lookupA, hk, ih, Ne.symm hk]

theorem lookupA_isSome_iff {V : Type} (k : Nat) (l : List (Nat × V)) :
    (lookupA k l).isSome ↔ k ∈ l.map Prod.fst := by
  cases h : lookupA k l with
  | none => simpa using (lookupA_eq_none_iff k l).mp h
  | some v =>
      have hne : ¬ (lookupA k l = none) := by simp [h]
      have hm := (not_iff_not.mpr (lookupA_eq_none_iff k l)).mp hne
      simp only [Option.isSome_some, true_iff]
      exact not_not.mp hm

theorem nodupKeys_setA {V : Type} (k : Nat) (v : V) {l : List (Nat × V)}
    (h : (l.map Prod.fst).Nodup) : ((setA k v l).map Prod.fst).Nodup := by
  cases hl : lookupA k l with
  | some w => rw [keys_setA_of_lookupA_some v (by simp [hl])]; exact h
  | none =>
      rw [setA_of_lookupA_none v hl]
      have hk : k ∉ l.map Prod.fst := (lookupA_eq_none_iff k l).mp hl
      simp [List.nodup_append, h, hk]

theorem mem_of_lookupA_some {V : Type} {k : Nat} {v : V} {l : List (Nat × V)}
    (h : lookupA k l = some v) : (k, v) ∈ l := by
  induction l with
  | nil => simp [lookupA] at h
  | cons e rest ih =>
      obtain ⟨k0, v0⟩ := e
      by_cases hk : k0 = k
      · subst hk
        simp [lookupA] at h
        simp [h]
      · simp only [lookupA, if_neg hk] at h
        exact List.mem_cons_of_mem _ (ih h)

theorem lookupA_of_mem_nodup {V : Type} {k : Nat} {v : V} {l : List (Nat × V)}
    (hn : (l.map Prod.fst).Nodup) (h : (k, v) ∈ l) : lookupA k l = some v := by
  induction l with
  | nil => simp at h
  | cons e rest ih =>
      obtain ⟨k0, v0⟩ := e
      simp only [List.map_cons, List.nodup_cons] at hn
      rcases List.mem_cons.mp h with h1 | h1
      · have hk : k0 = k := (congrArg Prod.fst h1).symm
        have hv : v0 = v := (congrArg Prod.snd h1).symm
        simp [lookupA, hk, hv]
      · have hk : k0 ≠ k := by
          intro hc
          exact hn.1 (by rw [hc]; exact List.mem_map.mpr ⟨(k, v), h1, rfl⟩)
        simp [lookupA, hk, ih hn.2 h1]

theorem lookupA_append_self_of_none {V : Type} {k : Nat} {l : List (Nat × V)}
    (h : lookupA k l = none) (v : V) : lookupA k (l ++ [(k, v)]) = some v := by
  induction l with
  | nil => simp [lookupA]
  | cons e rest ih =>
      obtain ⟨k0, v0⟩ := e
      by_cases hk : k0 = k
      · simp [lookupA, hk] at h
      · simp only [lookupA, if_neg hk] at h
        simp [lookupA, hk, ih h]

theorem lookupA_append_ne {V : Type} {k k' : Nat} (l : List (Nat × V)) (v : V)
    (h : k' ≠ k) : lookupA k' (l ++ [(k, v)]) = lookupA k' l := by
  induction l with
  | nil => simp [lookupA, Ne.symm h]
  | cons e rest ih =>
      obtain ⟨k0, v0⟩ := e
      by_cases hk : k0 = k'
      · simp [lookupA, hk]
      · simp [lookupA, hk, ih]

/-! ### Scan-prefix predicates

A traversal is a list of (path, metadata) entries for the regular files
encountered, in order.  These predicates describe what a prefix of the scan
has shown so far. -/

/-- the paths discovered so far that resolve to inode `i` on device `d` -/
def pathsOf (d : Dev) (i : Ino) (l : List (FsPath × Metadata)) : List FsPath :=
  l.filterMap (fun e => if e.2.dev = d ∧ e.2.ino = i then some e.1 else none)

/-- inode `i` on device `d` has been encountered -/
def seen (d : Dev) (i : Ino) (l : List (FsPath × Metadata)) : Prop :=
  ∃ e ∈ l, e.2.dev = d ∧ e.2.ino = i

/-- inode `i` on device `d` has been encountered with logical size `s` -/
def sized (d : Dev) (s : Nat) (i : Ino) (l : List (FsPath × Metadata)) : Prop :=
  ∃ e ∈ l, e.2.dev = d ∧ e.2.ino = i ∧ e.2.size = s

/-- the digest function has been invoked for inode `i` of device `d` -/
def hashed (d : Dev) (i : Ino) (calls : List HashCall) : Prop :=
  ∃ c ∈ calls, c.dev = d ∧ c.ino = i

/-- all scan entries resolving to one (device, inode) report the same logical
size (the filesystem is not mutated concurrently with the run, spec §5) -/
def SizeConsistent (l : List (FsPath × Metadata)) : Prop :=
  ∀ e1 ∈ l, ∀ e2 ∈ l, e1.2.dev = e2.2.dev → e1.2.ino = e2.2.ino → e1.2.size = e2.2.size

theorem pathsOf_append (d : Dev) (i : Ino) (l1 l2 : List (FsPath × Metadata)) :
    pathsOf d i (l1 ++ l2) = pathsOf d i l1 ++ pathsOf d i l2 := by
  simp [pathsOf]

theorem pathsOf_single (d : Dev) (i : Ino) (p : FsPath) (md : Metadata) :
    pathsOf d i [(p, md)] = if md.dev = d ∧ md.ino = i then [p] else [] := by
  by_cases h : md.dev = d ∧ md.ino = i <;> simp [pathsOf, h]

theorem seen_append_single (d : Dev) (i : Ino) (l : List (FsPath × Metadata))
    (p : FsPath) (md : Metadata) :
    seen d i (l ++ [(p, md)]) ↔ seen d i l ∨ (md.dev = d ∧ md.ino = i) := by
  simp only [seen, List.mem_append, List.mem_singleton]
  constructor
  · rintro ⟨e, he | he, h1⟩
    · exact Or.inl ⟨e, he, h1⟩
    · cases he
      exact Or.inr h1
  · rintro (⟨e, he, h1⟩ | h1)
    · exact ⟨e, Or.inl he, h1⟩
    · exact ⟨(p, md), Or.inr rfl, h1⟩

theorem sized_append_single (d : Dev) (s : Nat) (i : Ino) (l : List (FsPath × Metadata))
    (p : FsPath) (md : Metadata) :
    sized d s i (l ++ [(p, md)]) ↔ sized d s i l ∨ (md.dev = d ∧ md.ino = i ∧ md.size = s) := by
  simp only [sized, List.mem_append, List.mem_singleton]
  constructor
  · rintro ⟨e, he | he, h1⟩
    · exact Or.inl ⟨e, he, h1⟩
    · cases he
      exact Or.inr h1
  · rintro (⟨e, he, h1⟩ | h1)
    · exact ⟨e, Or.inl he, h1⟩
    · exact ⟨(p, md), Or.inr rfl, h1⟩

theorem hashed_append (d : Dev) (i : Ino) (cs cs' : List HashCall) :
    hashed d i (cs ++ cs') ↔ hashed d i cs ∨ hashed d i cs' := by
  simp only [hashed, List.mem_append]
  constructor
  · rintro ⟨c, hc | hc, h⟩
    · exact Or.inl ⟨c, hc, h⟩
    · exact Or.inr ⟨c, hc, h⟩
  · rintro (⟨c, hc, h⟩ | ⟨c, hc, h⟩)
    · exact ⟨c, Or.inl hc, h⟩
    · exact ⟨c, Or.inr hc, h⟩

theorem seen_of_sized {d : Dev} {s : Nat} {i : Ino} {l : List (FsPath × Metadata)}
    (h : sized d s i l) : seen d i l := by
  obtain ⟨e, he, h1, h2, _⟩ := h
  exact ⟨e, he, h1, h2⟩

theorem pathsOf_ne_nil_of_seen {d : Dev} {i : Ino} {l : List (FsPath × Metadata)}
    (h : seen d i l) : pathsOf d i l ≠ [] := by
  obtain ⟨e, he, h1, h2⟩ := h
  have : e.1 ∈ pathsOf d i l :=
    List.mem_filterMap.mpr ⟨e, he, by simp [h1, h2]⟩
  intro hc
  simp [hc] at this

theorem seen_mono {d : Dev} {i : Ino} {l1 l2 : List (FsPath × Metadata)}
    (hsub : ∀ x, x ∈ l1 → x ∈ l2) (h : seen d i l1) : seen d i l2 := by
  obtain ⟨e, he, h1⟩ := h
  exact ⟨e, hsub e he, h1⟩

theorem sizeConsistent_mono {l1 l2 : List (FsPath × Metadata)}
    (hsub : ∀ x, x ∈ l1 → x ∈ l2) (h : SizeConsistent l2) : SizeConsistent l1 :=
  fun e1 h1 e2 h2 => h (e1) (hsub e1 h1) (e2) (hsub e2 h2)

/-! ### Effect lemmas for the model operations -/

theorem Database.get_set_device_self (db : Database) (d : Dev) (dev : Device) :
    (db.set_device d dev).get_device d = dev := by
  simp [Database.get_device, Database.set_device, lookupA_setA_self]

theorem Database.get_set_device_ne (db : Database) {d d' : Dev} (dev : Device)
    (h : d' ≠ d) : (db.set_device d dev).get_device d' = db.get_device d' := by
  simp [Database.get_device, Database.set_device, lookupA_setA_ne _ _ h]

theorem Inodes.get_push_file_self {s : Inodes} {i : Ino} {r : Inode} (p : FsPath)
    (h : s.get i = some r) :
    (s.push_file i p).get i = some { r with files := r.files ++ [p] } := by
  unfold Inodes.push_file
  rw [show lookupA i s.map = some r from h]
  simp [Inodes.get, lookupA_setA_self]

theorem Inodes.get_push_file_ne {s : Inodes} {i j : Ino} (p : FsPath)
    (h : j ≠ i) : (s.push_file i p).get j = s.get j := by
  unfold Inodes.push_file
  cases hl : lookupA i s.map with
  | none => rfl
  | some r => simp [Inodes.get, lookupA_setA_ne _ _ h]

theorem Inodes.get_get_or_insert_self {s : Inodes} {i : Ino}
    {m : FileTime} {n r : Nat} (h : s.get i = none) :
    (s.get_or_insert i m n r).get i = some (Inode.new m n r) := by
  unfold Inodes.get_or_insert
  rw [show lookupA i s.map = none from h]
  simp [Inodes.get, lookupA_append_self_of_none h]

theorem Inodes.get_get_or_insert_ne {s : Inodes} {i j : Ino}
    (mt : FileTime) (nl rs : Nat) (h : j ≠ i) :
    (s.get_or_insert i mt nl rs).get j = s.get j := by
  unfold Inodes.get_or_insert
  cases hl : lookupA i s.map with
  | some r => rfl
  | none => simp [Inodes.get, lookupA_append_ne _ _ h]

theorem Inodes.keys_push_file (s : Inodes) (i : Ino) (p : FsPath)
    (h : (s.map.map Prod.fst).Nodup) : (((s.push_file i p).map.map Prod.fst)).Nodup := by
  unfold Inodes.push_file
  cases hl : lookupA i s.map with
  | none => exact h
  | some r => exact nodupKeys_setA i _ h

theorem Inodes.keys_get_or_insert (s : Inodes) (i : Ino) (mt : FileTime) (nl rs : Nat)
    (h : (s.map.map Prod.fst).Nodup) :
    (((s.get_or_insert i mt nl rs).map.map Prod.fst)).Nodup := by
  unfold Inodes.get_or_insert
  cases hl : lookupA i s.map with
  | some r => exact h
  | none =>
      have hk : i ∉ s.map.map Prod.fst := (lookupA_eq_none_iff i s.map).mp hl
      simp [List.nodup_append, h, hk]

theorem FileSizeSieve.get_set_unique_self (s : FileSizeSieve) (sz : Nat) (i : Ino) :
    (s.set_unique sz i).get sz = some (.Unique i) := by
  simp [FileSizeSieve.get, FileSizeSieve.set_unique, lookupA_setA_self]

theorem FileSizeSieve.get_set_unique_ne (s : FileSizeSieve) {sz sz' : Nat} (i : Ino)
    (h : sz' ≠ sz) : (s.set_unique sz i).get sz' = s.get sz' := by
  simp [FileSizeSieve.get, FileSizeSieve.set_unique, lookupA_setA_ne _ _ h]

theorem FileSizeSieve.get_set_ambiguous_self (s : FileSizeSieve) (sz : Nat) :
    (s.set_ambiguous sz).get sz = some .Ambiguous := by
  simp [FileSizeSieve.get, FileSizeSieve.set_ambiguous, lookupA_setA_self]

theorem FileSizeSieve.get_set_ambiguous_ne (s : FileSizeSieve) {sz sz' : Nat}
    (h : sz' ≠ sz) : (s.set_ambiguous sz).get sz' = s.get sz' := by
  simp [FileSizeSieve.get, FileSizeSieve.set_ambiguous, lookupA_setA_ne _ _ h]

theorem FileSizeSieve.keys_set_unique (s : FileSizeSieve) (sz : Nat) (i : Ino)
    (h : (s.map.map Prod.fst).Nodup) : (((s.set_unique sz i).map.map Prod.fst)).Nodup :=
  nodupKeys_setA sz _ h

theorem FileSizeSieve.keys_set_ambiguous (s : FileSizeSieve) (sz : Nat)
    (h : (s.map.map Prod.fst).Nodup) : (((s.set_ambiguous sz).map.map Prod.fst)).Nodup :=
  nodupKeys_setA sz _ h

/-- the inode list of the content group keyed by digest `h` (empty when absent) -/
def IdenticalFiles.group (s : IdenticalFiles) (h : HashV) : List Ino :=
  ((lookupA h s.map).getD ⟨[]⟩).inos

theorem IdenticalFiles.group_push_ino_self (s : IdenticalFiles) (h : HashV) (i : Ino) :
    (s.push_ino h i).group h = s.group h ++ [i] := by
  unfold IdenticalFiles.push_ino IdenticalFiles.group
  cases hl : lookupA h s.map with
  | some g => simp [lookupA_setA_self]
  | none => simp [lookupA_append_self_of_none hl]

theorem IdenticalFiles.group_push_ino_ne (s : IdenticalFiles) {h h' : HashV} (i : Ino)
    (hne : h' ≠ h) : (s.push_ino h i).group h' = s.group h' := by
  unfold IdenticalFiles.push_ino IdenticalFiles.group
  cases hl : lookupA h s.map with
  | some g => simp [lookupA_setA_ne _ _ hne]
  | none => simp [lookupA_append_ne _ _ hne]

theorem IdenticalFiles.keys_push_ino (s : IdenticalFiles) (h : HashV) (i : Ino)
    (hn : (s.map.map Prod.fst).Nodup) : (((s.push_ino h i).map.map Prod.fst)).Nodup := by
  unfold IdenticalFiles.push_ino
  cases hl : lookupA h s.map with
  | some g => exact nodupKeys_setA h _ hn
  | none =>
      have hk : h ∉ s.map.map Prod.fst := (lookupA_eq_none_iff h s.map).mp hl
      simp [List.nodup_append, hn, hk]

theorem Database.keys_set_device (db : Database) (d : Dev) (dev : Device)
    (h : (db.devices.map Prod.fst).Nodup) :
    (((db.set_device d dev).devices.map Prod.fst)).Nodup :=
  nodupKeys_setA d _ h

/-! ### Branch equations for `prepare_file` -/

theorem prepare_file_known {hashFn : FsPath → HashV} {db : Database} {p : FsPath}
    {md : Metadata} {r : Inode}
    (h : (db.get_device md.dev).inodes.get md.ino = some r) :
    prepare_file hashFn db p md = some
      (db.set_device md.dev { db.get_device md.dev with
        inodes := (db.get_device md.dev).inodes.push_file md.ino p }, []) := by
  simp [prepare_file, h]

theorem prepare_file_fresh_unique {hashFn : FsPath → HashV} {db : Database}
    {p : FsPath} {md : Metadata}
    (h : (db.get_device md.dev).inodes.get md.ino = none)
    (hs : (db.get_device md.dev).sieve.get md.size = none) :
    prepare_file hashFn db p md = some
      (db.set_device md.dev
        { db.get_device md.dev with
          inodes := ((db.get_device md.dev).inodes.get_or_insert md.ino md.mtime
            md.nlink (md.blocks * 512)).push_file md.ino p,
          sieve := (db.get_device md.dev).sieve.set_unique md.size md.ino }, []) := by
  simp [prepare_file, h, hs]

theorem prepare_file_transition {hashFn : FsPath → HashV} {db : Database}
    {p : FsPath} {md : Metadata} {ino0 : Ino} {inode0 : Inode} {path0 : FsPath}
    (h : (db.get_device md.dev).inodes.get md.ino = none)
    (hs : (db.get_device md.dev).sieve.get md.size = some (.Unique ino0))
    (h0 : (((db.get_device md.dev).inodes.get_or_insert md.ino md.mtime
        md.nlink (md.blocks * 512)).push_file md.ino p).get ino0 = some inode0)
    (hp0 : inode0.files.head? = some path0) :
    prepare_file hashFn db p md = some
      (db.set_device md.dev
        { db.get_device md.dev with
          inodes := ((db.get_device md.dev).inodes.get_or_insert md.ino md.mtime
            md.nlink (md.blocks * 512)).push_file md.ino p,
          sieve := (db.get_device md.dev).sieve.set_ambiguous md.size,
          identicals := (((db.get_device md.dev).identicals.push_ino
            (hashFn path0) ino0).push_ino (hashFn p) md.ino) },
        [⟨md.dev, ino0, path0⟩, ⟨md.dev, md.ino, p⟩]) := by
  simp [prepare_file, h, hs, h0, hp0, insert_identical_file]

theorem prepare_file_ambiguous {hashFn : FsPath → HashV} {db : Database}
    {p : FsPath} {md : Metadata}
    (h : (db.get_device md.dev).inodes.get md.ino = none)
    (hs : (db.get_device md.dev).sieve.get md.size = some .Ambiguous) :
    prepare_file hashFn db p md = some
      (db.set_device md.dev
        { db.get_device md.dev with
          inodes := ((db.get_device md.dev).inodes.get_or_insert md.ino md.mtime
            md.nlink (md.blocks * 512)).push_file md.ino p,
          identicals := (db.get_device md.dev).identicals.push_ino (hashFn p) md.ino },
        [⟨md.dev, md.ino, p⟩]) := by
  simp [prepare_file, h, hs, insert_identical_file]

/-! ### The traversal invariant -/

/-- the inodes recorded by `calls` as hashed on device `d` with digest `h`,
in invocation order -/
def callsFor (hashFn : FsPath → HashV) (d : Dev) (h : HashV)
    (calls : List HashCall) : List Ino :=
  calls.filterMap (fun c => if c.dev = d ∧ hashFn c.path = h then some c.ino else none)

theorem callsFor_append (hashFn : FsPath → HashV) (d : Dev) (h : HashV)
    (cs cs' : List HashCall) :
    callsFor hashFn d h (cs ++ cs') = callsFor hashFn d h cs ++ callsFor hashFn d h cs' := by
  simp [callsFor]

/-- Invariant tying the database and the digest-invocation log to the scan
prefix `l` processed so far. -/
structure TravInv (hashFn : FsPath → HashV) (l : List (FsPath × Metadata))
    (db : Database) (calls : List HashCall) : Prop where
  reg_iff : ∀ d i, ((db.get_device d).inodes.get i).isSome ↔ seen d i l
  files_eq : ∀ d i r, (db.get_device d).inodes.get i = some r → r.files = pathsOf d i l
  sieve_none : ∀ d s, (db.get_device d).sieve.get s = none → ∀ i, ¬ sized d s i l
  sieve_unique : ∀ d s i, (db.get_device d).sieve.get s = some (.Unique i) →
      sized d s i l ∧ (∀ j, sized d s j l → j = i) ∧ ¬ hashed d i calls
  sieve_amb : ∀ d s, (db.get_device d).sieve.get s = some .Ambiguous →
      ∃ i j, i ≠ j ∧ sized d s i l ∧ sized d s j l
  amb_hashed : ∀ d s i, (db.get_device d).sieve.get s = some .Ambiguous →
      sized d s i l → hashed d i calls
  calls_nodup : (calls.map fun c => (c.dev, c.ino)).Nodup
  calls_path : ∀ c ∈ calls, c.path ∈ pathsOf c.dev c.ino l
  groups_eq : ∀ d h, (db.get_device d).identicals.group h = callsFor hashFn d h calls
  keys_dev : (db.devices.map Prod.fst).Nodup
  keys_ino : ∀ d, ((db.get_device d).inodes.map.map Prod.fst).Nodup
  keys_sieve : ∀ d, ((db.get_device d).sieve.map.map Prod.fst).Nodup
  keys_id : ∀ d, ((db.get_device d).identicals.map.map Prod.fst).Nodup

theorem travInv_nil (hashFn : FsPath → HashV) :
    TravInv hashFn [] Database.new [] := by
  have hdev : ∀ d, Database.new.get_device d = Device.new := by
    intro d; rfl
  refine ⟨?_, ?_, ?_, ?_, ?_, ?_, ?_, ?_, ?_, ?_, ?_, ?_, ?_⟩ <;>
    simp [hdev, Device.new, Inodes.get, FileSizeSieve.get, IdenticalFiles.group,
      lookupA, seen, sized, hashed, callsFor, Database.new, Database.get_device]

theorem mem_pathsOf {d : Dev} {i : Ino} {l : List (FsPath × Metadata)} {q : FsPath} :
    q ∈ pathsOf d i l ↔ ∃ md', (q, md') ∈ l ∧ md'.dev = d ∧ md'.ino = i := by
  unfold pathsOf
  rw [List.mem_filterMap]
  constructor
  · rintro ⟨⟨a, b⟩, he, hq⟩
    by_cases hc : b.dev = d ∧ b.ino = i
    · have ha : a = q := by simpa [hc] using hq
      exact ⟨b, ha ▸ he, hc.1, hc.2⟩
    · simp [if_neg hc] at hq
  · rintro ⟨md', hm, h1, h2⟩
    exact ⟨(q, md'), hm, by simp [h1, h2]⟩

theorem pathsOf_eq_nil_of_not_seen {d : Dev} {i : Ino} {l : List (FsPath × Metadata)}
    (h : ¬ seen d i l) : pathsOf d i l = [] := by
  cases hp : pathsOf d i l with
  | nil => rfl
  | cons a as =>
      exfalso
      have ha : a ∈ pathsOf d i l := by simp [hp]
      obtain ⟨md', hm, h1, h2⟩ := mem_pathsOf.mp ha
      exact h ⟨(a, md'), hm, h1, h2⟩

theorem seen_of_mem_pathsOf {d : Dev} {i : Ino} {l : List (FsPath × Metadata)}
    {q : FsPath} (h : q ∈ pathsOf d i l) : seen d i l := by
  obtain ⟨md', hm, h1, h2⟩ := mem_pathsOf.mp h
  exact ⟨(q, md'), hm, h1, h2⟩

theorem sized_size_eq {l : List (FsPath × Metadata)} (SC : SizeConsistent l)
    {d : Dev} {s s' : Nat} {i : Ino} (h1 : sized d s i l) (h2 : sized d s' i l) :
    s = s' := by
  obtain ⟨e1, he1, hd1, hi1, hs1⟩ := h1
  obtain ⟨e2, he2, hd2, hi2, hs2⟩ := h2
  rw [← hs1, ← hs2]
  exact SC e1 he1 e2 he2 (by rw [hd1, hd2]) (by rw [hi1, hi2])

theorem sized_of_seen {l : List (FsPath × Metadata)} {p : FsPath} {md : Metadata}
    (SC : SizeConsistent (l ++ [(p, md)])) (h : seen md.dev md.ino l) :
    sized md.dev md.size md.ino l := by
  obtain ⟨e, he, h1, h2⟩ := h
  exact ⟨e, he, h1, h2, SC e (by simp [he]) (p, md) (by simp) h1 h2⟩

theorem seen_of_hashed {hashFn : FsPath → HashV} {l : List (FsPath × Metadata)}
    {db : Database} {calls : List HashCall} (inv : TravInv hashFn l db calls)
    {d : Dev} {i : Ino} (h : hashed d i calls) : seen d i l := by
  obtain ⟨c, hc, h1, h2⟩ := h
  have hp := inv.calls_path c hc
  rw [h1, h2] at hp
  exact seen_of_mem_pathsOf hp

theorem mem_callKeys_iff {calls : List HashCall} {d : Dev} {i : Ino} :
    (d, i) ∈ calls.map (fun c => (c.dev, c.ino)) ↔ hashed d i calls := by
  unfold hashed
  rw [List.mem_map]
  constructor
  · rintro ⟨c, hc, h⟩
    rw [Prod.mk.injEq] at h
    exact ⟨c, hc, h.1, h.2⟩
  · rintro ⟨c, hc, h1, h2⟩
    exact ⟨c, hc, by rw [h1, h2]⟩

/-! ### Invariant preservation, branch by branch -/


theorem travInv_step_known {hashFn : FsPath → HashV} {l : List (FsPath × Metadata)}
    {db : Database} {calls : List HashCall} {p : FsPath} {md : Metadata} {r : Inode}
    (inv : TravInv hashFn l db calls)
    (SC : SizeConsistent (l ++ [(p, md)]))
    (hreg : (db.get_device md.dev).inodes.get md.ino = some r) :
    TravInv hashFn (l ++ [(p, md)])
      (db.set_device md.dev { db.get_device md.dev with
        inodes := (db.get_device md.dev).inodes.push_file md.ino p }) calls := by
  have hseen : seen md.dev md.ino l := (inv.reg_iff md.dev md.ino).mp (by simp [hreg])
  have hszd : sized md.dev md.size md.ino l := sized_of_seen SC hseen
  set D' : Device := { db.get_device md.dev with
    inodes := (db.get_device md.dev).inodes.push_file md.ino p } with hD'
  have hGself : (db.set_device md.dev D').get_device md.dev = D' :=
    Database.get_set_device_self db md.dev D'
  have hGne : ∀ d, d ≠ md.dev → (db.set_device md.dev D').get_device d = db.get_device d :=
    fun d hd => Database.get_set_device_ne db D' hd
  have hIself : D'.inodes = (db.get_device md.dev).inodes.push_file md.ino p := rfl
  have hSsi : D'.sieve = (db.get_device md.dev).sieve := rfl
  have hIdent : D'.identicals = (db.get_device md.dev).identicals := rfl
  refine ⟨?_, ?_, ?_, ?_, ?_, ?_, inv.calls_nodup, ?_, ?_, ?_, ?_, ?_, ?_⟩
  · -- reg_iff
    intro d i
    rw [seen_append_single]
    by_cases hd : d = md.dev
    · subst hd
      rw [hGself, hIself]
      by_cases hi : i = md.ino
      · subst hi
        rw [Inodes.get_push_file_self p hreg]
        simp [hseen]
      · rw [Inodes.get_push_file_ne p hi]
        have hi' : md.ino ≠ i := fun h => hi h.symm
        simp [inv.reg_iff md.dev i, hi']
    · rw [hGne d hd]
      have hd' : md.dev ≠ d := fun h => hd h.symm
      simp [inv.reg_iff d i, hd']
  · -- files_eq
    intro d i r' hr'
    rw [pathsOf_append, pathsOf_single]
    by_cases hd : d = md.dev
    · subst hd
      rw [hGself, hIself] at hr'
      by_cases hi : i = md.ino
      · subst hi
        rw [Inodes.get_push_file_self p hreg] at hr'
        injection hr' with hr'
        subst hr'
        simp [inv.files_eq md.dev md.ino r hreg]
      · rw [Inodes.get_push_file_ne p hi] at hr'
        have hi' : md.ino ≠ i := fun h => hi h.symm
        simp [inv.files_eq md.dev i r' hr', hi']
    · rw [hGne d hd] at hr'
      have hd' : md.dev ≠ d := fun h => hd h.symm
      simp [inv.files_eq d i r' hr', hd']
  · -- sieve_none
    intro d s hnone i hsz
    have hnone' : (db.get_device d).sieve.get s = none := by
      by_cases hd : d = md.dev
      · subst hd; rw [hGself, hSsi] at hnone; exact hnone
      · rw [hGne d hd] at hnone; exact hnone
    rcases (sized_append_single d s i l p md).mp hsz with h1 | ⟨h1, h2, h3⟩
    · exact inv.sieve_none d s hnone' i h1
    · subst h1; subst h2; subst h3
      exact inv.sieve_none md.dev md.size hnone' md.ino hszd
  · -- sieve_unique
    intro d s i hu
    have hu' : (db.get_device d).sieve.get s = some (.Unique i) := by
      by_cases hd : d = md.dev
      · subst hd; rw [hGself, hSsi] at hu; exact hu
      · rw [hGne d hd] at hu; exact hu
    obtain ⟨hs1, hs2, hs3⟩ := inv.sieve_unique d s i hu'
    refine ⟨(sized_append_single d s i l p md).mpr (Or.inl hs1), ?_, hs3⟩
    intro j hj
    rcases (sized_append_single d s j l p md).mp hj with h1 | ⟨h1, h2, h3⟩
    · exact hs2 j h1
    · subst h1; subst h2; subst h3
      exact hs2 md.ino hszd
  · -- sieve_amb
    intro d s ha
    have ha' : (db.get_device d).sieve.get s = some .Ambiguous := by
      by_cases hd : d = md.dev
      · subst hd; rw [hGself, hSsi] at ha; exact ha
      · rw [hGne d hd] at ha; exact ha
    obtain ⟨i, j, hij, h1, h2⟩ := inv.sieve_amb d s ha'
    exact ⟨i, j, hij, (sized_append_single d s i l p md).mpr (Or.inl h1),
      (sized_append_single d s j l p md).mpr (Or.inl h2)⟩
  · -- amb_hashed
    intro d s i ha hsz
    have ha' : (db.get_device d).sieve.get s = some .Ambiguous := by
      by_cases hd : d = md.dev
      · subst hd; rw [hGself, hSsi] at ha; exact ha
      · rw [hGne d hd] at ha; exact ha
    rcases (sized_append_single d s i l p md).mp hsz with h1 | ⟨h1, h2, h3⟩
    · exact inv.amb_hashed d s i ha' h1
    · subst h1; subst h2; subst h3
      exact inv.amb_hashed md.dev md.size md.ino ha' hszd
  · -- calls_path
    intro c hc
    rw [pathsOf_append]
    exact List.mem_append_left _ (inv.calls_path c hc)
  · -- groups_eq
    intro d h
    by_cases hd : d = md.dev
    · subst hd
      rw [hGself]
      show D'.identicals.group h = _
      rw [hIdent]
      exact inv.groups_eq md.dev h
    · rw [hGne d hd]
      exact inv.groups_eq d h
  · -- keys_dev
    exact Database.keys_set_device _ _ _ inv.keys_dev
  · -- keys_ino
    intro d
    by_cases hd : d = md.dev
    · subst hd
      rw [hGself, hIself]
      exact Inodes.keys_push_file _ md.ino p (inv.keys_ino md.dev)
    · rw [hGne d hd]
      exact inv.keys_ino d
  · -- keys_sieve
    intro d
    by_cases hd : d = md.dev
    · subst hd
      rw [hGself, hSsi]
      exact inv.keys_sieve md.dev
    · rw [hGne d hd]
      exact inv.keys_sieve d
  · -- keys_id
    intro d
    by_cases hd : d = md.dev
    · subst hd
      rw [hGself, hIdent]
      exact inv.keys_id md.dev
    · rw [hGne d hd]
      exact inv.keys_id d

theorem travInv_step_fresh_unique {hashFn : FsPath → HashV}
    {l : List (FsPath × Metadata)} {db : Database} {calls : List HashCall}
    {p : FsPath} {md : Metadata}
    (inv : TravInv hashFn l db calls)
    (SC : SizeConsistent (l ++ [(p, md)]))
    (hreg : (db.get_device md.dev).inodes.get md.ino = none)
    (hs : (db.get_device md.dev).sieve.get md.size = none) :
    TravInv hashFn (l ++ [(p, md)])
      (db.set_device md.dev
        { db.get_device md.dev with
          inodes := ((db.get_device md.dev).inodes.get_or_insert md.ino md.mtime
            md.nlink (md.blocks * 512)).push_file md.ino p,
          sieve := (db.get_device md.dev).sieve.set_unique md.size md.ino }) calls := by
  have hnseen : ¬ seen md.dev md.ino l := by
    intro h
    have := (inv.reg_iff md.dev md.ino).mpr h
    simp [hreg] at this
  have hnhashed : ¬ hashed md.dev md.ino calls := fun h => hnseen (seen_of_hashed inv h)
  have hpnil : pathsOf md.dev md.ino l = [] := pathsOf_eq_nil_of_not_seen hnseen
  have h1 := Inodes.get_get_or_insert_self (s := (db.get_device md.dev).inodes)
    (m := md.mtime) (n := md.nlink) (r := md.blocks * 512) hreg
  have hInew : (((db.get_device md.dev).inodes.get_or_insert md.ino md.mtime
      md.nlink (md.blocks * 512)).push_file md.ino p).get md.ino
      = some ⟨md.mtime, md.nlink, md.blocks * 512, [p]⟩ := by
    rw [Inodes.get_push_file_self p h1]
    rfl
  have hIne : ∀ j, j ≠ md.ino →
      (((db.get_device md.dev).inodes.get_or_insert md.ino md.mtime
        md.nlink (md.blocks * 512)).push_file md.ino p).get j
      = (db.get_device md.dev).inodes.get j := by
    intro j hj
    rw [Inodes.get_push_file_ne p hj, Inodes.get_get_or_insert_ne _ _ _ hj]
  set D' : Device := { db.get_device md.dev with
    inodes := ((db.get_device md.dev).inodes.get_or_insert md.ino md.mtime
      md.nlink (md.blocks * 512)).push_file md.ino p,
    sieve := (db.get_device md.dev).sieve.set_unique md.size md.ino } with hD'
  have hGself : (db.set_device md.dev D').get_device md.dev = D' :=
    Database.get_set_device_self db md.dev D'
  have hGne : ∀ d, d ≠ md.dev → (db.set_device md.dev D').get_device d = db.get_device d :=
    fun d hd => Database.get_set_device_ne db D' hd
  have hIself : D'.inodes = ((db.get_device md.dev).inodes.get_or_insert md.ino md.mtime
      md.nlink (md.blocks * 512)).push_file md.ino p := rfl
  have hSs : D'.sieve = (db.get_device md.dev).sieve.set_unique md.size md.ino := rfl
  have hIdent : D'.identicals = (db.get_device md.dev).identicals := rfl
  refine ⟨?_, ?_, ?_, ?_, ?_, ?_, inv.calls_nodup, ?_, ?_, ?_, ?_, ?_, ?_⟩
  · -- reg_iff
    intro d i
    rw [seen_append_single]
    by_cases hd : d = md.dev
    · subst hd
      rw [hGself, hIself]
      by_cases hi : i = md.ino
      · subst hi
        simp [hInew]
      · rw [hIne i hi]
        have hi' : md.ino ≠ i := fun h => hi h.symm
        simp [inv.reg_iff md.dev i, hi']
    · rw [hGne d hd]
      have hd' : md.dev ≠ d := fun h => hd h.symm
      simp [inv.reg_iff d i, hd']
  · -- files_eq
    intro d i r' hr'
    rw [pathsOf_append, pathsOf_single]
    by_cases hd : d = md.dev
    · subst hd
      rw [hGself, hIself] at hr'
      by_cases hi : i = md.ino
      · subst hi
        rw [hInew] at hr'
        injection hr' with hr'
        subst hr'
        simp [hpnil]
      · rw [hIne i hi] at hr'
        have hi' : md.ino ≠ i := fun h => hi h.symm
        simp [inv.files_eq md.dev i r' hr', hi']
    · rw [hGne d hd] at hr'
      have hd' : md.dev ≠ d := fun h => hd h.symm
      simp [inv.files_eq d i r' hr', hd']
  · -- sieve_none
    intro d s hnone i hsz
    by_cases hd : d = md.dev
    · subst hd
      rw [hGself, hSs] at hnone
      by_cases hss : s = md.size
      · subst hss
        rw [FileSizeSieve.get_set_unique_self] at hnone
        cases hnone
      · rw [FileSizeSieve.get_set_unique_ne _ _ hss] at hnone
        rcases (sized_append_single md.dev s i l p md).mp hsz with hz | ⟨hz1, hz2, hz3⟩
        · exact inv.sieve_none md.dev s hnone i hz
        · exact hss hz3.symm
    · rw [hGne d hd] at hnone
      rcases (sized_append_single d s i l p md).mp hsz with hz | ⟨hz1, hz2, hz3⟩
      · exact inv.sieve_none d s hnone i hz
      · exact hd hz1.symm
  · -- sieve_unique
    intro d s i hu
    by_cases hd : d = md.dev
    · subst hd
      rw [hGself, hSs] at hu
      by_cases hss : s = md.size
      · subst hss
        rw [FileSizeSieve.get_set_unique_self] at hu
        injection hu with hu
        cases hu
        refine ⟨(sized_append_single _ _ _ _ _ _).mpr (Or.inr ⟨rfl, rfl, rfl⟩), ?_, hnhashed⟩
        intro j hj
        rcases (sized_append_single md.dev md.size j l p md).mp hj with hz | ⟨hz1, hz2, hz3⟩
        · exact absurd hz (inv.sieve_none md.dev md.size hs j)
        · exact hz2.symm
      · rw [FileSizeSieve.get_set_unique_ne _ _ hss] at hu
        obtain ⟨hs1, hs2, hs3⟩ := inv.sieve_unique md.dev s i hu
        refine ⟨(sized_append_single _ _ _ _ _ _).mpr (Or.inl hs1), ?_, hs3⟩
        intro j hj
        rcases (sized_append_single md.dev s j l p md).mp hj with hz | ⟨hz1, hz2, hz3⟩
        · exact hs2 j hz
        · exact absurd hz3.symm hss
    · rw [hGne d hd] at hu
      obtain ⟨hs1, hs2, hs3⟩ := inv.sieve_unique d s i hu
      refine ⟨(sized_append_single _ _ _ _ _ _).mpr (Or.inl hs1), ?_, hs3⟩
      intro j hj
      rcases (sized_append_single d s j l p md).mp hj with hz | ⟨hz1, hz2, hz3⟩
      · exact hs2 j hz
      · exact absurd hz1.symm hd
  · -- sieve_amb
    intro d s ha
    by_cases hd : d = md.dev
    · subst hd
      rw [hGself, hSs] at ha
      by_cases hss : s = md.size
      · subst hss
        rw [FileSizeSieve.get_set_unique_self] at ha
        simp at ha
      · rw [FileSizeSieve.get_set_unique_ne _ _ hss] at ha
        obtain ⟨i, j, hij, hz1, hz2⟩ := inv.sieve_amb md.dev s ha
        exact ⟨i, j, hij, (sized_append_single _ _ _ _ _ _).mpr (Or.inl hz1),
          (sized_append_single _ _ _ _ _ _).mpr (Or.inl hz2)⟩
    · rw [hGne d hd] at ha
      obtain ⟨i, j, hij, hz1, hz2⟩ := inv.sieve_amb d s ha
      exact ⟨i, j, hij, (sized_append_single _ _ _ _ _ _).mpr (Or.inl hz1),
        (sized_append_single _ _ _ _ _ _).mpr (Or.inl hz2)⟩
  · -- amb_hashed
    intro d s i ha hsz
    by_cases hd : d = md.dev
    · subst hd
      rw [hGself, hSs] at ha
      by_cases hss : s = md.size
      · subst hss
        rw [FileSizeSieve.get_set_unique_self] at ha
        cases ha
      · rw [FileSizeSieve.get_set_unique_ne _ _ hss] at ha
        rcases (sized_append_single md.dev s i l p md).mp hsz with hz | ⟨hz1, hz2, hz3⟩
        · exact inv.amb_hashed md.dev s i ha hz
        · exact absurd hz3.symm hss
    · rw [hGne d hd] at ha
      rcases (sized_append_single d s i l p md).mp hsz with hz | ⟨hz1, hz2, hz3⟩
      · exact inv.amb_hashed d s i ha hz
      · exact absurd hz1.symm hd
  · -- calls_path
    intro c hc
    rw [pathsOf_append]
    exact List.mem_append_left _ (inv.calls_path c hc)
  · -- groups_eq
    intro d h
    by_cases hd : d = md.dev
    · subst hd
      rw [hGself]
      show D'.identicals.group h = _
      rw [hIdent]
      exact inv.groups_eq md.dev h
    · rw [hGne d hd]
      exact inv.groups_eq d h
  · -- keys_dev
    exact Database.keys_set_device _ _ _ inv.keys_dev
  · -- keys_ino
    intro d
    by_cases hd : d = md.dev
    · subst hd
      rw [hGself, hIself]
      exact Inodes.keys_push_file _ md.ino p
        (Inodes.keys_get_or_insert _ md.ino md.mtime md.nlink (md.blocks * 512)
          (inv.keys_ino md.dev))
    · rw [hGne d hd]
      exact inv.keys_ino d
  · -- keys_sieve
    intro d
    by_cases hd : d = md.dev
    · subst hd
      rw [hGself, hSs]
      exact FileSizeSieve.keys_set_unique _ md.size md.ino (inv.keys_sieve md.dev)
    · rw [hGne d hd]
      exact inv.keys_sieve d
  · -- keys_id
    intro d
    by_cases hd : d = md.dev
    · subst hd
      rw [hGself, hIdent]
      exact inv.keys_id md.dev
    · rw [hGne d hd]
      exact inv.keys_id d

theorem hashed_single {d : Dev} {i : Ino} {d0 : Dev} {i0 : Ino} {p0 : FsPath} :
    hashed d i [⟨d0, i0, p0⟩] ↔ d0 = d ∧ i0 = i := by
  simp [hashed]

theorem callsFor_single (hashFn : FsPath → HashV) (d : Dev) (h : HashV)
    (d0 : Dev) (i0 : Ino) (p0 : FsPath) :
    callsFor hashFn d h [⟨d0, i0, p0⟩] = if d0 = d ∧ hashFn p0 = h then [i0] else [] := by
  by_cases hc : d0 = d ∧ hashFn p0 = h <;> simp [callsFor, hc]

theorem nodup_append_single {α : Type} {l : List α} {a : α}
    (h : l.Nodup) (ha : a ∉ l) : (l ++ [a]).Nodup := by
  simp [List.nodup_append, h, ha]

theorem travInv_step_ambiguous {hashFn : FsPath → HashV}
    {l : List (FsPath × Metadata)} {db : Database} {calls : List HashCall}
    {p : FsPath} {md : Metadata}
    (inv : TravInv hashFn l db calls)
    (SC : SizeConsistent (l ++ [(p, md)]))
    (hreg : (db.get_device md.dev).inodes.get md.ino = none)
    (hs : (db.get_device md.dev).sieve.get md.size = some .Ambiguous) :
    TravInv hashFn (l ++ [(p, md)])
      (db.set_device md.dev
        { db.get_device md.dev with
          inodes := ((db.get_device md.dev).inodes.get_or_insert md.ino md.mtime
            md.nlink (md.blocks * 512)).push_file md.ino p,
          identicals := (db.get_device md.dev).identicals.push_ino (hashFn p) md.ino })
      (calls ++ [⟨md.dev, md.ino, p⟩]) := by
  have hnseen : ¬ seen md.dev md.ino l := by
    intro h
    have := (inv.reg_iff md.dev md.ino).mpr h
    simp [hreg] at this
  have hnhashed : ¬ hashed md.dev md.ino calls := fun h => hnseen (seen_of_hashed inv h)
  have hpnil : pathsOf md.dev md.ino l = [] := pathsOf_eq_nil_of_not_seen hnseen
  have h1 := Inodes.get_get_or_insert_self (s := (db.get_device md.dev).inodes)
    (m := md.mtime) (n := md.nlink) (r := md.blocks * 512) hreg
  have hInew : (((db.get_device md.dev).inodes.get_or_insert md.ino md.mtime
      md.nlink (md.blocks * 512)).push_file md.ino p).get md.ino
      = some ⟨md.mtime, md.nlink, md.blocks * 512, [p]⟩ := by
    rw [Inodes.get_push_file_self p h1]
    rfl
  have hIne : ∀ j, j ≠ md.ino →
      (((db.get_device md.dev).inodes.get_or_insert md.ino md.mtime
        md.nlink (md.blocks * 512)).push_file md.ino p).get j
      = (db.get_device md.dev).inodes.get j := by
    intro j hj
    rw [Inodes.get_push_file_ne p hj, Inodes.get_get_or_insert_ne _ _ _ hj]
  set D' : Device := { db.get_device md.dev with
    inodes := ((db.get_device md.dev).inodes.get_or_insert md.ino md.mtime
      md.nlink (md.blocks * 512)).push_file md.ino p,
    identicals := (db.get_device md.dev).identicals.push_ino (hashFn p) md.ino } with hD'
  have hGself : (db.set_device md.dev D').get_device md.dev = D' :=
    Database.get_set_device_self db md.dev D'
  have hGne : ∀ d, d ≠ md.dev → (db.set_device md.dev D').get_device d = db.get_device d :=
    fun d hd => Database.get_set_device_ne db D' hd
  have hIself : D'.inodes = ((db.get_device md.dev).inodes.get_or_insert md.ino md.mtime
      md.nlink (md.blocks * 512)).push_file md.ino p := rfl
  have hSs : D'.sieve = (db.get_device md.dev).sieve := rfl
  have hIdent : D'.identicals
      = (db.get_device md.dev).identicals.push_ino (hashFn p) md.ino := rfl
  refine ⟨?_, ?_, ?_, ?_, ?_, ?_, ?_, ?_, ?_, ?_, ?_, ?_, ?_⟩
  · -- reg_iff
    intro d i
    rw [seen_append_single]
    by_cases hd : d = md.dev
    · subst hd
      rw [hGself, hIself]
      by_cases hi : i = md.ino
      · subst hi
        simp [hInew]
      · rw [hIne i hi]
        have hi' : md.ino ≠ i := fun h => hi h.symm
        simp [inv.reg_iff md.dev i, hi']
    · rw [hGne d hd]
      have hd' : md.dev ≠ d := fun h => hd h.symm
      simp [inv.reg_iff d i, hd']
  · -- files_eq
    intro d i r' hr'
    rw [pathsOf_append, pathsOf_single]
    by_cases hd : d = md.dev
    · subst hd
      rw [hGself, hIself] at hr'
      by_cases hi : i = md.ino
      · subst hi
        rw [hInew] at hr'
        injection hr' with hr'
        subst hr'
        simp [hpnil]
      · rw [hIne i hi] at hr'
        have hi' : md.ino ≠ i := fun h => hi h.symm
        simp [inv.files_eq md.dev i r' hr', hi']
    · rw [hGne d hd] at hr'
      have hd' : md.dev ≠ d := fun h => hd h.symm
      simp [inv.files_eq d i r' hr', hd']
  · -- sieve_none
    intro d s hnone i hsz
    by_cases hd : d = md.dev
    · subst hd
      rw [hGself, hSs] at hnone
      rcases (sized_append_single md.dev s i l p md).mp hsz with hz | ⟨hz1, hz2, hz3⟩
      · exact inv.sieve_none md.dev s hnone i hz
      · subst hz3
        rw [hs] at hnone
        cases hnone
    · rw [hGne d hd] at hnone
      rcases (sized_append_single d s i l p md).mp hsz with hz | ⟨hz1, hz2, hz3⟩
      · exact inv.sieve_none d s hnone i hz
      · exact absurd hz1.symm hd
  · -- sieve_unique
    intro d s i hu
    by_cases hd : d = md.dev
    · subst hd
      rw [hGself, hSs] at hu
      by_cases hss : s = md.size
      · subst hss
        rw [hs] at hu
        cases hu
      · obtain ⟨hs1, hs2, hs3⟩ := inv.sieve_unique md.dev s i hu
        have hine : i ≠ md.ino := fun hc => hnseen (hc ▸ seen_of_sized hs1)
        refine ⟨(sized_append_single _ _ _ _ _ _).mpr (Or.inl hs1), ?_, ?_⟩
        · intro j hj
          rcases (sized_append_single md.dev s j l p md).mp hj with hz | ⟨hz1, hz2, hz3⟩
          · exact hs2 j hz
          · exact absurd hz3.symm hss
        · rw [hashed_append]
          rintro (hc | hc)
          · exact hs3 hc
          · obtain ⟨-, hc2⟩ := hashed_single.mp hc
            exact hine hc2.symm
    · rw [hGne d hd] at hu
      obtain ⟨hs1, hs2, hs3⟩ := inv.sieve_unique d s i hu
      refine ⟨(sized_append_single _ _ _ _ _ _).mpr (Or.inl hs1), ?_, ?_⟩
      · intro j hj
        rcases (sized_append_single d s j l p md).mp hj with hz | ⟨hz1, hz2, hz3⟩
        · exact hs2 j hz
        · exact absurd hz1.symm hd
      · rw [hashed_append]
        rintro (hc | hc)
        · exact hs3 hc
        · obtain ⟨hc1, -⟩ := hashed_single.mp hc
          exact hd hc1.symm
  · -- sieve_amb
    intro d s ha
    by_cases hd : d = md.dev
    · subst hd
      rw [hGself, hSs] at ha
      obtain ⟨i, j, hij, hz1, hz2⟩ := inv.sieve_amb md.dev s ha
      exact ⟨i, j, hij, (sized_append_single _ _ _ _ _ _).mpr (Or.inl hz1),
        (sized_append_single _ _ _ _ _ _).mpr (Or.inl hz2)⟩
    · rw [hGne d hd] at ha
      obtain ⟨i, j, hij, hz1, hz2⟩ := inv.sieve_amb d s ha
      exact ⟨i, j, hij, (sized_append_single _ _ _ _ _ _).mpr (Or.inl hz1),
        (sized_append_single _ _ _ _ _ _).mpr (Or.inl hz2)⟩
  · -- amb_hashed
    intro d s i ha hsz
    rw [hashed_append]
    by_cases hd : d = md.dev
    · subst hd
      rw [hGself, hSs] at ha
      rcases (sized_append_single md.dev s i l p md).mp hsz with hz | ⟨hz1, hz2, hz3⟩
      · exact Or.inl (inv.amb_hashed md.dev s i ha hz)
      · exact Or.inr (hashed_single.mpr ⟨rfl, hz2⟩)
    · rw [hGne d hd] at ha
      rcases (sized_append_single d s i l p md).mp hsz with hz | ⟨hz1, hz2, hz3⟩
      · exact Or.inl (inv.amb_hashed d s i ha hz)
      · exact absurd hz1.symm hd
  · -- calls_nodup
    rw [List.map_append]
    refine nodup_append_single inv.calls_nodup ?_
    intro hc
    exact hnhashed (mem_callKeys_iff.mp hc)
  · -- calls_path
    intro c hc
    rw [pathsOf_append]
    rcases List.mem_append.mp hc with hc1 | hc1
    · exact List.mem_append_left _ (inv.calls_path c hc1)
    · rw [List.mem_singleton] at hc1
      subst hc1
      refine List.mem_append_right _ ?_
      rw [pathsOf_single]
      simp
  · -- groups_eq
    intro d h
    rw [callsFor_append, callsFor_single]
    by_cases hd : d = md.dev
    · subst hd
      rw [hGself]
      show D'.identicals.group h = _
      rw [hIdent]
      by_cases hh : hashFn p = h
      · subst hh
        rw [IdenticalFiles.group_push_ino_self]
        simp [inv.groups_eq md.dev (hashFn p)]
      · rw [IdenticalFiles.group_push_ino_ne _ _ (fun hc => hh hc.symm)]
        simp [hh, inv.groups_eq md.dev h]
    · rw [hGne d hd]
      have hd' : ¬ (md.dev = d ∧ hashFn p = h) := fun hc => hd hc.1.symm
      simp [hd', inv.groups_eq d h]
  · -- keys_dev
    exact Database.keys_set_device _ _ _ inv.keys_dev
  · -- keys_ino
    intro d
    by_cases hd : d = md.dev
    · subst hd
      rw [hGself, hIself]
      exact Inodes.keys_push_file _ md.ino p
        (Inodes.keys_get_or_insert _ md.ino md.mtime md.nlink (md.blocks * 512)
          (inv.keys_ino md.dev))
    · rw [hGne d hd]
      exact inv.keys_ino d
  · -- keys_sieve
    intro d
    by_cases hd : d = md.dev
    · subst hd
      rw [hGself, hSs]
      exact inv.keys_sieve md.dev
    · rw [hGne d hd]
      exact inv.keys_sieve d
  · -- keys_id
    intro d
    by_cases hd : d = md.dev
    · subst hd
      rw [hGself, hIdent]
      exact IdenticalFiles.keys_push_ino _ (hashFn p) md.ino (inv.keys_id md.dev)
    · rw [hGne d hd]
      exact inv.keys_id d

theorem hashed_pair {d : Dev} {i : Ino} {d0 : Dev} {i0 : Ino} {p0 : FsPath}
    {d1 : Dev} {i1 : Ino} {p1 : FsPath} :
    hashed d i [⟨d0, i0, p0⟩, ⟨d1, i1, p1⟩] ↔ (d0 = d ∧ i0 = i) ∨ (d1 = d ∧ i1 = i) := by
  simp [hashed]

theorem callsFor_pair (hashFn : FsPath → HashV) (d : Dev) (h : HashV)
    (d0 : Dev) (i0 : Ino) (p0 : FsPath) (d1 : Dev) (i1 : Ino) (p1 : FsPath) :
    callsFor hashFn d h [⟨d0, i0, p0⟩, ⟨d1, i1, p1⟩]
      = (if d0 = d ∧ hashFn p0 = h then [i0] else [])
        ++ (if d1 = d ∧ hashFn p1 = h then [i1] else []) := by
  by_cases hc1 : d0 = d ∧ hashFn p0 = h <;> by_cases hc2 : d1 = d ∧ hashFn p1 = h <;>
    simp [callsFor, hc1, hc2]

theorem nodup_append_pair {α : Type} {l : List α} {a b : α}
    (h : l.Nodup) (ha : a ∉ l) (hb : b ∉ l) (hab : a ≠ b) : (l ++ [a, b]).Nodup := by
  refine List.Nodup.append h ?_ ?_
  · simp [hab]
  · intro x hx hx2
    rcases List.mem_cons.mp hx2 with h1 | h1
    · subst h1; exact ha hx
    · rw [List.mem_singleton] at h1
      subst h1; exact hb hx

theorem travInv_step_transition {hashFn : FsPath → HashV}
    {l : List (FsPath × Metadata)} {db : Database} {calls : List HashCall}
    {p : FsPath} {md : Metadata} {ino0 : Ino} {r0 : Inode} {path0 : FsPath}
    (inv : TravInv hashFn l db calls)
    (SC : SizeConsistent (l ++ [(p, md)]))
    (hreg : (db.get_device md.dev).inodes.get md.ino = none)
    (hs : (db.get_device md.dev).sieve.get md.size = some (.Unique ino0))
    (hr0 : (db.get_device md.dev).inodes.get ino0 = some r0)
    (hp0 : r0.files.head? = some path0) :
    TravInv hashFn (l ++ [(p, md)])
      (db.set_device md.dev
        { db.get_device md.dev with
          inodes := ((db.get_device md.dev).inodes.get_or_insert md.ino md.mtime
            md.nlink (md.blocks * 512)).push_file md.ino p,
          sieve := (db.get_device md.dev).sieve.set_ambiguous md.size,
          identicals := ((db.get_device md.dev).identicals.push_ino
            (hashFn path0) ino0).push_ino (hashFn p) md.ino })
      (calls ++ [⟨md.dev, ino0, path0⟩, ⟨md.dev, md.ino, p⟩]) := by
  have SCl : SizeConsistent l :=
    sizeConsistent_mono (fun x hx => List.mem_append_left _ hx) SC
  have hnseen : ¬ seen md.dev md.ino l := by
    intro h
    have := (inv.reg_iff md.dev md.ino).mpr h
    simp [hreg] at this
  have hnhashed : ¬ hashed md.dev md.ino calls := fun h => hnseen (seen_of_hashed inv h)
  have hpnil : pathsOf md.dev md.ino l = [] := pathsOf_eq_nil_of_not_seen hnseen
  obtain ⟨hsz0, huniq, hnh0⟩ := inv.sieve_unique md.dev md.size ino0 hs
  have hino0ne : ino0 ≠ md.ino := fun hc => hnseen (hc ▸ seen_of_sized hsz0)
  have hpath0mem : path0 ∈ pathsOf md.dev ino0 l := by
    have hf0 := inv.files_eq md.dev ino0 r0 hr0
    rw [← hf0]
    cases hl : r0.files with
    | nil => rw [hl] at hp0; cases hp0
    | cons x xs =>
        rw [hl] at hp0
        injection hp0 with hp0
        subst hp0
        exact hl ▸ List.mem_cons_self x xs
  have h1 := Inodes.get_get_or_insert_self (s := (db.get_device md.dev).inodes)
    (m := md.mtime) (n := md.nlink) (r := md.blocks * 512) hreg
  have hInew : (((db.get_device md.dev).inodes.get_or_insert md.ino md.mtime
      md.nlink (md.blocks * 512)).push_file md.ino p).get md.ino
      = some ⟨md.mtime, md.nlink, md.blocks * 512, [p]⟩ := by
    rw [Inodes.get_push_file_self p h1]
    rfl
  have hIne : ∀ j, j ≠ md.ino →
      (((db.get_device md.dev).inodes.get_or_insert md.ino md.mtime
        md.nlink (md.blocks * 512)).push_file md.ino p).get j
      = (db.get_device md.dev).inodes.get j := by
    intro j hj
    rw [Inodes.get_push_file_ne p hj, Inodes.get_get_or_insert_ne _ _ _ hj]
  set D' : Device := { db.get_device md.dev with
    inodes := ((db.get_device md.dev).inodes.get_or_insert md.ino md.mtime
      md.nlink (md.blocks * 512)).push_file md.ino p,
    sieve := (db.get_device md.dev).sieve.set_ambiguous md.size,
    identicals := ((db.get_device md.dev).identicals.push_ino
      (hashFn path0) ino0).push_ino (hashFn p) md.ino } with hD'
  have hGself : (db.set_device md.dev D').get_device md.dev = D' :=
    Database.get_set_device_self db md.dev D'
  have hGne : ∀ d, d ≠ md.dev → (db.set_device md.dev D').get_device d = db.get_device d :=
    fun d hd => Database.get_set_device_ne db D' hd
  have hIself : D'.inodes = ((db.get_device md.dev).inodes.get_or_insert md.ino md.mtime
      md.nlink (md.blocks * 512)).push_file md.ino p := rfl
  have hSs : D'.sieve = (db.get_device md.dev).sieve.set_ambiguous md.size := rfl
  have hIdent : D'.identicals = ((db.get_device md.dev).identicals.push_ino
      (hashFn path0) ino0).push_ino (hashFn p) md.ino := rfl
  refine ⟨?_, ?_, ?_, ?_, ?_, ?_, ?_, ?_, ?_, ?_, ?_, ?_, ?_⟩
  · -- reg_iff
    intro d i
    rw [seen_append_single]
    by_cases hd : d = md.dev
    · subst hd
      rw [hGself, hIself]
      by_cases hi : i = md.ino
      · subst hi
        simp [hInew]
      · rw [hIne i hi]
        have hi' : md.ino ≠ i := fun h => hi h.symm
        simp [inv.reg_iff md.dev i, hi']
    · rw [hGne d hd]
      have hd' : md.dev ≠ d := fun h => hd h.symm
      simp [inv.reg_iff d i, hd']
  · -- files_eq
    intro d i r' hr'
    rw [pathsOf_append, pathsOf_single]
    by_cases hd : d = md.dev
    · subst hd
      rw [hGself, hIself] at hr'
      by_cases hi : i = md.ino
      · subst hi
        rw [hInew] at hr'
        injection hr' with hr'
        subst hr'
        simp [hpnil]
      · rw [hIne i hi] at hr'
        have hi' : md.ino ≠ i := fun h => hi h.symm
        simp [inv.files_eq md.dev i r' hr', hi']
    · rw [hGne d hd] at hr'
      have hd' : md.dev ≠ d := fun h => hd h.symm
      simp [inv.files_eq d i r' hr', hd']
  · -- sieve_none
    intro d s hnone i hsz
    by_cases hd : d = md.dev
    · subst hd
      rw [hGself, hSs] at hnone
      by_cases hss : s = md.size
      · subst hss
        rw [FileSizeSieve.get_set_ambiguous_self] at hnone
        cases hnone
      · rw [FileSizeSieve.get_set_ambiguous_ne _ hss] at hnone
        rcases (sized_append_single md.dev s i l p md).mp hsz with hz | ⟨hz1, hz2, hz3⟩
        · exact inv.sieve_none md.dev s hnone i hz
        · exact absurd hz3.symm hss
    · rw [hGne d hd] at hnone
      rcases (sized_append_single d s i l p md).mp hsz with hz | ⟨hz1, hz2, hz3⟩
      · exact inv.sieve_none d s hnone i hz
      · exact absurd hz1.symm hd
  · -- sieve_unique
    intro d s i hu
    by_cases hd : d = md.dev
    · subst hd
      rw [hGself, hSs] at hu
      by_cases hss : s = md.size
      · subst hss
        rw [FileSizeSieve.get_set_ambiguous_self] at hu
        cases hu
      · rw [FileSizeSieve.get_set_ambiguous_ne _ hss] at hu
        obtain ⟨hs1, hs2, hs3⟩ := inv.sieve_unique md.dev s i hu
        have hine : i ≠ md.ino := fun hc => hnseen (hc ▸ seen_of_sized hs1)
        have hine0 : i ≠ ino0 := by
          intro hc
          subst hc
          exact hss (sized_size_eq SCl hs1 hsz0)
        refine ⟨(sized_append_single _ _ _ _ _ _).mpr (Or.inl hs1), ?_, ?_⟩
        · intro j hj
          rcases (sized_append_single md.dev s j l p md).mp hj with hz | ⟨hz1, hz2, hz3⟩
          · exact hs2 j hz
          · exact absurd hz3.symm hss
        · rw [hashed_append]
          rintro (hc | hc)
          · exact hs3 hc
          · rcases hashed_pair.mp hc with ⟨-, hc2⟩ | ⟨-, hc2⟩
            · exact hine0 hc2.symm
            · exact hine hc2.symm
    · rw [hGne d hd] at hu
      obtain ⟨hs1, hs2, hs3⟩ := inv.sieve_unique d s i hu
      refine ⟨(sized_append_single _ _ _ _ _ _).mpr (Or.inl hs1), ?_, ?_⟩
      · intro j hj
        rcases (sized_append_single d s j l p md).mp hj with hz | ⟨hz1, hz2, hz3⟩
        · exact hs2 j hz
        · exact absurd hz1.symm hd
      · rw [hashed_append]
        rintro (hc | hc)
        · exact hs3 hc
        · rcases hashed_pair.mp hc with ⟨hc1, -⟩ | ⟨hc1, -⟩
          · exact hd hc1.symm
          · exact hd hc1.symm
  · -- sieve_amb
    intro d s ha
    by_cases hd : d = md.dev
    · subst hd
      by_cases hss : s = md.size
      · subst hss
        refine ⟨ino0, md.ino, hino0ne,
          (sized_append_single _ _ _ _ _ _).mpr (Or.inl hsz0),
          (sized_append_single _ _ _ _ _ _).mpr (Or.inr ⟨rfl, rfl, rfl⟩)⟩
      · rw [hGself, hSs, FileSizeSieve.get_set_ambiguous_ne _ hss] at ha
        obtain ⟨i, j, hij, hz1, hz2⟩ := inv.sieve_amb md.dev s ha
        exact ⟨i, j, hij, (sized_append_single _ _ _ _ _ _).mpr (Or.inl hz1),
          (sized_append_single _ _ _ _ _ _).mpr (Or.inl hz2)⟩
    · rw [hGne d hd] at ha
      obtain ⟨i, j, hij, hz1, hz2⟩ := inv.sieve_amb d s ha
      exact ⟨i, j, hij, (sized_append_single _ _ _ _ _ _).mpr (Or.inl hz1),
        (sized_append_single _ _ _ _ _ _).mpr (Or.inl hz2)⟩
  · -- amb_hashed
    intro d s i ha hsz
    rw [hashed_append]
    by_cases hd : d = md.dev
    · subst hd
      by_cases hss : s = md.size
      · subst hss
        rcases (sized_append_single md.dev md.size i l p md).mp hsz with hz | ⟨hz1, hz2, hz3⟩
        · have : i = ino0 := huniq i hz
          subst this
          exact Or.inr (hashed_pair.mpr (Or.inl ⟨rfl, rfl⟩))
        · exact Or.inr (hashed_pair.mpr (Or.inr ⟨rfl, hz2⟩))
      · rw [hGself, hSs, FileSizeSieve.get_set_ambiguous_ne _ hss] at ha
        rcases (sized_append_single md.dev s i l p md).mp hsz with hz | ⟨hz1, hz2, hz3⟩
        · exact Or.inl (inv.amb_hashed md.dev s i ha hz)
        · exact absurd hz3.symm hss
    · rw [hGne d hd] at ha
      rcases (sized_append_single d s i l p md).mp hsz with hz | ⟨hz1, hz2, hz3⟩
      · exact Or.inl (inv.amb_hashed d s i ha hz)
      · exact absurd hz1.symm hd
  · -- calls_nodup
    rw [List.map_append]
    refine nodup_append_pair inv.calls_nodup ?_ ?_ ?_
    · intro hc
      exact hnh0 (mem_callKeys_iff.mp hc)
    · intro hc
      exact hnhashed (mem_callKeys_iff.mp hc)
    · intro hc
      rw [Prod.mk.injEq] at hc
      exact hino0ne hc.2
  · -- calls_path
    intro c hc
    rw [pathsOf_append]
    rcases List.mem_append.mp hc with hc1 | hc1
    · exact List.mem_append_left _ (inv.calls_path c hc1)
    · rcases List.mem_cons.mp hc1 with h1 | h1
      · subst h1
        exact List.mem_append_left _ hpath0mem
      · rw [List.mem_singleton] at h1
        subst h1
        refine List.mem_append_right _ ?_
        rw [pathsOf_single]
        simp
  · -- groups_eq
    intro d h
    rw [callsFor_append, callsFor_pair]
    by_cases hd : d = md.dev
    · subst hd
      rw [hGself]
      show D'.identicals.group h = _
      rw [hIdent]
      by_cases hh1 : hashFn p = h
      · subst hh1
        rw [IdenticalFiles.group_push_ino_self]
        by_cases hh0 : hashFn path0 = hashFn p
        · rw [hh0, IdenticalFiles.group_push_ino_self]
          simp [hh0, inv.groups_eq md.dev (hashFn p)]
        · rw [IdenticalFiles.group_push_ino_ne _ _ (fun hc => hh0 hc.symm)]
          simp [hh0, inv.groups_eq md.dev (hashFn p)]
      · rw [IdenticalFiles.group_push_ino_ne _ _ (fun hc => hh1 hc.symm)]
        by_cases hh0 : hashFn path0 = h
        · subst hh0
          rw [IdenticalFiles.group_push_ino_self]
          simp [hh1, inv.groups_eq md.dev (hashFn path0)]
        · rw [IdenticalFiles.group_push_ino_ne _ _ (fun hc => hh0 hc.symm)]
          simp [hh0, hh1, inv.groups_eq md.dev h]
    · rw [hGne d hd]
      have hd' : md.dev ≠ d := fun h => hd h.symm
      simp [hd', inv.groups_eq d h]
  · -- keys_dev
    exact Database.keys_set_device _ _ _ inv.keys_dev
  · -- keys_ino
    intro d
    by_cases hd : d = md.dev
    · subst hd
      rw [hGself, hIself]
      exact Inodes.keys_push_file _ md.ino p
        (Inodes.keys_get_or_insert _ md.ino md.mtime md.nlink (md.blocks * 512)
          (inv.keys_ino md.dev))
    · rw [hGne d hd]
      exact inv.keys_ino d
  · -- keys_sieve
    intro d
    by_cases hd : d = md.dev
    · subst hd
      rw [hGself, hSs]
      exact FileSizeSieve.keys_set_ambiguous _ md.size (inv.keys_sieve md.dev)
    · rw [hGne d hd]
      exact inv.keys_sieve d
  · -- keys_id
    intro d
    by_cases hd : d = md.dev
    · subst hd
      rw [hGself, hIdent]
      exact IdenticalFiles.keys_push_ino _ (hashFn p) md.ino
        (IdenticalFiles.keys_push_ino _ (hashFn path0) ino0 (inv.keys_id md.dev))
    · rw [hGne d hd]
      exact inv.keys_id d

/-- `prepare_file` never panics under the invariant, and preserves it. -/
theorem prepare_file_total_inv {hashFn : FsPath → HashV}
    {l : List (FsPath × Metadata)} {db : Database} {calls : List HashCall}
    {p : FsPath} {md : Metadata}
    (inv : TravInv hashFn l db calls)
    (SC : SizeConsistent (l ++ [(p, md)])) :
    ∃ db' nc, prepare_file hashFn db p md = some (db', nc) ∧
      TravInv hashFn (l ++ [(p, md)]) db' (calls ++ nc) := by
  cases hreg : (db.get_device md.dev).inodes.get md.ino with
  | some r =>
      refine ⟨_, [], prepare_file_known hreg, ?_⟩
      rw [List.append_nil]
      exact travInv_step_known inv SC hreg
  | none =>
      cases hs : (db.get_device md.dev).sieve.get md.size with
      | none =>
          refine ⟨_, [], prepare_file_fresh_unique hreg hs, ?_⟩
          rw [List.append_nil]
          exact travInv_step_fresh_unique inv SC hreg hs
      | some entry =>
          cases entry with
          | Ambiguous =>
              exact ⟨_, _, prepare_file_ambiguous hreg hs,
                travInv_step_ambiguous inv SC hreg hs⟩
          | Unique ino0 =>
              have hnseen : ¬ seen md.dev md.ino l := by
                intro h
                have := (inv.reg_iff md.dev md.ino).mpr h
                simp [hreg] at this
              obtain ⟨hsz0, -, -⟩ := inv.sieve_unique md.dev md.size ino0 hs
              have hino0ne : ino0 ≠ md.ino := fun hc => hnseen (hc ▸ seen_of_sized hsz0)
              have hseen0 : seen md.dev ino0 l := seen_of_sized hsz0
              have hsome := (inv.reg_iff md.dev ino0).mpr hseen0
              obtain ⟨r0, hr0⟩ := Option.isSome_iff_exists.mp hsome
              have hfne : r0.files ≠ [] := by
                rw [inv.files_eq md.dev ino0 r0 hr0]
                exact pathsOf_ne_nil_of_seen hseen0
              obtain ⟨path0, hp0⟩ : ∃ path0, r0.files.head? = some path0 := by
                cases hl : r0.files with
                | nil => exact absurd hl hfne
                | cons x xs => exact ⟨x, rfl⟩
              have h0 : (((db.get_device md.dev).inodes.get_or_insert md.ino md.mtime
                  md.nlink (md.blocks * 512)).push_file md.ino p).get ino0 = some r0 := by
                rw [Inodes.get_push_file_ne p hino0ne,
                  Inodes.get_get_or_insert_ne _ _ _ hino0ne]
                exact hr0
              exact ⟨_, _, prepare_file_transition hreg hs h0 hp0,
                travInv_step_transition inv SC hreg hs hr0 hp0⟩

/-- the file-scan loop never panics and establishes the invariant for the
processed list -/
theorem prepare_files_inv (hashFn : FsPath → HashV) :
    ∀ (scan l : List (FsPath × Metadata)) (db : Database) (calls : List HashCall),
    TravInv hashFn l db calls → SizeConsistent (l ++ scan) →
    ∃ db' calls', prepare_files hashFn scan db calls = some (db', calls') ∧
      TravInv hashFn (l ++ scan) db' calls'
  | [], l, db, calls, inv, _ => ⟨db, calls, rfl, by simpa using inv⟩
  | (p, md) :: rest, l, db, calls, inv, SC => by
      have SC1 : SizeConsistent (l ++ [(p, md)]) := by
        refine sizeConsistent_mono (fun x hx => ?_) SC
        rcases List.mem_append.mp hx with h1 | h1
        · exact List.mem_append_left _ h1
        · rw [List.mem_singleton] at h1
          subst h1
          exact List.mem_append_right _ (List.mem_cons_self _ _)
      obtain ⟨db1, nc, hpf, inv1⟩ := prepare_file_total_inv inv SC1
      have SC2 : SizeConsistent ((l ++ [(p, md)]) ++ rest) := by
        rw [List.append_assoc]
        exact SC
      obtain ⟨db', calls', hrec, inv'⟩ :=
        prepare_files_inv hashFn rest (l ++ [(p, md)]) db1 (calls ++ nc) inv1 SC2
      refine ⟨db', calls', ?_, ?_⟩
      · simpa [prepare_files, hpf] using hrec
      · rwa [List.append_assoc] at inv'

/-- Main traversal soundness theorem: on a size-consistent scan the traversal
never panics and the invariant holds for the final database and hash log. -/
theorem traversal_sound (hashFn : FsPath → HashV) (scan : List (FsPath × Metadata))
    (SC : SizeConsistent scan) :
    ∃ db calls, prepare_files hashFn scan Database.new [] = some (db, calls) ∧
      TravInv hashFn scan db calls := by
  have h := prepare_files_inv hashFn scan [] Database.new [] (travInv_nil hashFn)
    (by simpa using SC)
  simpa using h

instance decSeen (d : Dev) (i : Ino) (l : List (FsPath × Metadata)) :
    Decidable (seen d i l) :=
  decidable_of_iff (∃ e ∈ l, e.2.dev = d ∧ e.2.ino = i) Iff.rfl

instance decSized (d : Dev) (s : Nat) (i : Ino) (l : List (FsPath × Metadata)) :
    Decidable (sized d s i l) :=
  decidable_of_iff (∃ e ∈ l, e.2.dev = d ∧ e.2.ino = i ∧ e.2.size = s) Iff.rfl

instance decHashed (d : Dev) (i : Ino) (calls : List HashCall) :
    Decidable (hashed d i calls) :=
  decidable_of_iff (∃ c ∈ calls, c.dev = d ∧ c.ino = i) Iff.rfl

instance decSizeConsistent (l : List (FsPath × Metadata)) :
    Decidable (SizeConsistent l) :=
  decidable_of_iff (∀ e1 ∈ l, ∀ e2 ∈ l,
    e1.2.dev = e2.2.dev → e1.2.ino = e2.2.ino → e1.2.size = e2.2.size) Iff.rfl

theorem hashed_of_mem_callsFor {hashFn : FsPath → HashV} {d : Dev} {h : HashV}
    {calls : List HashCall} {i : Ino}
    (hm : i ∈ callsFor hashFn d h calls) : hashed d i calls := by
  obtain ⟨c, hc, hcond⟩ := List.mem_filterMap.mp hm
  by_cases hcc : c.dev = d ∧ hashFn c.path = h
  · rw [if_pos hcc] at hcond
    injection hcond with hcond
    exact ⟨c, hc, hcc.1, hcond⟩
  · rw [if_neg hcc] at hcond
    cases hcond

theorem TravInv.registered_of_seen {hashFn : FsPath → HashV}
    {l : List (FsPath × Metadata)} {db : Database} {calls : List HashCall}
    (inv : TravInv hashFn l db calls) {d : Dev} {i : Ino} (hseen : seen d i l) :
    ∃ r, (db.get_device d).inodes.get i = some r ∧ r.files ≠ [] := by
  obtain ⟨r, hr⟩ := Option.isSome_iff_exists.mp ((inv.reg_iff d i).mpr hseen)
  exact ⟨r, hr, by rw [inv.files_eq d i r hr]; exact pathsOf_ne_nil_of_seen hseen⟩

/-! ### Claims about the traversal phase -/

/-- C4: for every regular file whose logical size occurs exactly once among
the distinct inodes seen on its device during a run, the hash function is
never invoked on it: traversal leaves such an inode in the size sieve's
Unique state and never inserts it into any content group. -/
theorem C4_size_unique_never_hashed (hashFn : FsPath → HashV)
    (scan : List (FsPath × Metadata)) (SC : SizeConsistent scan)
    (db : Database) (calls : List HashCall)
    (hrun : prepare_files hashFn scan Database.new [] = some (db, calls))
    (d : Dev) (s : Nat) (i : Ino)
    (hsi : sized d s i scan)
    (huniq : ∀ j, sized d s j scan → j = i) :
    ¬ hashed d i calls ∧
    (db.get_device d).sieve.get s = some (.Unique i) ∧
    ∀ h, i ∉ (db.get_device d).identicals.group h := by
  obtain ⟨db', calls', hrun', inv⟩ := traversal_sound hashFn scan SC
  rw [hrun] at hrun'
  injection hrun' with hp
  injection hp with h1 h2
  subst h1
  subst h2
  have hsieve : (db.get_device d).sieve.get s = some (.Unique i) := by
    cases hsv : (db.get_device d).sieve.get s with
    | none => exact absurd hsi (inv.sieve_none d s hsv i)
    | some e =>
        cases e with
        | Unique j =>
            obtain ⟨hj1, -, -⟩ := inv.sieve_unique d s j hsv
            rw [huniq j hj1]
        | Ambiguous =>
            obtain ⟨i1, j1, hij, hz1, hz2⟩ := inv.sieve_amb d s hsv
            exact absurd ((huniq i1 hz1).trans (huniq j1 hz2).symm) hij
  obtain ⟨-, -, hnh⟩ := inv.sieve_unique d s i hsieve
  refine ⟨hnh, hsieve, ?_⟩
  intro h hmem
  rw [inv.groups_eq d h] at hmem
  exact hnh (hashed_of_mem_callsFor hmem)

/-- C5: over an entire run the hash function is invoked at most once per
distinct (device, inode) pair — the invocation log has no duplicate
(device, inode) key. -/
theorem C5_hash_once_per_inode (hashFn : FsPath → HashV)
    (scan : List (FsPath × Metadata)) (SC : SizeConsistent scan)
    (db : Database) (calls : List HashCall)
    (hrun : prepare_files hashFn scan Database.new [] = some (db, calls)) :
    (calls.map fun c => (c.dev, c.ino)).Nodup := by
  obtain ⟨db', calls', hrun', inv⟩ := traversal_sound hashFn scan SC
  rw [hrun] at hrun'
  injection hrun' with hp
  injection hp with h1 h2
  subst h1
  subst h2
  exact inv.calls_nodup

/-- C10: after any traversal, every inode stored in a size-sieve Unique
entry or in any content group of a device is registered in that device's
inode registry with a non-empty path list, so the `unwrap`s and the
first-path indexing of the retroactive hash and of consolidation cannot
fail. -/
theorem C10_registry_lookups_safe (hashFn : FsPath → HashV)
    (scan : List (FsPath × Metadata)) (SC : SizeConsistent scan)
    (db : Database) (calls : List HashCall)
    (hrun : prepare_files hashFn scan Database.new [] = some (db, calls)) :
    (∀ d s i, (db.get_device d).sieve.get s = some (.Unique i) →
        ∃ r, (db.get_device d).inodes.get i = some r ∧ r.files ≠ []) ∧
    (∀ d hg, hg ∈ (db.get_device d).identicals.map → ∀ i, i ∈ hg.2.inos →
        ∃ r, (db.get_device d).inodes.get i = some r ∧ r.files ≠ []) := by
  obtain ⟨db', calls', hrun', inv⟩ := traversal_sound hashFn scan SC
  rw [hrun] at hrun'
  injection hrun' with hp
  injection hp with h1 h2
  subst h1
  subst h2
  constructor
  · intro d s i hu
    obtain ⟨hs1, -, -⟩ := inv.sieve_unique d s i hu
    exact inv.registered_of_seen (seen_of_sized hs1)
  · intro d hg hmem i hino
    have hlk : lookupA hg.1 (db.get_device d).identicals.map = some hg.2 :=
      lookupA_of_mem_nodup (inv.keys_id d) hmem
    have hgrp : (db.get_device d).identicals.group hg.1 = hg.2.inos := by
      unfold IdenticalFiles.group
      rw [hlk]
      rfl
    have : i ∈ callsFor hashFn d hg.1 calls := by
      rw [← inv.groups_eq d hg.1, hgrp]
      exact hino
    exact inv.registered_of_seen (seen_of_hashed inv (hashed_of_mem_callsFor this))

/-! ### Concrete witness runs -/

/-- a concrete digest function for witness runs -/
def hashW : FsPath → HashV := fun p => p % 3

/-- witness scan: one file of unique size 5, two distinct inodes of size 7 -/
def scanC4 : List (FsPath × Metadata) :=
  [(10, ⟨1, 100, 5, 0, 1, 8⟩), (11, ⟨1, 101, 7, 0, 1, 8⟩), (12, ⟨1, 102, 7, 0, 2, 8⟩)]

/-- the database and digest log produced by the witness scan -/
def runC4 : Database × List HashCall :=
  (prepare_files hashW scanC4 Database.new []).getD (Database.new, [])

theorem C4_size_unique_never_hashed_witness :
    ¬ hashed 1 100 runC4.2 ∧
    (runC4.1.get_device 1).sieve.get 5 = some (.Unique 100) ∧
    ∀ h, 100 ∉ (runC4.1.get_device 1).identicals.group h :=
  C4_size_unique_never_hashed hashW scanC4 (by decide) runC4.1 runC4.2 (by rfl)
    1 5 100 (by decide)
    (by intro j hj; simp [sized, scanC4] at hj; tauto)

/-- witness scan for C5: three same-size inodes, one of them seen twice -/
def scanC5 : List (FsPath × Metadata) :=
  [(20, ⟨1, 200, 9, 0, 2, 8⟩), (21, ⟨1, 201, 9, 0, 1, 8⟩),
   (22, ⟨1, 200, 9, 0, 2, 8⟩), (23, ⟨1, 202, 9, 0, 1, 8⟩)]

/-- the database and digest log produced by the C5 witness scan -/
def runC5 : Database × List HashCall :=
  (prepare_files hashW scanC5 Database.new []).getD (Database.new, [])

theorem C5_hash_once_per_inode_witness :
    ((runC5.2).map fun c => (c.dev, c.ino)).Nodup :=
  C5_hash_once_per_inode hashW scanC5 (by decide) runC5.1 runC5.2 (by rfl)

theorem C10_registry_lookups_safe_witness :
    (∀ d s i, (runC5.1.get_device d).sieve.get s = some (.Unique i) →
        ∃ r, (runC5.1.get_device d).inodes.get i = some r ∧ r.files ≠ []) ∧
    (∀ d hg, hg ∈ (runC5.1.get_device d).identicals.map → ∀ i, i ∈ hg.2.inos →
        ∃ r, (runC5.1.get_device d).inodes.get i = some r ∧ r.files ≠ []) :=
  C10_registry_lookups_safe hashW scanC5 (by decide) runC5.1 runC5.2 (by rfl)

/-! ### Filesystem model for the consolidation phase

The consolidation phase (`update_mtime`, `relink`, `execute_relink` of
src/lib.rs) mutates the filesystem.  The filesystem is modelled as the map
from existing regular-file paths to inodes, the modification time of every
file inode and of every directory, and a clock used to model the fresh
timestamps a directory receives when one of its entries is created or
removed.  The static layout (parent directory of a path, device of a
directory, device of an inode) never changes during a run. -/

abbrev Dir := Nat

/-- static filesystem layout -/
structure FsLayout where
  parent : FsPath → Option Dir
  dirDev : Dir → Dev
  inoDev : Ino → Dev

/-- mutable filesystem state -/
structure FsState where
  entries : List (FsPath × Ino)
  inoMtime : Ino → FileTime
  dirMtime : Dir → FileTime
  clock : FileTime

/-- remove the binding of key `k`, modelling `fs::remove_file` -/
def eraseA {V : Type} (k : Nat) : List (Nat × V) → List (Nat × V)
  | [] => []
  | (k', v) :: rest => if k' = k then rest else (k', v) :: eraseA k rest

/-- the error kinds of the consolidation phase.  `panicErr` models a Rust
panic (`unwrap()` or out-of-bounds indexing); the others model the `Err`
returns of src/lib.rs. -/
inductive RunErr where
  | noParent
  | devMismatch
  | removeErr
  | linkErr
  | metaErr
  | panicErr
deriving DecidableEq, Repr

/-- the observable actions of the consolidation phase, in order:
stdout lines, file-mtime writes and relink invocations -/
inductive Op where
  | print (p : FsPath)
  | printArrow (p : FsPath)
  | setMtime (p : FsPath) (t : FileTime)
  | relinkOp (original link : FsPath)
deriving DecidableEq, Repr

/-- models `update_mtime` of src/lib.rs: read the file's current mtime and
write `mtime` only if it differs -/
def update_mtime (s : FsState) (fp : FsPath) (mtime : FileTime) :
    FsState × List Op × Option RunErr :=
  match lookupA fp s.entries with
  | none => (s, [], some .metaErr)
  | some i =>
      let file_mtime := s.inoMtime i
      if file_mtime ≠ mtime then
        ({ s with inoMtime := fun j => if j = i then mtime else s.inoMtime j },
          [Op.setMtime fp mtime], none)
      else (s, [], none)

/-- models `relink` of src/lib.rs, faithfully including that BOTH metadata
calls before the `ensure!` stat `link_dir_path` (the binding named
`original_metadata` also stats the link's parent directory, not the
original).  Removing or creating a directory entry stamps the parent
directory's mtime with the current clock; the final `set_file_mtime`
restores the recorded value. -/
def relink (L : FsLayout) (s : FsState) (original link : FsPath) :
    FsState × Option RunErr :=
  match L.parent link with
  | none => (s, some .noParent)
  | some link_dir =>
      let original_dev := L.dirDev link_dir
      let link_dir_dev := L.dirDev link_dir
      if original_dev ≠ link_dir_dev then (s, some .devMismatch)
      else
        let link_dir_mtime := s.dirMtime link_dir
        match lookupA link s.entries with
        | none => (s, some .removeErr)
        | some _ =>
            let s1 : FsState := { s with
              entries := eraseA link s.entries,
              dirMtime := fun d => if d = link_dir then s.clock else s.dirMtime d,
              clock := s.clock + 1 }
            match lookupA original s1.entries, lookupA link s1.entries with
            | some i, none =>
                if L.inoDev i ≠ L.dirDev link_dir then (s1, some .linkErr)
                else
                  let s2 : FsState := { s1 with
                    entries := (link, i) :: s1.entries,
                    dirMtime := fun d => if d = link_dir then s1.clock else s1.dirMtime d,
                    clock := s1.clock + 1 }
                  let s3 : FsState := { s2 with
                    dirMtime := fun d => if d = link_dir then link_dir_mtime else s2.dirMtime d }
                  (s3, none)
            | _, _ => (s1, some .linkErr)

/-- models `device.inodes.get(ino).unwrap()` over a group's inode list
(`none` models the panic) -/
def collectInodes (device : Device) : List Ino → Option (List Inode)
  | [] => some []
  | i :: rest =>
      match device.inodes.get i with
      | none => none
      | some r => (collectInodes device rest).map (fun l => r :: l)

/-- models `inodes.sort_by_key(|inode| std::cmp::Reverse(inode.nlink))`:
a stable sort by descending hardlink count -/
def sortInodes (inodes : List Inode) : List Inode :=
  List.insertionSort (fun a b => b.nlink ≤ a.nlink) inodes

/-- the inner loop of `execute_relink` over one inode's discovered paths -/
def relink_paths (L : FsLayout) (original_path : FsPath) :
    List FsPath → FsState → FsState × List Op × Option RunErr
  | [], s => (s, [], none)
  | fp :: rest, s =>
      match relink L s original_path fp with
      | (s1, some e) => (s1, [Op.printArrow fp, Op.relinkOp original_path fp], some e)
      | (s1, none) =>
          match relink_paths L original_path rest s1 with
          | (s2, ops, e2) =>
              (s2, Op.printArrow fp :: Op.relinkOp original_path fp :: ops, e2)

/-- the loop of `execute_relink` over the non-canonical inodes of a group,
accumulating reclaimed bytes -/
def relink_inodes (L : FsLayout) (original_path : FsPath) :
    List Inode → FsState → FsState × Nat × List Op × Option RunErr
  | [], s => (s, 0, [], none)
  | inode :: rest, s =>
      match relink_paths L original_path inode.files s with
      | (s1, ops1, some e) => (s1, 0, ops1, some e)
      | (s1, ops1, none) =>
          let g1 := if inode.files.length = inode.nlink then inode.realsize else 0
          match relink_inodes L original_path rest s1 with
          | (s2, g2, ops2, e2) => (s2, g1 + g2, ops1 ++ ops2, e2)

/-- the body of `execute_relink` for one content group -/
def execute_group (L : FsLayout) (device : Device) (g : IdenticalFile)
    (s : FsState) : FsState × Nat × List Op × Option RunErr :=
  match collectInodes device g.inos with
  | none => (s, 0, [], some .panicErr)
  | some inodes0 =>
      let inodes := sortInodes inodes0
      if inodes.length ≤ 1 then (s, 0, [], none)
      else
        match inodes with
        | [] => (s, 0, [], some .panicErr)
        | inode0 :: restInodes =>
            match inode0.files.head? with
            | none => (s, 0, [], some .panicErr)
            | some original_path =>
                match (inodes.map Inode.mtime).min? with
                | none => (s, 0, [Op.print original_path], some .panicErr)
                | some mtime =>
                    match update_mtime s original_path mtime with
                    | (s1, ops1, some e) =>
                        (s1, 0, Op.print original_path :: ops1, some e)
                    | (s1, ops1, none) =>
                        match relink_inodes L original_path restInodes s1 with
                        | (s2, g2, ops2, e2) =>
                            (s2, g2, Op.print original_path :: (ops1 ++ ops2), e2)

/-- the loop of `execute_relink` over a device's content groups -/
def execute_groups (L : FsLayout) (device : Device) :
    List (HashV × IdenticalFile) → FsState → FsState × Nat × List Op × Option RunErr
  | [], s => (s, 0, [], none)
  | (_, g) :: rest, s =>
      match execute_group L device g s with
      | (s1, g1, ops1, some e) => (s1, g1, ops1, some e)
      | (s1, g1, ops1, none) =>
          match execute_groups L device rest s1 with
          | (s2, g2, ops2, e2) => (s2, g1 + g2, ops1 ++ ops2, e2)

/-- the loop of `execute_relink` over the devices of the database -/
def execute_devices (L : FsLayout) :
    List (Dev × Device) → FsState → FsState × Nat × List Op × Option RunErr
  | [], s => (s, 0, [], none)
  | (_, device) :: rest, s =>
      match execute_groups L device device.identicals.map s with
      | (s1, g1, ops1, some e) => (s1, g1, ops1, some e)
      | (s1, g1, ops1, none) =>
          match execute_devices L rest s1 with
          | (s2, g2, ops2, e2) => (s2, g1 + g2, ops1 ++ ops2, e2)

/-- models `execute_relink` of src/lib.rs: the final filesystem state, the
reported gain, the observable actions, and the first error if any -/
def execute_relink (L : FsLayout) (db : Database) (s : FsState) :
    FsState × Nat × List Op × Option RunErr :=
  execute_devices L db.devices s

/-! ### Claims about `relink` -/

/-- concrete cross-device layout for C1: path 0 → inode 100 on device 1
(parent dir 20, device 1); path 1 → inode 200 on device 2 (parent dir 10,
device 2) -/
def L1 : FsLayout :=
  { parent := fun p => if p = 0 then some 20 else if p = 1 then some 10 else none,
    dirDev := fun d => if d = 10 then 2 else 1,
    inoDev := fun i => if i = 200 then 2 else 1 }

/-- concrete cross-device filesystem state for C1 -/
def fs1 : FsState :=
  { entries := [(0, 100), (1, 200)],
    inoMtime := fun _ => 0,
    dirMtime := fun _ => 0,
    clock := 5 }

/-- C1 (claim FALSIFIED by the code): `relink` can never return the
device-mismatch error, because both metadata bindings stat the link's
parent directory, so the `ensure!` compares a device id with itself.  On a
concrete cross-device input the relink instead fails inside `fs::hard_link`
(EXDEV) AFTER `fs::remove_file` has already succeeded: the relinked path
has been removed by the time the error is reported. -/
theorem C1_cross_device_check_ineffective :
    (∀ (L : FsLayout) (s : FsState) (o q : FsPath),
        (relink L s o q).2 ≠ some .devMismatch) ∧
    (relink L1 fs1 0 1).2 = some .linkErr ∧
    lookupA 1 ((relink L1 fs1 0 1).1).entries = none := by
  refine ⟨?_, by decide, by decide⟩
  intro L s o q
  unfold relink
  cases hp : L.parent q with
  | none => simp
  | some d =>
      simp only [ne_eq, not_true_eq_false, if_false]
      cases hl : lookupA q s.entries with
      | none => simp
      | some i0 =>
          cases hlo : lookupA o (eraseA q s.entries) with
          | none => simp
          | some i =>
              cases hlq : lookupA q (eraseA q s.entries) with
              | some j => simp
              | none =>
                  by_cases hdev : L.inoDev i ≠ L.dirDev d
                  · simp [hdev]
                  · simp [hdev]

/-- C8: for every successfully relinked path, the parent directory's
modification time after `relink` equals the value recorded immediately
before the removal — the directory mtime is unchanged across the
operation, whatever timestamps the entry mutations stamped in between. -/
theorem C8_parent_dir_mtime_preserved (L : FsLayout) (s : FsState)
    (original link : FsPath) (d : Dir)
    (hpar : L.parent link = some d)
    (hok : (relink L s original link).2 = none) :
    ((relink L s original link).1).dirMtime d = s.dirMtime d := by
  unfold relink at hok ⊢
  rw [hpar] at hok ⊢
  simp only [ne_eq, not_true_eq_false, if_false] at hok ⊢
  cases hl : lookupA link s.entries with
  | none => simp [hl] at hok
  | some i0 =>
      cases hlo : lookupA original (eraseA link s.entries) with
      | none => simp [hl, hlo] at hok
      | some i =>
          cases hlq : lookupA link (eraseA link s.entries) with
          | some j => simp [hl, hlo, hlq] at hok
          | none =>
              by_cases hdev : L.inoDev i ≠ L.dirDev d
              · simp [hl, hlo, hlq, hdev] at hok
              · have hdev' := not_not.mp hdev
                simp [hdev']

/-- same-device layout for the C8 witness -/
def L2 : FsLayout :=
  { parent := fun p => if p ≤ 1 then some 10 else none,
    dirDev := fun _ => 1,
    inoDev := fun _ => 1 }

/-- filesystem state for the C8 witness -/
def fs2 : FsState :=
  { entries := [(0, 100), (1, 200)],
    inoMtime := fun _ => 0,
    dirMtime := fun d => if d = 10 then 42 else 0,
    clock := 5 }

theorem C8_parent_dir_mtime_preserved_witness :
    ((relink L2 fs2 0 1).1).dirMtime 10 = fs2.dirMtime 10 :=
  C8_parent_dir_mtime_preserved L2 fs2 0 1 10 (by decide) (by decide)

/-! ### Helper lemmas for the consolidation phase -/

theorem collectInodes_length {device : Device} :
    ∀ {inos : List Ino} {l : List Inode},
    collectInodes device inos = some l → l.length = inos.length
  | [], l, h => by
      unfold collectInodes at h
      injection h with h
      rw [← h]
      rfl
  | i :: rest, l, h => by
      unfold collectInodes at h
      cases hg : device.inodes.get i with
      | none => rw [hg] at h; cases h
      | some r =>
          rw [hg] at h
          cases hc : collectInodes device rest with
          | none => rw [hc] at h; cases h
          | some l' =>
              rw [hc] at h
              injection h with h
              rw [← h]
              simp [collectInodes_length hc]

instance : IsTotal Inode (fun a b => b.nlink ≤ a.nlink) :=
  ⟨fun a b => le_total b.nlink a.nlink⟩

instance : IsTrans Inode (fun a b => b.nlink ≤ a.nlink) :=
  ⟨fun _ _ _ h1 h2 => le_trans h2 h1⟩

theorem sortInodes_perm (l : List Inode) : (sortInodes l).Perm l :=
  List.perm_insertionSort _ l

theorem sortInodes_sorted (l : List Inode) :
    List.Sorted (fun a b => b.nlink ≤ a.nlink) (sortInodes l) :=
  List.sorted_insertionSort _ l

theorem sortInodes_length (l : List Inode) : (sortInodes l).length = l.length :=
  (sortInodes_perm l).length_eq

theorem relink_inoMtime (L : FsLayout) (s : FsState) (o q : FsPath) :
    ((relink L s o q).1).inoMtime = s.inoMtime := by
  unfold relink
  cases L.parent q with
  | none => rfl
  | some d =>
      simp only [ne_eq, not_true_eq_false, if_false]
      cases lookupA q s.entries with
      | none => rfl
      | some i0 =>
          cases lookupA o (eraseA q s.entries) with
          | none => rfl
          | some i =>
              cases lookupA q (eraseA q s.entries) with
              | some j => rfl
              | none =>
                  by_cases hdev : L.inoDev i = L.dirDev d
                  · simp [hdev]
                  · simp [hdev]

theorem relink_paths_inoMtime (L : FsLayout) (o : FsPath) :
    ∀ (fps : List FsPath) (s : FsState),
    ((relink_paths L o fps s).1).inoMtime = s.inoMtime
  | [], s => rfl
  | fp :: rest, s => by
      unfold relink_paths
      rcases hre : relink L s o fp with ⟨s1, e1⟩
      have hm1 : s1.inoMtime = s.inoMtime := by
        have := relink_inoMtime L s o fp
        rw [hre] at this
        exact this
      cases e1 with
      | some e => simpa using hm1
      | none =>
          rcases hrp : relink_paths L o rest s1 with ⟨s2, ops, e2⟩
          have hm2 : s2.inoMtime = s1.inoMtime := by
            have := relink_paths_inoMtime L o rest s1
            rw [hrp] at this
            exact this
          simpa [hrp] using hm2.trans hm1

theorem relink_inodes_inoMtime (L : FsLayout) (o : FsPath) :
    ∀ (il : List Inode) (s : FsState),
    ((relink_inodes L o il s).1).inoMtime = s.inoMtime
  | [], s => rfl
  | inode :: rest, s => by
      unfold relink_inodes
      rcases hrp : relink_paths L o inode.files s with ⟨s1, ops1, e1⟩
      have hm1 : s1.inoMtime = s.inoMtime := by
        have := relink_paths_inoMtime L o inode.files s
        rw [hrp] at this
        exact this
      cases e1 with
      | some e => simpa using hm1
      | none =>
          rcases hri : relink_inodes L o rest s1 with ⟨s2, g2, ops2, e2⟩
          have hm2 : s2.inoMtime = s1.inoMtime := by
            have := relink_inodes_inoMtime L o rest s1
            rw [hri] at this
            exact this
          simpa [hri] using hm2.trans hm1

theorem relink_paths_ops_shape (L : FsLayout) (o : FsPath) :
    ∀ (fps : List FsPath) (s : FsState),
    ∀ op ∈ (relink_paths L o fps s).2.1,
    (∃ fp, op = Op.printArrow fp) ∨ (∃ b, op = Op.relinkOp o b)
  | [], s, op, h => by simp [relink_paths] at h
  | fp :: rest, s, op, h => by
      unfold relink_paths at h
      rcases hre : relink L s o fp with ⟨s1, e1⟩
      rw [hre] at h
      cases e1 with
      | some e =>
          simp at h
          rcases h with h | h
          · exact Or.inl ⟨fp, h⟩
          · exact Or.inr ⟨fp, h⟩
      | none =>
          rcases hrp : relink_paths L o rest s1 with ⟨s2, ops, e2⟩
          have h' : op ∈ (match relink_paths L o rest s1 with
              | (s2, ops, e2) =>
                (s2, Op.printArrow fp :: Op.relinkOp o fp :: ops, e2)).2.1 := h
          rw [hrp] at h'
          simp at h'
          rcases h' with h' | h' | h'
          · exact Or.inl ⟨fp, h'⟩
          · exact Or.inr ⟨fp, h'⟩
          · exact relink_paths_ops_shape L o rest s1 op (by rw [hrp]; exact h')

theorem relink_inodes_ops_shape (L : FsLayout) (o : FsPath) :
    ∀ (il : List Inode) (s : FsState),
    ∀ op ∈ (relink_inodes L o il s).2.2.1,
    (∃ fp, op = Op.printArrow fp) ∨ (∃ b, op = Op.relinkOp o b)
  | [], s, op, h => by simp [relink_inodes] at h
  | inode :: rest, s, op, h => by
      unfold relink_inodes at h
      rcases hrp : relink_paths L o inode.files s with ⟨s1, ops1, e1⟩
      rw [hrp] at h
      cases e1 with
      | some e =>
          exact relink_paths_ops_shape L o inode.files s op (by rw [hrp]; exact h)
      | none =>
          rcases hri : relink_inodes L o rest s1 with ⟨s2, g2, ops2, e2⟩
          have h' : op ∈ (match relink_inodes L o rest s1 with
              | (s2, g2, ops2, e2) => (s2,
                (if inode.files.length = inode.nlink then inode.realsize else 0) + g2,
                ops1 ++ ops2, e2)).2.2.1 := h
          rw [hri] at h'
          simp at h'
          rcases h' with h' | h'
          · exact relink_paths_ops_shape L o inode.files s op (by rw [hrp]; exact h')
          · exact relink_inodes_ops_shape L o rest s1 op (by rw [hri]; exact h')

theorem execute_group_eq {L : FsLayout} {device : Device} {g : IdenticalFile}
    {inodes : List Inode} {inode0 : Inode} {restI : List Inode} {p0 : FsPath}
    {m : FileTime}
    (hcol : collectInodes device g.inos = some inodes)
    (hsort : sortInodes inodes = inode0 :: restI)
    (hrne : restI ≠ [])
    (hp0 : inode0.files.head? = some p0)
    (hmin : ((sortInodes inodes).map Inode.mtime).min? = some m)
    (s : FsState) :
    execute_group L device g s
      = match update_mtime s p0 m with
        | (s1, ops1, some e) => (s1, 0, Op.print p0 :: ops1, some e)
        | (s1, ops1, none) =>
            match relink_inodes L p0 restI s1 with
            | (s2, g2, ops2, e2) => (s2, g2, Op.print p0 :: (ops1 ++ ops2), e2) := by
  unfold execute_group
  rw [hcol]
  rw [hsort] at hmin
  have hlen : ¬ (inode0 :: restI).length ≤ 1 := by
    simp [List.length_eq_zero, hrne]
  simp only [hsort, if_neg hlen, hp0, hmin]

theorem update_mtime_ops (s : FsState) (fp : FsPath) (t : FileTime) :
    ∀ op ∈ (update_mtime s fp t).2.1, op = Op.setMtime fp t := by
  unfold update_mtime
  cases h : lookupA fp s.entries with
  | none => simp
  | some i =>
      by_cases hc : s.inoMtime i ≠ t
      · simp [hc]
      · simp [hc]

/-- C6: consolidation orders each group's member inodes by descending
recorded hardlink count (a stable sort, ties arbitrary); the canonical path
is the first discovered path of the top-ranked inode and every relink uses
it as the link source; a group with fewer than two member inodes is left
completely untouched — no state change, no gain, no output, no error. -/
theorem C6_canonical_selection (L : FsLayout) (device : Device) (g : IdenticalFile)
    (s : FsState) (inodes : List Inode)
    (hcol : collectInodes device g.inos = some inodes) :
    (g.inos.length ≤ 1 → execute_group L device g s = (s, 0, [], none)) ∧
    List.Sorted (fun a b => b.nlink ≤ a.nlink) (sortInodes inodes) ∧
    (sortInodes inodes).Perm inodes ∧
    (∀ inode0 restI p0, sortInodes inodes = inode0 :: restI → restI ≠ [] →
        inode0.files.head? = some p0 →
        (∀ x ∈ inodes, x.nlink ≤ inode0.nlink) ∧
        ∃ s' gn ops err, execute_group L device g s = (s', gn, Op.print p0 :: ops, err) ∧
          ∀ a b, Op.relinkOp a b ∈ ops → a = p0) := by
  refine ⟨?_, sortInodes_sorted inodes, sortInodes_perm inodes, ?_⟩
  · intro hlen
    have hl2 : (sortInodes inodes).length ≤ 1 := by
      rw [sortInodes_length, collectInodes_length hcol]
      exact hlen
    unfold execute_group
    rw [hcol]
    simp only [if_pos hl2]
  · intro inode0 restI p0 hsort hrne hp0
    constructor
    · intro x hx
      have hx' : x ∈ sortInodes inodes := ((sortInodes_perm inodes).mem_iff).mpr hx
      rw [hsort] at hx'
      rcases List.mem_cons.mp hx' with h1 | h1
      · subst h1; exact le_refl _
      · have hs := sortInodes_sorted inodes
        rw [hsort] at hs
        exact (List.pairwise_cons.mp hs).1 x h1
    · obtain ⟨m, hmin⟩ : ∃ m, ((sortInodes inodes).map Inode.mtime).min? = some m := by
        rw [hsort]
        exact ⟨_, List.min?_cons⟩
      rw [execute_group_eq hcol hsort hrne hp0 hmin s]
      rcases hupd : update_mtime s p0 m with ⟨s1, ops1, e1⟩
      have hops1 : ∀ op ∈ ops1, op = Op.setMtime p0 m := by
        intro op hop
        exact update_mtime_ops s p0 m op (by rw [hupd]; exact hop)
      cases e1 with
      | some e =>
          refine ⟨s1, 0, ops1, some e, rfl, ?_⟩
          intro a b hab
          cases hops1 _ hab
      | none =>
          rcases hri : relink_inodes L p0 restI s1 with ⟨s2, g2, ops2, e2⟩
          refine ⟨s2, g2, ops1 ++ ops2, e2, by simp only [hri], ?_⟩
          intro a b hab
          rcases List.mem_append.mp hab with h1 | h1
          · cases hops1 _ h1
          · have := relink_inodes_ops_shape L p0 restI s1 _ (by rw [hri]; exact h1)
            rcases this with ⟨fp, hfp⟩ | ⟨b', hb'⟩
            · cases hfp
            · injection hb'

theorem execute_group_success_eq {L : FsLayout} {device : Device} {g : IdenticalFile}
    {inodes : List Inode} {inode0 : Inode} {restI : List Inode} {p0 : FsPath}
    {m : FileTime} {s s1 : FsState} {ops1 : List Op} {s2 : FsState} {g2 : Nat}
    {ops2 : List Op} {e2 : Option RunErr}
    (hcol : collectInodes device g.inos = some inodes)
    (hsort : sortInodes inodes = inode0 :: restI)
    (hrne : restI ≠ [])
    (hp0 : inode0.files.head? = some p0)
    (hmin : ((sortInodes inodes).map Inode.mtime).min? = some m)
    (hupd : update_mtime s p0 m = (s1, ops1, none))
    (hri : relink_inodes L p0 restI s1 = (s2, g2, ops2, e2)) :
    execute_group L device g s = (s2, g2, Op.print p0 :: (ops1 ++ ops2), e2) := by
  simp only [execute_group_eq hcol hsort hrne hp0 hmin s, hupd, hri]

/-- C3: for a group of two or more member inodes that consolidates
successfully, the canonical file's modification time afterwards equals the
minimum recorded modification time over all member inodes; the metadata
write is skipped (no `setMtime` action is emitted) when the canonical
file's current mtime already equals that minimum. -/
theorem C3_canonical_mtime_min (L : FsLayout) (device : Device) (g : IdenticalFile)
    (s : FsState) (inodes : List Inode) (inode0 : Inode) (restI : List Inode)
    (p0 : FsPath) (c : Ino) (m : FileTime)
    (hcol : collectInodes device g.inos = some inodes)
    (hsort : sortInodes inodes = inode0 :: restI)
    (hrne : restI ≠ [])
    (hp0 : inode0.files.head? = some p0)
    (hmin : ((sortInodes inodes).map Inode.mtime).min? = some m)
    (hres : lookupA p0 s.entries = some c)
    (hok : (execute_group L device g s).2.2.2 = none) :
    ((execute_group L device g s).1).inoMtime c = m ∧
    (∀ x ∈ inodes, m ≤ x.mtime) ∧ (∃ x ∈ inodes, x.mtime = m) ∧
    (s.inoMtime c = m → ∀ t, Op.setMtime p0 t ∉ (execute_group L device g s).2.2.1) := by
  have hEG := execute_group_eq (L := L) hcol hsort hrne hp0 hmin s
  haveI : Std.Antisymm (fun x1 x2 : Int => x1 ≤ x2) :=
    ⟨fun h1 h2 => le_antisymm h1 h2⟩
  have hminchar := (List.min?_eq_some_iff (fun a : Int => le_refl a)
    (fun a b => min_choice a b) (fun a b c => le_min_iff)).mp hmin
  have hall : ∀ x ∈ inodes, m ≤ x.mtime := by
    intro x hx
    exact hminchar.2 _ (List.mem_map.mpr ⟨x, ((sortInodes_perm inodes).mem_iff).mpr hx, rfl⟩)
  have hex : ∃ x ∈ inodes, x.mtime = m := by
    obtain ⟨x, hx, hxe⟩ := List.mem_map.mp hminchar.1
    exact ⟨x, ((sortInodes_perm inodes).mem_iff).mp hx, hxe⟩
  rcases hupd : update_mtime s p0 m with ⟨s1, ops1, e1⟩
  cases e1 with
  | some e =>
      have hcontra : (execute_group L device g s).2.2.2 = some e := by
        simp only [hEG, hupd]
      rw [hcontra] at hok
      cases hok
  | none =>
      rcases hri : relink_inodes L p0 restI s1 with ⟨s2, g2, ops2, e2⟩
      have hfull := execute_group_success_eq hcol hsort hrne hp0 hmin hupd hri
      rw [hfull]
      have hs1c : s1.inoMtime c = m ∧ (s.inoMtime c = m → ops1 = []) := by
        unfold update_mtime at hupd
        rw [hres] at hupd
        simp only [ne_eq] at hupd
        split at hupd
        · rename_i hcond
          injection hupd with h1 hrest
          injection hrest with h2 h3
          constructor
          · rw [← h1]
            simp
          · intro hm
            exact absurd hm hcond
        · rename_i hcond
          have hm := not_not.mp hcond
          injection hupd with h1 hrest
          injection hrest with h2 h3
          exact ⟨by rw [← h1]; exact hm, fun _ => h2.symm⟩
      have hs2c : s2.inoMtime c = m := by
        have := relink_inodes_inoMtime L p0 restI s1
        rw [hri] at this
        calc s2.inoMtime c = s1.inoMtime c := by rw [show s2.inoMtime = s1.inoMtime from this]
        _ = m := hs1c.1
      refine ⟨hs2c, hall, hex, ?_⟩
      intro hm t hmem
      rcases List.mem_cons.mp hmem with h1 | h1
      · cases h1
      · rcases List.mem_append.mp h1 with h2 | h2
        · rw [hs1c.2 hm] at h2
          simp at h2
        · have := relink_inodes_ops_shape L p0 restI s1 _ (by rw [hri]; exact h2)
          rcases this with ⟨fp, hfp⟩ | ⟨b', hb'⟩
          · cases hfp
          · cases hb'

/-- concrete device for the consolidation witnesses: inode 100 (mtime 5,
2 links, path 0) and inode 200 (mtime 3, 1 link, path 1) share digest 7 -/
def deviceW : Device :=
  { inodes := ⟨[(100, ⟨5, 2, 4096, [0]⟩), (200, ⟨3, 1, 4096, [1]⟩)]⟩,
    sieve := ⟨[(10, .Ambiguous)]⟩,
    identicals := ⟨[(7, ⟨[100, 200]⟩)]⟩,
    visited_dirs := ⟨[]⟩ }

/-- the witness content group -/
def gW : IdenticalFile := ⟨[100, 200]⟩

/-- the collected inode records of the witness group -/
def inodesW : List Inode := [⟨5, 2, 4096, [0]⟩, ⟨3, 1, 4096, [1]⟩]

/-- witness filesystem state matching `deviceW` -/
def fsW : FsState :=
  { entries := [(0, 100), (1, 200)],
    inoMtime := fun i => if i = 100 then 5 else 3,
    dirMtime := fun _ => 42,
    clock := 50 }

theorem C6_canonical_selection_witness :
    (gW.inos.length ≤ 1 → execute_group L2 deviceW gW fsW = (fsW, 0, [], none)) ∧
    List.Sorted (fun a b => b.nlink ≤ a.nlink) (sortInodes inodesW) ∧
    (sortInodes inodesW).Perm inodesW ∧
    (∀ inode0 restI p0, sortInodes inodesW = inode0 :: restI → restI ≠ [] →
        inode0.files.head? = some p0 →
        (∀ x ∈ inodesW, x.nlink ≤ inode0.nlink) ∧
        ∃ s' gn ops err, execute_group L2 deviceW gW fsW = (s', gn, Op.print p0 :: ops, err) ∧
          ∀ a b, Op.relinkOp a b ∈ ops → a = p0) :=
  C6_canonical_selection L2 deviceW gW fsW inodesW (by decide)

theorem C3_canonical_mtime_min_witness :
    ((execute_group L2 deviceW gW fsW).1).inoMtime 100 = 3 ∧
    (∀ x ∈ inodesW, (3 : Int) ≤ x.mtime) ∧ (∃ x ∈ inodesW, x.mtime = 3) ∧
    (fsW.inoMtime 100 = 3 → ∀ t, Op.setMtime 0 t ∉ (execute_group L2 deviceW gW fsW).2.2.1) :=
  C3_canonical_mtime_min L2 deviceW gW fsW inodesW ⟨5, 2, 4096, [0]⟩ [⟨3, 1, 4096, [1]⟩]
    0 100 3 (by decide) (by decide) (by decide) (by decide) (by decide) (by decide) (by decide)

/-- reclaimed-bytes contribution of one non-canonical member inode, as the
claim states it: its allocated size exactly when the number of paths
discovered during traversal equals the hardlink count recorded at
discovery time, and zero otherwise -/
def inodeGain (inode : Inode) : Nat :=
  if inode.files.length = inode.nlink then inode.realsize else 0

/-- reclaimed bytes of one content group per the claim: the sum of
`inodeGain` over the members ranked below the canonical inode (the head of
the descending-nlink ordering); the canonical inode itself never
contributes, and a group with fewer than two members contributes nothing
(its tail is empty) -/
def group_spec_gain (device : Device) (g : IdenticalFile) : Nat :=
  match collectInodes device g.inos with
  | none => 0
  | some inodes =>
      match sortInodes inodes with
      | [] => 0
      | _ :: restI => (restI.map inodeGain).sum

/-- the claim's reclaimed-bytes total over the whole database -/
def spec_gain (db : Database) : Nat :=
  (db.devices.map (fun dv =>
    (dv.2.identicals.map.map (fun hg => group_spec_gain dv.2 hg.2)).sum)).sum

theorem relink_inodes_gain (L : FsLayout) (o : FsPath) :
    ∀ (il : List Inode) (s : FsState),
    (relink_inodes L o il s).2.2.2 = none →
    (relink_inodes L o il s).2.1 = (il.map inodeGain).sum
  | [], s, _ => rfl
  | inode :: rest, s, hok => by
      unfold relink_inodes at hok ⊢
      rcases hrp : relink_paths L o inode.files s with ⟨s1, ops1, e1⟩
      rw [hrp] at hok
      cases e1 with
      | some e => simp at hok
      | none =>
          rcases hri : relink_inodes L o rest s1 with ⟨s2, g2, ops2, e2⟩
          have hok' : (match relink_inodes L o rest s1 with
              | (s2, g2, ops2, e2) => (s2,
                (if inode.files.length = inode.nlink then inode.realsize else 0) + g2,
                ops1 ++ ops2, e2)).2.2.2 = none := hok
          rw [hri] at hok'
          have hrec := relink_inodes_gain L o rest s1 (by rw [hri]; exact hok')
          rw [hri] at hrec
          show (match relink_inodes L o rest s1 with
            | (s2, g2, ops2, e2) => (s2,
              (if inode.files.length = inode.nlink then inode.realsize else 0) + g2,
              ops1 ++ ops2, e2)).2.1 = _
          rw [hri]
          simp only [List.map_cons, List.sum_cons]
          have hg2 : g2 = (rest.map inodeGain).sum := hrec
          show (if inode.files.length = inode.nlink then inode.realsize else 0) + g2 = _
          rw [hg2]
          rfl

theorem execute_group_gain (L : FsLayout) (device : Device) (g : IdenticalFile)
    (s : FsState) (hok : (execute_group L device g s).2.2.2 = none) :
    (execute_group L device g s).2.1 = group_spec_gain device g := by
  unfold group_spec_gain
  cases hcol : collectInodes device g.inos with
  | none =>
      unfold execute_group at hok
      rw [hcol] at hok
      cases hok
  | some inodes =>
      show _ = (match sortInodes inodes with
        | [] => 0
        | _ :: restI => (restI.map inodeGain).sum)
      by_cases hlen : (sortInodes inodes).length ≤ 1
      · have hsm : execute_group L device g s = (s, 0, [], none) := by
          unfold execute_group
          rw [hcol]
          simp only [if_pos hlen]
        rw [hsm]
        cases hs : sortInodes inodes with
        | nil => rfl
        | cons x restI =>
            rw [hs] at hlen
            have hre : restI = [] := by
              simpa [List.length_eq_zero] using hlen
            simp [hre]
      · cases hs : sortInodes inodes with
        | nil => exact absurd (by rw [hs]; simp) hlen
        | cons inode0 restI =>
            have hlen' : ¬ (inode0 :: restI).length ≤ 1 := by rw [← hs]; exact hlen
            have hrne : restI ≠ [] := by
              intro hc
              apply hlen'
              simp [hc]
            cases hp0c : inode0.files.head? with
            | none =>
                have hpanic : execute_group L device g s = (s, 0, [], some .panicErr) := by
                  unfold execute_group
                  rw [hcol]
                  simp only [hs, if_neg hlen', hp0c]
                rw [hpanic] at hok
                cases hok
            | some p0 =>
                obtain ⟨m, hmin⟩ : ∃ m, ((sortInodes inodes).map Inode.mtime).min? = some m := by
                  rw [hs]
                  exact ⟨_, List.min?_cons⟩
                rcases hupd : update_mtime s p0 m with ⟨s1, ops1, e1⟩
                cases e1 with
                | some e =>
                    have hcontra : (execute_group L device g s).2.2.2 = some e := by
                      simp only [execute_group_eq (L := L) hcol hs hrne hp0c hmin s, hupd]
                    rw [hcontra] at hok
                    cases hok
                | none =>
                    rcases hri : relink_inodes L p0 restI s1 with ⟨s2, g2, ops2, e2⟩
                    have hfull := execute_group_success_eq hcol hs hrne hp0c hmin hupd hri
                    rw [hfull] at hok ⊢
                    have hg2 := relink_inodes_gain L p0 restI s1 (by rw [hri]; exact hok)
                    rw [hri] at hg2
                    exact hg2

theorem execute_groups_gain (L : FsLayout) (device : Device) :
    ∀ (lst : List (HashV × IdenticalFile)) (s : FsState),
    (execute_groups L device lst s).2.2.2 = none →
    (execute_groups L device lst s).2.1
      = (lst.map (fun hg => group_spec_gain device hg.2)).sum
  | [], s, _ => rfl
  | (h, g) :: rest, s, hok => by
      unfold execute_groups at hok ⊢
      rcases he : execute_group L device g s with ⟨s1, g1, ops1, e1⟩
      rw [he] at hok
      cases e1 with
      | some e => simp at hok
      | none =>
          rcases hr : execute_groups L device rest s1 with ⟨s2, g2, ops2, e2⟩
          have hok' : (match execute_groups L device rest s1 with
              | (s2, g2, ops2, e2) => (s2, g1 + g2, ops1 ++ ops2, e2)).2.2.2 = none := hok
          rw [hr] at hok'
          have hg1 : g1 = group_spec_gain device g := by
            have hx := execute_group_gain L device g s (by rw [he])
            rw [he] at hx
            exact hx
          have hrec := execute_groups_gain L device rest s1 (by rw [hr]; exact hok')
          rw [hr] at hrec
          show (match execute_groups L device rest s1 with
            | (s2, g2, ops2, e2) => (s2, g1 + g2, ops1 ++ ops2, e2)).2.1 = _
          rw [hr]
          simp only [List.map_cons, List.sum_cons]
          have hg2 : g2 = (rest.map (fun hg => group_spec_gain device hg.2)).sum := hrec
          show g1 + g2 = _
          rw [hg1, hg2]

theorem execute_devices_gain (L : FsLayout) :
    ∀ (lst : List (Dev × Device)) (s : FsState),
    (execute_devices L lst s).2.2.2 = none →
    (execute_devices L lst s).2.1
      = (lst.map (fun dv =>
          (dv.2.identicals.map.map (fun hg => group_spec_gain dv.2 hg.2)).sum)).sum
  | [], s, _ => rfl
  | (d, device) :: rest, s, hok => by
      unfold execute_devices at hok ⊢
      rcases he : execute_groups L device device.identicals.map s with ⟨s1, g1, ops1, e1⟩
      rw [he] at hok
      cases e1 with
      | some e => simp at hok
      | none =>
          rcases hr : execute_devices L rest s1 with ⟨s2, g2, ops2, e2⟩
          have hok' : (match execute_devices L rest s1 with
              | (s2, g2, ops2, e2) => (s2, g1 + g2, ops1 ++ ops2, e2)).2.2.2 = none := hok
          rw [hr] at hok'
          have hg1 : g1 = (device.identicals.map.map
              (fun hg => group_spec_gain device hg.2)).sum := by
            have hx := execute_groups_gain L device device.identicals.map s (by rw [he])
            rw [he] at hx
            exact hx
          have hrec := execute_devices_gain L rest s1 (by rw [hr]; exact hok')
          rw [hr] at hrec
          show (match execute_devices L rest s1 with
            | (s2, g2, ops2, e2) => (s2, g1 + g2, ops1 ++ ops2, e2)).2.1 = _
          rw [hr]
          simp only [List.map_cons, List.sum_cons]
          have hg2 : g2 = (rest.map (fun dv =>
              (dv.2.identicals.map.map (fun hg => group_spec_gain dv.2 hg.2)).sum)).sum := hrec
          show g1 + g2 = _
          rw [hg1, hg2]

/-- C2: on a successful consolidation the reported reclaimed-bytes total
equals, over every device and every content group, the sum over the
non-canonical member inodes of the allocated size, counted exactly when
the discovered path count equals the recorded hardlink count; an inode
with fewer discovered paths than links contributes zero even though its
paths were relinked, and the canonical inode never contributes (see
`inodeGain` and `group_spec_gain`). -/
theorem C2_gain_accounting (L : FsLayout) (db : Database) (s : FsState)
    (hok : (execute_relink L db s).2.2.2 = none) :
    (execute_relink L db s).2.1 = spec_gain db :=
  execute_devices_gain L db.devices s hok

/-- database for the C2 witness: one device bundle -/
def dbW : Database := ⟨[(1, deviceW)]⟩

theorem C2_gain_accounting_witness :
    (execute_relink L2 dbW fsW).2.1 = spec_gain dbW :=
  C2_gain_accounting L2 dbW fsW (by decide)

/-! ### Directory traversal model (`walk_and_prepare`) -/

mutual
/-- a filesystem entry as WalkDir yields it: a regular file with its
metadata, or a directory with its metadata and its children -/
inductive FsTree where
  | file : FsPath → Metadata → FsTree
  | dir : FsPath → Metadata → FsForest → FsTree

/-- a list of sibling entries -/
inductive FsForest where
  | nil : FsForest
  | cons : FsTree → FsForest → FsForest
end

mutual
/-- models the WalkDir loop of `walk_and_prepare`: every yielded directory
is checked against the device's visited set (`VisitedDirs::visit`); when
the inode was already visited the walker does not descend
(`skip_current_dir`); regular files go through `prepare_file`.  `log`
records each directory actually entered, as a (device, inode) pair. -/
def walkTree (hashFn : FsPath → HashV) :
    FsTree → Database → List HashCall → List (Dev × Ino) →
    Option (Database × List HashCall × List (Dev × Ino))
  | .file p md, db, calls, log =>
      match prepare_file hashFn db p md with
      | none => none
      | some (db', nc) => some (db', calls ++ nc, log)
  | .dir _ md children, db, calls, log =>
      let dev := md.dev
      let ino := md.ino
      let device := db.get_device dev
      let vres := device.visited_dirs.visit ino
      let db' := db.set_device dev { device with visited_dirs := vres.1 }
      if vres.2 then walkForest hashFn children db' calls (log ++ [(dev, ino)])
      else some (db', calls, log)

/-- walk a list of sibling entries in order -/
def walkForest (hashFn : FsPath → HashV) :
    FsForest → Database → List HashCall → List (Dev × Ino) →
    Option (Database × List HashCall × List (Dev × Ino))
  | .nil, db, calls, log => some (db, calls, log)
  | .cons t rest, db, calls, log =>
      match walkTree hashFn t db calls log with
      | none => none
      | some (db', calls', log') => walkForest hashFn rest db' calls' log'
end

theorem prepare_file_panic_reg {hashFn : FsPath → HashV} {db : Database}
    {p : FsPath} {md : Metadata} {ino0 : Ino}
    (h : (db.get_device md.dev).inodes.get md.ino = none)
    (hs : (db.get_device md.dev).sieve.get md.size = some (.Unique ino0))
    (h0 : (((db.get_device md.dev).inodes.get_or_insert md.ino md.mtime
        md.nlink (md.blocks * 512)).push_file md.ino p).get ino0 = none) :
    prepare_file hashFn db p md = none := by
  simp [prepare_file, h, hs, h0]

theorem prepare_file_panic_head {hashFn : FsPath → HashV} {db : Database}
    {p : FsPath} {md : Metadata} {ino0 : Ino} {inode0 : Inode}
    (h : (db.get_device md.dev).inodes.get md.ino = none)
    (hs : (db.get_device md.dev).sieve.get md.size = some (.Unique ino0))
    (h0 : (((db.get_device md.dev).inodes.get_or_insert md.ino md.mtime
        md.nlink (md.blocks * 512)).push_file md.ino p).get ino0 = some inode0)
    (hp : inode0.files.head? = none) :
    prepare_file hashFn db p md = none := by
  simp [prepare_file, h, hs, h0, hp]

theorem prepare_file_visited {hashFn : FsPath → HashV} {db : Database}
    {p : FsPath} {md : Metadata} {db' : Database} {nc : List HashCall}
    (h : prepare_file hashFn db p md = some (db', nc)) :
    ∀ d, (db'.get_device d).visited_dirs = (db.get_device d).visited_dirs := by
  intro d
  cases hreg : (db.get_device md.dev).inodes.get md.ino with
  | some r =>
      rw [prepare_file_known hreg] at h
      injection h with h
      injection h with h1 h2
      subst h1
      by_cases hd : d = md.dev
      · subst hd
        rw [Database.get_set_device_self]
      · rw [Database.get_set_device_ne _ _ hd]
  | none =>
      cases hs : (db.get_device md.dev).sieve.get md.size with
      | none =>
          rw [prepare_file_fresh_unique hreg hs] at h
          injection h with h
          injection h with h1 h2
          subst h1
          by_cases hd : d = md.dev
          · subst hd
            rw [Database.get_set_device_self]
          · rw [Database.get_set_device_ne _ _ hd]
      | some entry =>
          cases entry with
          | Ambiguous =>
              rw [prepare_file_ambiguous hreg hs] at h
              injection h with h
              injection h with h1 h2
              subst h1
              by_cases hd : d = md.dev
              · subst hd
                rw [Database.get_set_device_self]
              · rw [Database.get_set_device_ne _ _ hd]
          | Unique ino0 =>
              cases h0 : (((db.get_device md.dev).inodes.get_or_insert md.ino md.mtime
                  md.nlink (md.blocks * 512)).push_file md.ino p).get ino0 with
              | none =>
                  rw [prepare_file_panic_reg hreg hs h0] at h
                  cases h
              | some inode0 =>
                  cases hp : inode0.files.head? with
                  | none =>
                      rw [prepare_file_panic_head hreg hs h0 hp] at h
                      cases h
                  | some path0 =>
                      rw [prepare_file_transition hreg hs h0 hp] at h
                      injection h with h
                      injection h with h1 h2
                      subst h1
                      by_cases hd : d = md.dev
                      · subst hd
                        rw [Database.get_set_device_self]
                      · rw [Database.get_set_device_ne _ _ hd]

theorem visit_mem {s : VisitedDirs} {i j : Ino} :
    j ∈ (s.visit i).1.set ↔ j ∈ s.set ∨ ((s.visit i).2 = true ∧ j = i) := by
  unfold VisitedDirs.visit
  by_cases h : i ∈ s.set
  · simp [h]
  · simp [h]

theorem visit_true_iff {s : VisitedDirs} {i : Ino} :
    (s.visit i).2 = true ↔ i ∉ s.set := by
  unfold VisitedDirs.visit
  by_cases h : i ∈ s.set <;> simp [h]

theorem visit_false_eq {s : VisitedDirs} {i : Ino} (h : i ∈ s.set) :
    s.visit i = (s, false) := by
  unfold VisitedDirs.visit
  simp [h]

/-- invariant of the walk: the entered-directory log has no duplicates and
every logged directory inode is in its device's visited set -/
def WalkInv (db : Database) (log : List (Dev × Ino)) : Prop :=
  log.Nodup ∧ ∀ d i, (d, i) ∈ log → i ∈ ((db.get_device d).visited_dirs).set

mutual
theorem walkTree_inv (hashFn : FsPath → HashV) (t : FsTree) (db : Database)
    (calls : List HashCall) (log : List (Dev × Ino))
    {db' : Database} {calls' : List HashCall} {log' : List (Dev × Ino)}
    (inv : WalkInv db log)
    (h : walkTree hashFn t db calls log = some (db', calls', log')) :
    WalkInv db' log' := by
  cases t with
  | file p md =>
      unfold walkTree at h
      cases hp : prepare_file hashFn db p md with
      | none => rw [hp] at h; cases h
      | some r =>
          obtain ⟨db1, nc⟩ := r
          rw [hp] at h
          injection h with h
          injection h with h1 hrest
          injection hrest with h2 h3
          subst h1
          subst h3
          refine ⟨inv.1, ?_⟩
          intro d i hm
          rw [prepare_file_visited hp d]
          exact inv.2 d i hm
  | dir p md children =>
      unfold walkTree at h
      have h' : (if ((db.get_device md.dev).visited_dirs.visit md.ino).2 = true
          then walkForest hashFn children
            (db.set_device md.dev { db.get_device md.dev with
              visited_dirs := ((db.get_device md.dev).visited_dirs.visit md.ino).1 })
            calls (log ++ [(md.dev, md.ino)])
          else some (db.set_device md.dev { db.get_device md.dev with
              visited_dirs := ((db.get_device md.dev).visited_dirs.visit md.ino).1 },
            calls, log)) = some (db', calls', log') := h
      by_cases hv : ((db.get_device md.dev).visited_dirs.visit md.ino).2 = true
      · rw [if_pos hv] at h'
        have hnotin : md.ino ∉ ((db.get_device md.dev).visited_dirs).set :=
          visit_true_iff.mp hv
        have inv1 : WalkInv
            (db.set_device md.dev { db.get_device md.dev with
              visited_dirs := ((db.get_device md.dev).visited_dirs.visit md.ino).1 })
            (log ++ [(md.dev, md.ino)]) := by
          constructor
          · refine nodup_append_single inv.1 ?_
            intro hc
            exact hnotin (inv.2 md.dev md.ino hc)
          · intro d i hm
            rcases List.mem_append.mp hm with h1 | h1
            · have hold := inv.2 d i h1
              by_cases hd : d = md.dev
              · subst hd
                rw [Database.get_set_device_self]
                exact visit_mem.mpr (Or.inl hold)
              · rw [Database.get_set_device_ne _ _ hd]
                exact hold
            · rw [List.mem_singleton] at h1
              injection h1 with hd hi
              subst hd
              subst hi
              rw [Database.get_set_device_self]
              exact visit_mem.mpr (Or.inr ⟨hv, rfl⟩)
        exact walkForest_inv hashFn children _ calls _ inv1 h'
      · rw [if_neg hv] at h'
        injection h' with h'
        injection h' with h1 hrest
        injection hrest with h2 h3
        subst h1
        subst h3
        have hin : md.ino ∈ ((db.get_device md.dev).visited_dirs).set := by
          by_contra hc
          exact hv (visit_true_iff.mpr hc)
        refine ⟨inv.1, ?_⟩
        intro d i hm
        have hold := inv.2 d i hm
        by_cases hd : d = md.dev
        · subst hd
          rw [Database.get_set_device_self]
          exact visit_mem.mpr (Or.inl hold)
        · rw [Database.get_set_device_ne _ _ hd]
          exact hold

theorem walkForest_inv (hashFn : FsPath → HashV) (f : FsForest) (db : Database)
    (calls : List HashCall) (log : List (Dev × Ino))
    {db' : Database} {calls' : List HashCall} {log' : List (Dev × Ino)}
    (inv : WalkInv db log)
    (h : walkForest hashFn f db calls log = some (db', calls', log')) :
    WalkInv db' log' := by
  cases f with
  | nil =>
      unfold walkForest at h
      injection h with h
      injection h with h1 hrest
      injection hrest with h2 h3
      subst h1
      subst h3
      exact inv
  | cons t rest =>
      unfold walkForest at h
      cases ht : walkTree hashFn t db calls log with
      | none => rw [ht] at h; cases h
      | some r =>
          obtain ⟨db1, calls1, log1⟩ := r
          rw [ht] at h
          exact walkForest_inv hashFn rest db1 calls1 log1
            (walkTree_inv hashFn t db calls log inv ht) h
end

/-- C7: over a run on any list of target roots, each directory inode is
entered at most once per device — the entered-directory log has no
duplicate (device, inode) pair and every entry is in its device's visited
set — and a directory whose (device, inode) is already visited is not
descended into: the walker returns at once with the log, the digest calls
and the children unprocessed. -/
theorem C7_dir_entered_at_most_once (hashFn : FsPath → HashV) (roots : FsForest)
    (db' : Database) (calls' : List HashCall) (log : List (Dev × Ino))
    (hrun : walkForest hashFn roots Database.new [] [] = some (db', calls', log)) :
    log.Nodup ∧ (∀ d i, (d, i) ∈ log → i ∈ ((db'.get_device d).visited_dirs).set) ∧
    (∀ (p : FsPath) (md : Metadata) (children : FsForest) (db0 : Database)
        (calls0 : List HashCall) (log0 : List (Dev × Ino)),
      md.ino ∈ ((db0.get_device md.dev).visited_dirs).set →
      walkTree hashFn (.dir p md children) db0 calls0 log0
        = some (db0.set_device md.dev { db0.get_device md.dev with
            visited_dirs := ((db0.get_device md.dev).visited_dirs.visit md.ino).1 },
          calls0, log0)) := by
  have hinv : WalkInv Database.new [] := ⟨List.nodup_nil, by simp⟩
  have hfin := walkForest_inv hashFn roots Database.new [] [] hinv hrun
  refine ⟨hfin.1, hfin.2, ?_⟩
  intro p md children db0 calls0 log0 hmem
  have hv : ¬ ((db0.get_device md.dev).visited_dirs.visit md.ino).2 = true := by
    rw [visit_true_iff]
    exact fun hc => hc hmem
  show (if ((db0.get_device md.dev).visited_dirs.visit md.ino).2 = true
      then walkForest hashFn children
        (db0.set_device md.dev { db0.get_device md.dev with
          visited_dirs := ((db0.get_device md.dev).visited_dirs.visit md.ino).1 })
        calls0 (log0 ++ [(md.dev, md.ino)])
      else some (db0.set_device md.dev { db0.get_device md.dev with
          visited_dirs := ((db0.get_device md.dev).visited_dirs.visit md.ino).1 },
        calls0, log0)) = _
  rw [if_neg hv]

/-- metadata of the witness directory (device 1, inode 50) -/
def mdDirW : Metadata := ⟨1, 50, 0, 0, 3, 0⟩

/-- metadata of the witness file inside the directory -/
def mdFileW : Metadata := ⟨1, 60, 4, 0, 1, 8⟩

/-- two target roots that are the same directory (duplicate targets) -/
def forestW : FsForest :=
  .cons (.dir 100 mdDirW (.cons (.file 101 mdFileW) .nil))
    (.cons (.dir 100 mdDirW (.cons (.file 101 mdFileW) .nil)) .nil)

/-- the result of walking the witness forest -/
def runW7 : Database × List HashCall × List (Dev × Ino) :=
  (walkForest hashW forestW Database.new [] []).getD (Database.new, [], [])

theorem C7_dir_entered_at_most_once_witness :
    runW7.2.2.Nodup ∧
    (∀ d i, (d, i) ∈ runW7.2.2 → i ∈ ((runW7.1.get_device d).visited_dirs).set) ∧
    (∀ (p : FsPath) (md : Metadata) (children : FsForest) (db0 : Database)
        (calls0 : List HashCall) (log0 : List (Dev × Ino)),
      md.ino ∈ ((db0.get_device md.dev).visited_dirs).set →
      walkTree hashW (.dir p md children) db0 calls0 log0
        = some (db0.set_device md.dev { db0.get_device md.dev with
            visited_dirs := ((db0.get_device md.dev).visited_dirs.visit md.ino).1 },
          calls0, log0)) :=
  C7_dir_entered_at_most_once hashW forestW runW7.1 runW7.2.1 runW7.2.2 (by rfl)

/-! ### Entry-resolution effects of the consolidation phase (towards C9) -/

theorem lookupA_eraseA_ne {V : Type} {k x : Nat} (l : List (Nat × V)) (h : x ≠ k) :
    lookupA x (eraseA k l) = lookupA x l := by
  induction l with
  | nil => rfl
  | cons e rest ih =>
      obtain ⟨k0, v0⟩ := e
      by_cases hk : k0 = k
      · subst hk
        simp [eraseA, lookupA, Ne.symm h]
      · simp only [eraseA, if_neg hk, lookupA]
        by_cases hx : k0 = x
        · simp [hx]
        · simp [hx, ih]

theorem update_mtime_entries (s : FsState) (fp : FsPath) (t : FileTime) :
    ((update_mtime s fp t).1).entries = s.entries := by
  unfold update_mtime
  cases h : lookupA fp s.entries with
  | none => rfl
  | some i =>
      by_cases hc : s.inoMtime i ≠ t
      · simp [hc]
      · simp [hc]

/-- the success case of `relink`: the link path now resolves to the
original's inode, every other path resolves as before, and the original is
distinct from the link -/
theorem relink_resolve {L : FsLayout} {s : FsState} {o q : FsPath} {s' : FsState}
    (h : relink L s o q = (s', none)) :
    o ≠ q ∧ (lookupA o s.entries).isSome ∧
    ∀ x, lookupA x s'.entries = if x = q then lookupA o s.entries else lookupA x s.entries := by
  unfold relink at h
  cases hp : L.parent q with
  | none => rw [hp] at h; cases h
  | some d =>
      rw [hp] at h
      simp only [ne_eq, not_true_eq_false, if_false] at h
      cases hl : lookupA q s.entries with
      | none => rw [hl] at h; cases h
      | some i0 =>
          rw [hl] at h
          cases hlo : lookupA o (eraseA q s.entries) with
          | none => simp [hlo] at h
          | some i =>
              cases hlq : lookupA q (eraseA q s.entries) with
              | some j => simp [hlo, hlq] at h
              | none =>
                  simp only [hlo, hlq] at h
                  by_cases hdev : L.inoDev i = L.dirDev d
                  · rw [if_neg (not_not_intro hdev)] at h
                    have hoq : o ≠ q := by
                      intro he
                      subst he
                      rw [hlo] at hlq
                      cases hlq
                    have hos : lookupA o s.entries = some i := by
                      rw [← lookupA_eraseA_ne s.entries hoq]
                      exact hlo
                    injection h with h1 h2
                    subst h1
                    refine ⟨hoq, by simp [hos], ?_⟩
                    intro x
                    show lookupA x ((q, i) :: eraseA q s.entries) = _
                    by_cases hx : x = q
                    · subst hx
                      simp [lookupA, hos]
                    · simp only [lookupA, if_neg (fun hh : q = x => hx hh.symm)]
                      rw [lookupA_eraseA_ne s.entries hx]
                      simp [hx]
                  · simp [hdev] at h

/-- the discovered paths of a list of inode records, in order -/
def filesOf : List Inode → List FsPath
  | [] => []
  | r :: rest => r.files ++ filesOf rest

/-- success of the per-path relink loop: every path in `fps` now resolves
to the original's pre-loop resolution, all other paths are unchanged, and
the original path is not among the relinked ones -/
theorem relink_paths_resolve (L : FsLayout) (o : FsPath) :
    ∀ (fps : List FsPath) (s : FsState) {s' : FsState} {ops : List Op},
    relink_paths L o fps s = (s', ops, none) →
    o ∉ fps ∧
    ∀ x, lookupA x s'.entries
      = if x ∈ fps then lookupA o s.entries else lookupA x s.entries
  | [], s, s', ops, h => by
      unfold relink_paths at h
      injection h with h1 hrest
      injection hrest with h2 h3
      subst h1
      simp
  | fp :: rest, s, s', ops, h => by
      unfold relink_paths at h
      rcases hre : relink L s o fp with ⟨s1, e1⟩
      rw [hre] at h
      cases e1 with
      | some e => simp at h
      | none =>
          rcases hrp : relink_paths L o rest s1 with ⟨s2, ops2, e2⟩
          have h' : (match relink_paths L o rest s1 with
              | (s2, ops, e2) => (s2, Op.printArrow fp :: Op.relinkOp o fp :: ops, e2))
              = (s', ops, none) := h
          rw [hrp] at h'
          injection h' with h1 hrest'
          injection hrest' with h2 h3
          subst h1
          subst h3
          obtain ⟨hne1, hsome1, hall1⟩ := relink_resolve hre
          obtain ⟨ho2, hx2⟩ := relink_paths_resolve L o rest s1 hrp
          have hos1 : lookupA o s1.entries = lookupA o s.entries := by
            rw [hall1 o, if_neg hne1]
          refine ⟨?_, ?_⟩
          · intro hc
            rcases List.mem_cons.mp hc with h1 | h1
            · exact hne1 h1
            · exact ho2 h1
          · intro x
            rw [hx2 x]
            by_cases hxr : x ∈ rest
            · simp only [hxr, if_pos, List.mem_cons, or_true, if_true]
              exact hos1
            · rw [if_neg hxr, hall1 x]
              by_cases hxf : x = fp
              · subst hxf
                simp
              · rw [if_neg hxf, if_neg (by
                  intro hc
                  rcases List.mem_cons.mp hc with h1 | h1
                  · exact hxf h1
                  · exact hxr h1)]

/-- success of the per-inode relink loop: every discovered path of the
processed records now resolves to the original's pre-loop resolution -/
theorem relink_inodes_resolve (L : FsLayout) (o : FsPath) :
    ∀ (il : List Inode) (s : FsState) {s' : FsState} {g : Nat} {ops : List Op},
    relink_inodes L o il s = (s', g, ops, none) →
    o ∉ filesOf il ∧
    ∀ x, lookupA x s'.entries
      = if x ∈ filesOf il then lookupA o s.entries else lookupA x s.entries
  | [], s, s', g, ops, h => by
      unfold relink_inodes at h
      injection h with h1 hrest
      injection hrest with h2 h3
      subst h1
      simp [filesOf]
  | inode :: rest, s, s', g, ops, h => by
      unfold relink_inodes at h
      rcases hrp : relink_paths L o inode.files s with ⟨s1, ops1, e1⟩
      rw [hrp] at h
      cases e1 with
      | some e => simp at h
      | none =>
          rcases hri : relink_inodes L o rest s1 with ⟨s2, g2, ops2, e2⟩
          have h' : (match relink_inodes L o rest s1 with
              | (s2, g2, ops2, e2) => (s2,
                (if inode.files.length = inode.nlink then inode.realsize else 0) + g2,
                ops1 ++ ops2, e2)) = (s', g, ops, none) := h
          rw [hri] at h'
          injection h' with h1 hrest'
          injection hrest' with h2 h3
          injection h3 with h3 h4
          subst h1
          subst h4
          obtain ⟨ho1, hx1⟩ := relink_paths_resolve L o inode.files s hrp
          obtain ⟨ho2, hx2⟩ := relink_inodes_resolve L o rest s1 hri
          have hos1 : lookupA o s1.entries = lookupA o s.entries := by
            rw [hx1 o, if_neg ho1]
          refine ⟨?_, ?_⟩
          · intro hc
            rcases List.mem_append.mp hc with h1 | h1
            · exact ho1 h1
            · exact ho2 h1
          · intro x
            show lookupA x s2.entries = _
            rw [hx2 x]
            by_cases hxr : x ∈ filesOf rest
            · rw [if_pos hxr, if_pos (by
                show x ∈ inode.files ++ filesOf rest
                exact List.mem_append_right _ hxr)]
              exact hos1
            · rw [if_neg hxr, hx1 x]
              by_cases hxf : x ∈ inode.files
              · rw [if_pos hxf, if_pos (by
                  show x ∈ inode.files ++ filesOf rest
                  exact List.mem_append_left _ hxf)]
              · rw [if_neg hxf, if_neg (by
                  intro hc
                  rcases List.mem_append.mp hc with h1 | h1
                  · exact hxf h1
                  · exact hxr h1)]

/-- the non-canonical (relinked) paths of one group, as `execute_group`
computes them -/
def groupTailPaths (device : Device) (g : IdenticalFile) : List FsPath :=
  match collectInodes device g.inos with
  | none => []
  | some inodes =>
      match sortInodes inodes with
      | [] => []
      | _ :: restI => filesOf restI

/-- the canonical path of one group (first discovered path of the
top-ranked record), defined when the group has at least two members -/
def groupCanonPath (device : Device) (g : IdenticalFile) : Option FsPath :=
  match collectInodes device g.inos with
  | none => none
  | some inodes =>
      match sortInodes inodes with
      | [] => none
      | inode0 :: restI => if restI = [] then none else inode0.files.head?

/-- the effect of consolidating one group on path resolution -/
def groupEffect (device : Device) (g : IdenticalFile) (res : FsPath → Option Ino) :
    FsPath → Option Ino :=
  match groupCanonPath device g with
  | none => res
  | some p0 => fun x => if x ∈ groupTailPaths device g then res p0 else res x

/-- the composed effect of a device's groups, in processing order -/
def groupsEffect (device : Device) :
    List (HashV × IdenticalFile) → (FsPath → Option Ino) → FsPath → Option Ino
  | [], res => res
  | (_, g) :: rest, res => groupsEffect device rest (groupEffect device g res)

/-- the composed effect of all devices -/
def devicesEffect : List (Dev × Device) → (FsPath → Option Ino) → FsPath → Option Ino
  | [], res => res
  | (_, device) :: rest, res =>
      devicesEffect rest (groupsEffect device device.identicals.map res)

theorem execute_group_resolve {L : FsLayout} {device : Device} {g : IdenticalFile}
    {s s' : FsState} {gn : Nat} {ops : List Op}
    (h : execute_group L device g s = (s', gn, ops, none)) :
    ∀ x, lookupA x s'.entries = groupEffect device g (fun y => lookupA y s.entries) x := by
  intro x
  cases hcol : collectInodes device g.inos with
  | none =>
      unfold execute_group at h
      rw [hcol] at h
      cases h
  | some inodes =>
      by_cases hlen : (sortInodes inodes).length ≤ 1
      · have hsm : execute_group L device g s = (s, 0, [], none) := by
          unfold execute_group
          rw [hcol]
          simp only [if_pos hlen]
        rw [hsm] at h
        injection h with h1 hrest
        subst h1
        cases hs : sortInodes inodes with
        | nil => simp [groupEffect, groupCanonPath, hcol, hs]
        | cons x0 restI =>
            rw [hs] at hlen
            have hre : restI = [] := by
              simpa [List.length_eq_zero] using hlen
            subst hre
            simp [groupEffect, groupCanonPath, hcol, hs]
      · cases hs : sortInodes inodes with
        | nil => exact absurd (by rw [hs]; simp) hlen
        | cons inode0 restI =>
            have hlen' : ¬ (inode0 :: restI).length ≤ 1 := by rw [← hs]; exact hlen
            have hrne : restI ≠ [] := by
              intro hc
              apply hlen'
              simp [hc]
            cases hp0c : inode0.files.head? with
            | none =>
                have hpan : execute_group L device g s = (s, 0, [], some .panicErr) := by
                  unfold execute_group
                  rw [hcol]
                  simp only [hs, if_neg hlen', hp0c]
                rw [hpan] at h
                injection h with h1 hrest
                injection hrest with h2 h3
                injection h3 with h3 h4
                cases h4
            | some p0 =>
                obtain ⟨m, hmin⟩ : ∃ m, ((sortInodes inodes).map Inode.mtime).min? = some m := by
                  rw [hs]
                  exact ⟨_, List.min?_cons⟩
                have hEG := execute_group_eq (L := L) hcol hs hrne hp0c hmin s
                rw [hEG] at h
                rcases hupd : update_mtime s p0 m with ⟨s1, ops1, e1⟩
                rw [hupd] at h
                cases e1 with
                | some e =>
                    have h' : (s1, 0, Op.print p0 :: ops1, some e)
                        = (s', gn, ops, (none : Option RunErr)) := h
                    injection h' with h1 hrest
                    injection hrest with h2 h3
                    injection h3 with h3 h4
                    cases h4
                | none =>
                    rcases hri : relink_inodes L p0 restI s1 with ⟨s2, g2, ops2, e2⟩
                    have h' : (match relink_inodes L p0 restI s1 with
                        | (s2, g2, ops2, e2) =>
                            (s2, g2, Op.print p0 :: (ops1 ++ ops2), e2))
                        = (s', gn, ops, (none : Option RunErr)) := h
                    rw [hri] at h'
                    have h'' : (s2, g2, Op.print p0 :: (ops1 ++ ops2), e2)
                        = (s', gn, ops, (none : Option RunErr)) := h'
                    injection h'' with h1 hrest
                    injection hrest with h2 h3
                    injection h3 with h3 h4
                    subst h1
                    subst h4
                    have hs1e : s1.entries = s.entries := by
                      have := update_mtime_entries s p0 m
                      rw [hupd] at this
                      exact this
                    obtain ⟨-, hall⟩ := relink_inodes_resolve L p0 restI s1 hri
                    rw [hall x]
                    simp only [hs1e]
                    simp [groupEffect, groupCanonPath, groupTailPaths, hcol, hs, hrne, hp0c]

theorem execute_groups_resolve (L : FsLayout) (device : Device) :
    ∀ (gs : List (HashV × IdenticalFile)) (s : FsState) {s' : FsState} {gn : Nat}
      {ops : List Op},
    execute_groups L device gs s = (s', gn, ops, none) →
    ∀ x, lookupA x s'.entries = groupsEffect device gs (fun y => lookupA y s.entries) x
  | [], s, s', gn, ops, h => by
      unfold execute_groups at h
      injection h with h1 hrest
      subst h1
      intro x
      rfl
  | (hv, g) :: rest, s, s', gn, ops, h => by
      unfold execute_groups at h
      rcases heg : execute_group L device g s with ⟨s1, g1, ops1, e1⟩
      rw [heg] at h
      cases e1 with
      | some e =>
          have h' : (s1, g1, ops1, some e) = (s', gn, ops, (none : Option RunErr)) := h
          injection h' with h1 hrest
          injection hrest with h2 h3
          injection h3 with h3 h4
          cases h4
      | none =>
          rcases hegs : execute_groups L device rest s1 with ⟨s2, g2, ops2, e2⟩
          have h' : (match execute_groups L device rest s1 with
              | (s2, g2, ops2, e2) => (s2, g1 + g2, ops1 ++ ops2, e2))
              = (s', gn, ops, (none : Option RunErr)) := h
          rw [hegs] at h'
          have h'' : (s2, g1 + g2, ops1 ++ ops2, e2)
              = (s', gn, ops, (none : Option RunErr)) := h'
          injection h'' with h1 hrest
          injection hrest with h2 h3
          injection h3 with h3 h4
          subst h1
          subst h4
          intro x
          have hrec := execute_groups_resolve L device rest s1 hegs x
          rw [hrec]
          have hone : (fun y => lookupA y s1.entries)
              = groupEffect device g (fun y => lookupA y s.entries) := by
            funext y
            exact execute_group_resolve heg y
          show groupsEffect device rest (fun y => lookupA y s1.entries) x = _
          rw [hone]
          rfl

theorem execute_devices_resolve (L : FsLayout) :
    ∀ (ds : List (Dev × Device)) (s : FsState) {s' : FsState} {gn : Nat}
      {ops : List Op},
    execute_devices L ds s = (s', gn, ops, none) →
    ∀ x, lookupA x s'.entries = devicesEffect ds (fun y => lookupA y s.entries) x
  | [], s, s', gn, ops, h => by
      unfold execute_devices at h
      injection h with h1 hrest
      subst h1
      intro x
      rfl
  | (dv, device) :: rest, s, s', gn, ops, h => by
      unfold execute_devices at h
      rcases hegs : execute_groups L device device.identicals.map s with ⟨s1, g1, ops1, e1⟩
      rw [hegs] at h
      cases e1 with
      | some e =>
          have h' : (s1, g1, ops1, some e) = (s', gn, ops, (none : Option RunErr)) := h
          injection h' with h1 hrest
          injection hrest with h2 h3
          injection h3 with h3 h4
          cases h4
      | none =>
          rcases heds : execute_devices L rest s1 with ⟨s2, g2, ops2, e2⟩
          have h' : (match execute_devices L rest s1 with
              | (s2, g2, ops2, e2) => (s2, g1 + g2, ops1 ++ ops2, e2))
              = (s', gn, ops, (none : Option RunErr)) := h
          rw [heds] at h'
          have h'' : (s2, g1 + g2, ops1 ++ ops2, e2)
              = (s', gn, ops, (none : Option RunErr)) := h'
          injection h'' with h1 hrest
          injection hrest with h2 h3
          injection h3 with h3 h4
          subst h1
          subst h4
          intro x
          have hrec := execute_devices_resolve L rest s1 heds x
          rw [hrec]
          have hone : (fun y => lookupA y s1.entries)
              = groupsEffect device device.identicals.map (fun y => lookupA y s.entries) := by
            funext y
            exact execute_groups_resolve L device device.identicals.map s hegs y
          show devicesEffect rest (fun y => lookupA y s1.entries) x = _
          rw [hone]
          rfl

theorem execute_relink_resolve {L : FsLayout} {db : Database} {s s' : FsState}
    {gn : Nat} {ops : List Op}
    (h : execute_relink L db s = (s', gn, ops, none)) :
    ∀ x, lookupA x s'.entries = devicesEffect db.devices (fun y => lookupA y s.entries) x :=
  execute_devices_resolve L db.devices s h

/-! ### Utility lemmas for the idempotence argument (C9) -/

theorem two_le_length_of_two_mem {α : Type} {l : List α} {a b : α}
    (ha : a ∈ l) (hb : b ∈ l) (hne : a ≠ b) : 2 ≤ l.length := by
  rcases l with _ | ⟨x, _ | ⟨y, t⟩⟩
  · simp at ha
  · simp at ha hb
    exact absurd (ha.trans hb.symm) hne
  · simp only [List.length_cons]
    omega

theorem mem_callsFor {hashFn : FsPath → HashV} {d : Dev} {h : HashV}
    {calls : List HashCall} {i : Ino} :
    i ∈ callsFor hashFn d h calls ↔
      ∃ c ∈ calls, c.dev = d ∧ hashFn c.path = h ∧ c.ino = i := by
  unfold callsFor
  rw [List.mem_filterMap]
  constructor
  · rintro ⟨c, hc, hcond⟩
    by_cases hcc : c.dev = d ∧ hashFn c.path = h
    · rw [if_pos hcc] at hcond
      injection hcond with hcond
      exact ⟨c, hc, hcc.1, hcc.2, hcond⟩
    · rw [if_neg hcc] at hcond
      cases hcond
  · rintro ⟨c, hc, h1, h2, h3⟩
    exact ⟨c, hc, by simp [h1, h2, h3]⟩

theorem callsFor_nodup {hashFn : FsPath → HashV} {d : Dev} {h : HashV} :
    ∀ {calls : List HashCall},
    ((calls.map fun c => (c.dev, c.ino)).Nodup) → (callsFor hashFn d h calls).Nodup
  | [], _ => by simp [callsFor]
  | c :: rest, hn => by
      rw [List.map_cons, List.nodup_cons] at hn
      unfold callsFor
      rw [List.filterMap_cons]
      by_cases hcc : c.dev = d ∧ hashFn c.path = h
      · rw [if_pos hcc]
        rw [List.nodup_cons]
        refine ⟨?_, callsFor_nodup hn.2⟩
        intro hmem
        obtain ⟨c2, hc2, h1, h2, h3⟩ := mem_callsFor.mp hmem
        apply hn.1
        rw [List.mem_map]
        exact ⟨c2, hc2, by rw [h1, h3, hcc.1]⟩
      · rw [if_neg hcc]
        exact callsFor_nodup hn.2

theorem one_group_per {hashFn : FsPath → HashV} {calls : List HashCall}
    (hn : (calls.map fun c => (c.dev, c.ino)).Nodup)
    {d : Dev} {h h' : HashV} {i : Ino}
    (h1 : i ∈ callsFor hashFn d h calls) (h2 : i ∈ callsFor hashFn d h' calls) :
    h = h' := by
  obtain ⟨c, hc, hd, hh, hi⟩ := mem_callsFor.mp h1
  obtain ⟨c2, hc2, hd2, hh2, hi2⟩ := mem_callsFor.mp h2
  have hinj : ∀ x ∈ calls, ∀ y ∈ calls, (x.dev, x.ino) = (y.dev, y.ino) → x = y :=
    List.inj_on_of_nodup_map hn
  have hceq : c = c2 := hinj c hc c2 hc2 (by rw [hd, hd2, hi, hi2])
  rw [← hh, ← hh2, hceq]

theorem scan_entry_unique {scan : List (FsPath × Metadata)}
    (hnd : (scan.map Prod.fst).Nodup) {x : FsPath} {a b : Metadata}
    (h1 : (x, a) ∈ scan) (h2 : (x, b) ∈ scan) : a = b := by
  have hinj : ∀ e1 ∈ scan, ∀ e2 ∈ scan, e1.1 = e2.1 → e1 = e2 :=
    List.inj_on_of_nodup_map hnd
  have := hinj (x, a) h1 (x, b) h2 rfl
  injection this

theorem pathsOf_class_unique {scan : List (FsPath × Metadata)}
    (hnd : (scan.map Prod.fst).Nodup) {x : FsPath} {d d' : Dev} {i i' : Ino}
    (h1 : x ∈ pathsOf d i scan) (h2 : x ∈ pathsOf d' i' scan) :
    d = d' ∧ i = i' := by
  obtain ⟨md, hm, hd, hi⟩ := mem_pathsOf.mp h1
  obtain ⟨md', hm', hd', hi'⟩ := mem_pathsOf.mp h2
  have heq : md = md' := scan_entry_unique hnd hm hm'
  subst heq
  exact ⟨hd ▸ hd', hi ▸ hi'⟩

theorem collectInodes_eq_map (device : Device) (f : Ino → Inode) :
    ∀ (inos : List Ino), (∀ i ∈ inos, device.inodes.get i = some (f i)) →
    collectInodes device inos = some (inos.map f)
  | [], _ => rfl
  | i :: rest, hreg => by
      unfold collectInodes
      rw [hreg i (List.mem_cons_self i rest)]
      rw [collectInodes_eq_map device f rest (fun j hj => hreg j (List.mem_cons_of_mem i hj))]
      rfl

theorem mem_filesOf {x : FsPath} : ∀ {il : List Inode},
    x ∈ filesOf il ↔ ∃ r ∈ il, x ∈ r.files
  | [] => by simp [filesOf]
  | r :: rest => by
      unfold filesOf
      rw [List.mem_append, mem_filesOf]
      constructor
      · rintro (hx | ⟨r2, hr2, hx⟩)
        · exact ⟨r, List.mem_cons_self r rest, hx⟩
        · exact ⟨r2, List.mem_cons_of_mem r hr2, hx⟩
      · rintro ⟨r2, hr2, hx⟩
        rcases List.mem_cons.mp hr2 with h1 | h1
        · subst h1
          exact Or.inl hx
        · exact Or.inr ⟨r2, h1, hx⟩

theorem groupEffect_eq_of {device : Device} {g : IdenticalFile} {inodes : List Inode}
    {r0 : Inode} {restI : List Inode} {p0 : FsPath}
    (hcol : collectInodes device g.inos = some inodes)
    (hs : sortInodes inodes = r0 :: restI)
    (hrne : restI ≠ [])
    (hp0 : r0.files.head? = some p0) (res : FsPath → Option Ino) :
    groupEffect device g res = fun x => if x ∈ filesOf restI then res p0 else res x := by
  funext x
  simp [groupEffect, groupCanonPath, groupTailPaths, hcol, hs, hrne, hp0]

theorem groupEffect_eq_id_of_small {device : Device} {g : IdenticalFile}
    {inodes : List Inode}
    (hcol : collectInodes device g.inos = some inodes)
    (hlen : (sortInodes inodes).length ≤ 1) (res : FsPath → Option Ino) :
    groupEffect device g res = res := by
  funext x
  cases hs : sortInodes inodes with
  | nil => simp [groupEffect, groupCanonPath, hcol, hs]
  | cons r0 restI =>
      rw [hs] at hlen
      have hre : restI = [] := by simpa [List.length_eq_zero] using hlen
      subst hre
      simp [groupEffect, groupCanonPath, hcol, hs]

/-- Effect of processing one device's content groups, characterised by a
canonical-representative assignment `canon2`: every scan path resolves to the
canonical inode of its inode's group; group consolidation rewrites whole
groups to a single member; other devices are untouched; facts already
established persist; every processed group of two or more members ends up
assigned to a single member. -/
theorem groupsEffect_spec (hashFn : FsPath → HashV) (scan1 : List (FsPath × Metadata))
    (calls1 : List HashCall) (d : Dev) (device : Device)
    (hcn : (calls1.map fun c => (c.dev, c.ino)).Nodup)
    (hnd : (scan1.map Prod.fst).Nodup)
    (hreg : ∀ h i, i ∈ callsFor hashFn d h calls1 →
      ∃ r, device.inodes.get i = some r ∧ r.files = pathsOf d i scan1 ∧
        pathsOf d i scan1 ≠ []) :
    ∀ (gs : List (HashV × IdenticalFile)) (res : FsPath → Option Ino)
      (canon : Dev → Ino → Ino),
    (∀ hg ∈ gs, hg.2.inos = callsFor hashFn d hg.1 calls1) →
    ((gs.map Prod.fst).Nodup) →
    (∀ hg ∈ gs, ∀ j, j ∈ callsFor hashFn d hg.1 calls1 → canon d j = j) →
    (∀ e ∈ scan1, res e.1 = some (canon e.2.dev e.2.ino)) →
    (∀ d2 i, canon d2 i = i ∨ ∃ h2, i ∈ callsFor hashFn d2 h2 calls1 ∧
        canon d2 i ∈ callsFor hashFn d2 h2 calls1) →
    ∃ canon2 : Dev → Ino → Ino,
      (∀ e ∈ scan1, groupsEffect device gs res e.1 = some (canon2 e.2.dev e.2.ino)) ∧
      (∀ d2 i, canon2 d2 i = i ∨ ∃ h2, i ∈ callsFor hashFn d2 h2 calls1 ∧
          canon2 d2 i ∈ callsFor hashFn d2 h2 calls1) ∧
      (∀ d2 i, d2 ≠ d → canon2 d2 i = canon d2 i) ∧
      (∀ d2 h2, (∃ i0, i0 ∈ callsFor hashFn d2 h2 calls1 ∧
          ∀ j ∈ callsFor hashFn d2 h2 calls1, canon d2 j = i0) →
        ∃ i0, i0 ∈ callsFor hashFn d2 h2 calls1 ∧
          ∀ j ∈ callsFor hashFn d2 h2 calls1, canon2 d2 j = i0) ∧
      (∀ hg ∈ gs, 2 ≤ (callsFor hashFn d hg.1 calls1).length →
        ∃ i0, i0 ∈ callsFor hashFn d hg.1 calls1 ∧
          ∀ j ∈ callsFor hashFn d hg.1 calls1, canon2 d j = i0)
  | [], res, canon, hgs, hknd, hu, ha, hb0 =>
      ⟨canon, fun e he => ha e he, hb0, fun d2 i hne => rfl, fun d2 h2 hx => hx,
        fun hg hm => absurd hm (List.not_mem_nil hg)⟩
  | (h, g) :: rest, res, canon, hgs, hknd, hu, ha, hb0 => by
      have hging : g.inos = callsFor hashFn d h calls1 :=
        hgs (h, g) (List.mem_cons_self _ _)
      set recF : Ino → Inode :=
        fun i => (device.inodes.get i).getD (Inode.new 0 0 0) with hrecF
      have hregmem : ∀ i ∈ g.inos, device.inodes.get i = some (recF i) := by
        intro i hi
        rw [hging] at hi
        obtain ⟨r, hr, -, -⟩ := hreg h i hi
        rw [hr]
        simp only [hrecF]
        rw [hr]
        rfl
      have hcol : collectInodes device g.inos = some (g.inos.map recF) :=
        collectInodes_eq_map device recF g.inos hregmem
      rw [List.map_cons, List.nodup_cons] at hknd
      by_cases hbig : 2 ≤ (callsFor hashFn d h calls1).length
      · -- the group has at least two members: it is consolidated
        have hcol2 : collectInodes device g.inos
            = some ((callsFor hashFn d h calls1).map recF) := by
          rw [← hging]
          exact hcol
        have hmsnodup : (callsFor hashFn d h calls1).Nodup := callsFor_nodup hcn
        have hfiles : ∀ i ∈ callsFor hashFn d h calls1,
            (recF i).files = pathsOf d i scan1 ∧ pathsOf d i scan1 ≠ [] := by
          intro i hi
          obtain ⟨r, hr, hf, hne⟩ := hreg h i hi
          have hri : recF i = r := by
            simp only [hrecF]
            rw [hr]
            rfl
          rw [hri]
          exact ⟨hf, hne⟩
        have hrlnodup : ((callsFor hashFn d h calls1).map recF).Nodup := by
          refine List.Nodup.map_on ?_ hmsnodup
          intro i hi j hj hfe
          obtain ⟨hfi, hnei⟩ := hfiles i hi
          obtain ⟨hfj, hnej⟩ := hfiles j hj
          rw [hfe] at hfi
          have hpp : pathsOf d i scan1 = pathsOf d j scan1 := by rw [← hfi, ← hfj]
          cases hpc : pathsOf d i scan1 with
          | nil => exact absurd hpc hnei
          | cons x xs =>
              have hxi : x ∈ pathsOf d i scan1 := by
                rw [hpc]; exact List.mem_cons_self _ _
              have hxj : x ∈ pathsOf d j scan1 := by
                rw [← hpp, hpc]; exact List.mem_cons_self _ _
              exact (pathsOf_class_unique hnd hxi hxj).2
        have hperm := sortInodes_perm ((callsFor hashFn d h calls1).map recF)
        have hsortnodup : (sortInodes ((callsFor hashFn d h calls1).map recF)).Nodup :=
          (List.Perm.nodup_iff hperm).mpr hrlnodup
        have hslen : (sortInodes ((callsFor hashFn d h calls1).map recF)).length
            = (callsFor hashFn d h calls1).length := by
          rw [sortInodes_length, List.length_map]
        cases hs : sortInodes ((callsFor hashFn d h calls1).map recF) with
        | nil =>
            rw [hs] at hslen
            simp at hslen
            omega
        | cons r0 restI =>
            rw [hs] at hslen hsortnodup
            simp only [List.length_cons] at hslen
            have hrne : restI ≠ [] := by
              intro hc
              rw [hc] at hslen
              simp at hslen
              omega
            rw [List.nodup_cons] at hsortnodup
            have hr0mem : r0 ∈ (callsFor hashFn d h calls1).map recF :=
              hperm.mem_iff.mp (by rw [hs]; exact List.mem_cons_self _ _)
            obtain ⟨i0, hi0mem, hi0eq⟩ := List.mem_map.mp hr0mem
            obtain ⟨hf0, hne0⟩ := hfiles i0 hi0mem
            rw [hi0eq] at hf0
            obtain ⟨p0, hp0⟩ : ∃ p0, r0.files.head? = some p0 := by
              rw [hf0]
              cases hpc : pathsOf d i0 scan1 with
              | nil => exact absurd hpc hne0
              | cons x xs => exact ⟨x, rfl⟩
            have hp0mem : p0 ∈ pathsOf d i0 scan1 := by
              rw [← hf0]
              exact List.mem_of_mem_head? hp0
            have heff := groupEffect_eq_of hcol2 hs hrne hp0 res
            obtain ⟨md0, hm0, hd0, hii0⟩ := mem_pathsOf.mp hp0mem
            have hresp0 : res p0 = some i0 := by
              have hav : res p0 = some (canon md0.dev md0.ino) := ha (p0, md0) hm0
              rw [hd0, hii0] at hav
              rw [hav, hu (h, g) (List.mem_cons_self _ _) i0 hi0mem]
            have hT : ∀ x, x ∈ filesOf restI ↔
                ∃ i2, i2 ∈ callsFor hashFn d h calls1 ∧ i2 ≠ i0 ∧
                  x ∈ pathsOf d i2 scan1 := by
              intro x
              constructor
              · intro hx
                obtain ⟨r, hrmem, hxr⟩ := mem_filesOf.mp hx
                have hrs : r ∈ sortInodes ((callsFor hashFn d h calls1).map recF) := by
                  rw [hs]
                  exact List.mem_cons_of_mem _ hrmem
                have hrrl : r ∈ (callsFor hashFn d h calls1).map recF :=
                  hperm.mem_iff.mp hrs
                obtain ⟨i2, hi2mem, hi2eq⟩ := List.mem_map.mp hrrl
                refine ⟨i2, hi2mem, ?_, ?_⟩
                · intro hc
                  subst hc
                  rw [hi0eq] at hi2eq
                  apply hsortnodup.1
                  rw [hi2eq]
                  exact hrmem
                · obtain ⟨hf2, -⟩ := hfiles i2 hi2mem
                  rw [hi2eq] at hf2
                  rw [← hf2]
                  exact hxr
              · rintro ⟨i2, hi2mem, hi2ne, hxp⟩
                obtain ⟨hf2, hne2⟩ := hfiles i2 hi2mem
                have hr2s : recF i2 ∈ sortInodes ((callsFor hashFn d h calls1).map recF) :=
                  hperm.mem_iff.mpr (List.mem_map.mpr ⟨i2, hi2mem, rfl⟩)
                rw [hs] at hr2s
                rcases List.mem_cons.mp hr2s with h1 | h1
                · exfalso
                  apply hi2ne
                  have hpp : pathsOf d i2 scan1 = pathsOf d i0 scan1 := by
                    rw [← hf2, h1, hf0]
                  cases hpc : pathsOf d i2 scan1 with
                  | nil => exact absurd hpc hne2
                  | cons xx xxs =>
                      have hx1 : xx ∈ pathsOf d i2 scan1 := by
                        rw [hpc]; exact List.mem_cons_self _ _
                      have hx2 : xx ∈ pathsOf d i0 scan1 := by
                        rw [← hpp, hpc]; exact List.mem_cons_self _ _
                      exact (pathsOf_class_unique hnd hx1 hx2).2
                · exact mem_filesOf.mpr ⟨recF i2, h1, by rw [hf2]; exact hxp⟩
            let canon1 : Dev → Ino → Ino := fun d2 i =>
              if d2 = d ∧ i ∈ callsFor hashFn d h calls1 then i0 else canon d2 i
            have hc1mem : ∀ j ∈ callsFor hashFn d h calls1, canon1 d j = i0 := by
              intro j hj
              show (if d = d ∧ j ∈ callsFor hashFn d h calls1 then i0 else canon d j) = i0
              rw [if_pos ⟨rfl, hj⟩]
            have hc1not : ∀ d2 i, ¬ (d2 = d ∧ i ∈ callsFor hashFn d h calls1) →
                canon1 d2 i = canon d2 i := by
              intro d2 i hni
              show (if d2 = d ∧ i ∈ callsFor hashFn d h calls1 then i0 else canon d2 i)
                  = canon d2 i
              rw [if_neg hni]
            have ha1 : ∀ e ∈ scan1,
                (fun x => if x ∈ filesOf restI then res p0 else res x) e.1
                = some (canon1 e.2.dev e.2.ino) := by
              intro e he
              have hep : e.1 ∈ pathsOf e.2.dev e.2.ino scan1 :=
                mem_pathsOf.mpr ⟨e.2, by rw [Prod.mk.eta]; exact he, rfl, rfl⟩
              show (if e.1 ∈ filesOf restI then res p0 else res e.1)
                  = some (canon1 e.2.dev e.2.ino)
              by_cases hx : e.1 ∈ filesOf restI
              · rw [if_pos hx, hresp0]
                obtain ⟨i2, hi2mem, hi2ne, hi2p⟩ := (hT e.1).mp hx
                obtain ⟨hdeq, hieq⟩ := pathsOf_class_unique hnd hi2p hep
                rw [← hdeq, ← hieq, hc1mem i2 hi2mem]
              · rw [if_neg hx, ha e he]
                by_cases hcc : e.2.dev = d ∧ e.2.ino ∈ callsFor hashFn d h calls1
                · by_cases hii : e.2.ino = i0
                  · rw [hii, hcc.1]
                    rw [hu (h, g) (List.mem_cons_self _ _) i0 hi0mem, hc1mem i0 hi0mem]
                  · exfalso
                    apply hx
                    refine (hT e.1).mpr ⟨e.2.ino, hcc.2, hii, ?_⟩
                    rw [← hcc.1]
                    exact hep
                · rw [hc1not e.2.dev e.2.ino hcc]
            have hu1 : ∀ hg ∈ rest, ∀ j, j ∈ callsFor hashFn d hg.1 calls1 →
                canon1 d j = j := by
              intro hg hm j hj
              have hnotin : ¬ j ∈ callsFor hashFn d h calls1 := by
                intro hjh
                apply hknd.1
                rw [one_group_per hcn hjh hj]
                exact List.mem_map.mpr ⟨hg, hm, rfl⟩
              rw [hc1not d j (fun hand => hnotin hand.2)]
              exact hu hg (List.mem_cons_of_mem _ hm) j hj
            have hb0n : ∀ d2 i, canon1 d2 i = i ∨ ∃ h2,
                i ∈ callsFor hashFn d2 h2 calls1 ∧
                canon1 d2 i ∈ callsFor hashFn d2 h2 calls1 := by
              intro d2 i
              by_cases hcc : d2 = d ∧ i ∈ callsFor hashFn d h calls1
              · right
                refine ⟨h, by rw [hcc.1]; exact hcc.2, ?_⟩
                have hcv : canon1 d2 i = i0 := by
                  rw [hcc.1]
                  exact hc1mem i hcc.2
                rw [hcv, hcc.1]
                exact hi0mem
              · rw [hc1not d2 i hcc]
                exact hb0 d2 i
            have hK1 : ∀ d2 h2, (∃ j0, j0 ∈ callsFor hashFn d2 h2 calls1 ∧
                ∀ j ∈ callsFor hashFn d2 h2 calls1, canon d2 j = j0) →
                ∃ j0, j0 ∈ callsFor hashFn d2 h2 calls1 ∧
                  ∀ j ∈ callsFor hashFn d2 h2 calls1, canon1 d2 j = j0 := by
              rintro d2 h2 ⟨j0, hj0, hall⟩
              by_cases hd2 : d2 = d
              · subst hd2
                by_cases hh2 : h2 = h
                · subst hh2
                  exact ⟨i0, hi0mem, hc1mem⟩
                · refine ⟨j0, hj0, ?_⟩
                  intro j hj
                  rw [hc1not d2 j ?_]
                  · exact hall j hj
                  · rintro ⟨-, hjh⟩
                    exact hh2 (one_group_per hcn hj hjh)
              · refine ⟨j0, hj0, ?_⟩
                intro j hj
                rw [hc1not d2 j (by rintro ⟨he, -⟩; exact hd2 he)]
                exact hall j hj
            obtain ⟨canon2, hA, hB0, hUO, hK, hP⟩ :=
              groupsEffect_spec hashFn scan1 calls1 d device hcn hnd hreg rest
                (fun x => if x ∈ filesOf restI then res p0 else res x) canon1
                (fun hg hm => hgs hg (List.mem_cons_of_mem _ hm)) hknd.2 hu1 ha1 hb0n
            refine ⟨canon2, ?_, hB0, ?_, ?_, ?_⟩
            · intro e he
              show groupsEffect device rest (groupEffect device g res) e.1 = _
              rw [heff]
              exact hA e he
            · intro d2 i hne
              rw [hUO d2 i hne, hc1not d2 i (by rintro ⟨he, -⟩; exact hne he)]
            · intro d2 h2 hx
              exact hK d2 h2 (hK1 d2 h2 hx)
            · intro hg hm hg2
              rcases List.mem_cons.mp hm with h1 | h1
              · subst h1
                exact hK d h ⟨i0, hi0mem, hc1mem⟩
              · exact hP hg h1 hg2
      · -- fewer than two members: the group is left untouched
        have hlen1 : (sortInodes (g.inos.map recF)).length ≤ 1 := by
          rw [sortInodes_length, List.length_map, hging]
          omega
        have heff := groupEffect_eq_id_of_small hcol hlen1 res
        obtain ⟨canon2, hA, hB0, hUO, hK, hP⟩ :=
          groupsEffect_spec hashFn scan1 calls1 d device hcn hnd hreg rest res canon
            (fun hg hm => hgs hg (List.mem_cons_of_mem _ hm)) hknd.2
            (fun hg hm => hu hg (List.mem_cons_of_mem _ hm)) ha hb0
        refine ⟨canon2, ?_, hB0, hUO, hK, ?_⟩
        · intro e he
          show groupsEffect device rest (groupEffect device g res) e.1 = _
          rw [heff]
          exact hA e he
        · intro hg hm hg2
          rcases List.mem_cons.mp hm with h1 | h1
          · subst h1
            exact absurd hg2 hbig
          · exact hP hg h1 hg2

/-- the device record stored in the database list is the one `get_device`
returns -/
theorem get_device_of_mem {hashFn : FsPath → HashV} {l : List (FsPath × Metadata)}
    {db : Database} {calls : List HashCall} (inv : TravInv hashFn l db calls)
    {d : Dev} {device : Device} (hmem : (d, device) ∈ db.devices) :
    db.get_device d = device := by
  unfold Database.get_device
  rw [lookupA_of_mem_nodup inv.keys_dev hmem]
  rfl

/-- a nonempty content group of the final database is stored in its device's
group map, with exactly the inodes whose digest calls carry that key -/
theorem group_mem_of_callsFor_ne_nil {hashFn : FsPath → HashV}
    {l : List (FsPath × Metadata)} {db : Database} {calls : List HashCall}
    (inv : TravInv hashFn l db calls) {d : Dev} {h : HashV}
    (hne : callsFor hashFn d h calls ≠ []) :
    ∃ g, (h, g) ∈ (db.get_device d).identicals.map ∧
      g.inos = callsFor hashFn d h calls := by
  have hgrp := inv.groups_eq d h
  unfold IdenticalFiles.group at hgrp
  cases hlk : lookupA h (db.get_device d).identicals.map with
  | none =>
      rw [hlk] at hgrp
      simp at hgrp
      exact absurd hgrp hne
  | some g =>
      rw [hlk] at hgrp
      exact ⟨g, mem_of_lookupA_some hlk, hgrp⟩

theorem devicesEffect_spec (hashFn : FsPath → HashV) (scan1 : List (FsPath × Metadata))
    (calls1 : List HashCall) (db1 : Database)
    (inv : TravInv hashFn scan1 db1 calls1)
    (hnd : (scan1.map Prod.fst).Nodup) :
    ∀ (ds : List (Dev × Device)) (res : FsPath → Option Ino) (canon : Dev → Ino → Ino),
    (∀ dd ∈ ds, dd ∈ db1.devices) →
    ((ds.map Prod.fst).Nodup) →
    (∀ dd ∈ ds, ∀ h j, j ∈ callsFor hashFn dd.1 h calls1 → canon dd.1 j = j) →
    (∀ e ∈ scan1, res e.1 = some (canon e.2.dev e.2.ino)) →
    (∀ d2 i, canon d2 i = i ∨ ∃ h2, i ∈ callsFor hashFn d2 h2 calls1 ∧
        canon d2 i ∈ callsFor hashFn d2 h2 calls1) →
    (∀ d h, 2 ≤ (callsFor hashFn d h calls1).length →
      (∃ i0, i0 ∈ callsFor hashFn d h calls1 ∧
        ∀ j ∈ callsFor hashFn d h calls1, canon d j = i0) ∨
      ∃ dd ∈ ds, dd.1 = d) →
    ∃ canon2 : Dev → Ino → Ino,
      (∀ e ∈ scan1, devicesEffect ds res e.1 = some (canon2 e.2.dev e.2.ino)) ∧
      (∀ d2 i, canon2 d2 i = i ∨ ∃ h2, i ∈ callsFor hashFn d2 h2 calls1 ∧
          canon2 d2 i ∈ callsFor hashFn d2 h2 calls1) ∧
      (∀ d h, 2 ≤ (callsFor hashFn d h calls1).length →
        ∃ i0, i0 ∈ callsFor hashFn d h calls1 ∧
          ∀ j ∈ callsFor hashFn d h calls1, canon2 d j = i0)
  | [], res, canon, hds, hndk, hu, ha, hb0, hcov =>
      ⟨canon, fun e he => ha e he, hb0, by
        intro d h h2
        rcases hcov d h h2 with hest | ⟨dd, hdd, -⟩
        · exact hest
        · exact absurd hdd (List.not_mem_nil dd)⟩
  | (d, device) :: rest, res, canon, hds, hndk, hu, ha, hb0, hcov => by
      have hmemdb : (d, device) ∈ db1.devices := hds (d, device) (List.mem_cons_self _ _)
      have hgd : db1.get_device d = device := get_device_of_mem inv hmemdb
      rw [List.map_cons, List.nodup_cons] at hndk
      have hreg : ∀ h i, i ∈ callsFor hashFn d h calls1 →
          ∃ r, device.inodes.get i = some r ∧ r.files = pathsOf d i scan1 ∧
            pathsOf d i scan1 ≠ [] := by
        intro h i hi
        have hseen : seen d i scan1 :=
          seen_of_hashed inv (hashed_of_mem_callsFor hi)
        obtain ⟨r, hget, -⟩ := TravInv.registered_of_seen inv hseen
        have hfeq := inv.files_eq d i r hget
        rw [hgd] at hget
        exact ⟨r, hget, hfeq, pathsOf_ne_nil_of_seen hseen⟩
      have hgs : ∀ hg ∈ device.identicals.map,
          hg.2.inos = callsFor hashFn d hg.1 calls1 := by
        intro hg hm
        have hkid := inv.keys_id d
        rw [hgd] at hkid
        have hlk : lookupA hg.1 device.identicals.map = some hg.2 :=
          lookupA_of_mem_nodup hkid (by rw [Prod.mk.eta]; exact hm)
        have hgrp := inv.groups_eq d hg.1
        unfold IdenticalFiles.group at hgrp
        rw [hgd, hlk] at hgrp
        exact hgrp
      have hknd : (device.identicals.map.map Prod.fst).Nodup := by
        have hkid := inv.keys_id d
        rwa [hgd] at hkid
      obtain ⟨canon1, hA1, hB01, hUO1, hK1, hP1⟩ :=
        groupsEffect_spec hashFn scan1 calls1 d device inv.calls_nodup hnd hreg
          device.identicals.map res canon hgs hknd
          (fun hg hm => hu (d, device) (List.mem_cons_self _ _) hg.1)
          ha hb0
      obtain ⟨canon2, hA, hB0, hFin⟩ :=
        devicesEffect_spec hashFn scan1 calls1 db1 inv hnd rest
          (groupsEffect device device.identicals.map res) canon1
          (fun dd hm => hds dd (List.mem_cons_of_mem _ hm)) hndk.2
          (by
            intro dd hm h j hj
            have hdne : dd.1 ≠ d := by
              intro hc
              apply hndk.1
              rw [← hc]
              exact List.mem_map.mpr ⟨dd, hm, rfl⟩
            rw [hUO1 dd.1 j hdne]
            exact hu dd (List.mem_cons_of_mem _ hm) h j hj)
          hA1 hB01
          (by
            intro d2 h2 hlen
            rcases hcov d2 h2 hlen with hest | ⟨dd, hdd, hdd1⟩
            · exact Or.inl (hK1 d2 h2 hest)
            · rcases List.mem_cons.mp hdd with h1 | h1
              · left
                have hd2 : d = d2 := by rw [← hdd1, h1]
                cases hd2
                have hne2 : callsFor hashFn d h2 calls1 ≠ [] := by
                  intro hc
                  rw [hc] at hlen
                  simp at hlen
                obtain ⟨g2, hg2mem, -⟩ := group_mem_of_callsFor_ne_nil inv hne2
                rw [hgd] at hg2mem
                exact hP1 (h2, g2) hg2mem hlen
              · exact Or.inr ⟨dd, h1, hdd1⟩)
      exact ⟨canon2, fun e he => hA e he, hB0, hFin⟩

/-- master characterisation of the filesystem resolution after a successful
consolidation run: every scanned path resolves to the canonical
representative of its inode, and every content group of two or more members
has been merged onto a single member inode. -/
theorem run1_canon {hashFn : FsPath → HashV} {L : FsLayout}
    {scan1 : List (FsPath × Metadata)} {db1 : Database} {calls1 : List HashCall}
    {s0 s1 : FsState} {gn : Nat} {ops : List Op}
    (inv : TravInv hashFn scan1 db1 calls1)
    (hnd : (scan1.map Prod.fst).Nodup)
    (hres0 : ∀ e ∈ scan1, lookupA e.1 s0.entries = some e.2.ino)
    (hrun : execute_relink L db1 s0 = (s1, gn, ops, none)) :
    ∃ canon : Dev → Ino → Ino,
      (∀ e ∈ scan1, lookupA e.1 s1.entries = some (canon e.2.dev e.2.ino)) ∧
      (∀ d i, canon d i = i ∨ ∃ h, i ∈ callsFor hashFn d h calls1 ∧
          canon d i ∈ callsFor hashFn d h calls1) ∧
      (∀ d h, 2 ≤ (callsFor hashFn d h calls1).length →
        ∃ i0, i0 ∈ callsFor hashFn d h calls1 ∧
          ∀ j ∈ callsFor hashFn d h calls1, canon d j = i0) := by
  obtain ⟨canon2, hA, hB0, hFin⟩ :=
    devicesEffect_spec hashFn scan1 calls1 db1 inv hnd db1.devices
      (fun y => lookupA y s0.entries) (fun d i => i)
      (fun dd hm => hm) inv.keys_dev
      (fun dd hm h j hj => rfl)
      (fun e he => hres0 e he)
      (fun d2 i => Or.inl rfl)
      (by
        intro d h hlen
        right
        have hne : callsFor hashFn d h calls1 ≠ [] := by
          intro hc
          rw [hc] at hlen
          simp at hlen
        obtain ⟨g, hgmem, -⟩ := group_mem_of_callsFor_ne_nil inv hne
        cases hlkd : lookupA d db1.devices with
        | none =>
            exfalso
            unfold Database.get_device at hgmem
            rw [hlkd] at hgmem
            simp [Device.new] at hgmem
        | some device =>
            exact ⟨(d, device), mem_of_lookupA_some hlkd, rfl⟩)
  refine ⟨canon2, ?_, hB0, hFin⟩
  intro e he
  rw [execute_relink_resolve hrun e.1]
  exact hA e he

/-- a digest invocation only ever happens for an inode whose size class
contains a second, distinct inode: the size bucket must be Ambiguous -/
theorem hashed_companion {hashFn : FsPath → HashV} {l : List (FsPath × Metadata)}
    {db : Database} {calls : List HashCall} (inv : TravInv hashFn l db calls)
    (SC : SizeConsistent l) {c : HashCall} (hc : c ∈ calls) :
    ∃ s j, j ≠ c.ino ∧ sized c.dev s c.ino l ∧ sized c.dev s j l := by
  have hp := inv.calls_path c hc
  obtain ⟨md, hm, hdm, him⟩ := mem_pathsOf.mp hp
  have hsz : sized c.dev md.size c.ino l := ⟨(c.path, md), hm, hdm, him, rfl⟩
  cases hb : (db.get_device c.dev).sieve.get md.size with
  | none => exact absurd hsz (inv.sieve_none c.dev md.size hb c.ino)
  | some entry =>
      cases entry with
      | Unique i0 =>
          obtain ⟨hsz0, huniq, hnh⟩ := inv.sieve_unique c.dev md.size i0 hb
          have hii : c.ino = i0 := huniq c.ino hsz
          exact absurd ⟨c, hc, rfl, hii⟩ hnh
      | Ambiguous =>
          obtain ⟨i1, j1, hne, hs1, hs2⟩ := inv.sieve_amb c.dev md.size hb
          by_cases hci : i1 = c.ino
          · subst hci
            exact ⟨md.size, j1, fun hc2 => hne hc2.symm, hsz, hs2⟩
          · exact ⟨md.size, i1, hci, hsz, hs1⟩

/-- two distinct inodes sharing a device and logical size are both hashed -/
theorem both_hashed {hashFn : FsPath → HashV} {l : List (FsPath × Metadata)}
    {db : Database} {calls : List HashCall} (inv : TravInv hashFn l db calls)
    {d : Dev} {s : Nat} {i j : Ino} (hij : i ≠ j)
    (h1 : sized d s i l) (h2 : sized d s j l) :
    hashed d i calls ∧ hashed d j calls := by
  cases hb : (db.get_device d).sieve.get s with
  | none => exact absurd h1 (inv.sieve_none d s hb i)
  | some entry =>
      cases entry with
      | Unique i0 =>
          obtain ⟨-, huniq, -⟩ := inv.sieve_unique d s i0 hb
          exact absurd ((huniq i h1).trans (huniq j h2).symm) hij
      | Ambiguous =>
          exact ⟨inv.amb_hashed d s i hb h1, inv.amb_hashed d s j hb h2⟩

theorem mem_eq_of_length_le_one {α : Type} {l : List α} {a b : α}
    (ha : a ∈ l) (hb : b ∈ l) (hlen : l.length ≤ 1) : a = b := by
  rcases l with _ | ⟨x, _ | ⟨y, t⟩⟩
  · simp at ha
  · simp at ha hb
    rw [ha, hb]
  · simp only [List.length_cons] at hlen
    omega

theorem callsFor_le_one_of_inj {hashFn : FsPath → HashV} {calls : List HashCall}
    (hinj : ∀ c1 ∈ calls, ∀ c2 ∈ calls, c1.dev = c2.dev →
      hashFn c1.path = hashFn c2.path → c1.ino = c2.ino)
    (hn : (calls.map fun c => (c.dev, c.ino)).Nodup) (d : Dev) (h : HashV) :
    (callsFor hashFn d h calls).length ≤ 1 := by
  cases hcf : callsFor hashFn d h calls with
  | nil => simp
  | cons a rest =>
      cases rest with
      | nil => simp
      | cons b rest2 =>
          exfalso
          have hnodup : (callsFor hashFn d h calls).Nodup := callsFor_nodup hn
          rw [hcf] at hnodup
          rw [List.nodup_cons] at hnodup
          have hab : a ≠ b := by
            intro hc
            exact hnodup.1 (by rw [hc]; exact List.mem_cons_self _ _)
          have hma : a ∈ callsFor hashFn d h calls := by
            rw [hcf]
            exact List.mem_cons_self _ _
          have hmb : b ∈ callsFor hashFn d h calls := by
            rw [hcf]
            exact List.mem_cons_of_mem _ (List.mem_cons_self _ _)
          obtain ⟨c1, hc1, hd1, hh1, hi1⟩ := mem_callsFor.mp hma
          obtain ⟨c2, hc2, hd2, hh2, hi2⟩ := mem_callsFor.mp hmb
          apply hab
          rw [← hi1, ← hi2]
          exact hinj c1 hc1 c2 hc2 (hd1.trans hd2.symm) (hh1.trans hh2.symm)

theorem execute_group_trivial {L : FsLayout} {device : Device} {g : IdenticalFile}
    (hreg : ∀ i ∈ g.inos, (device.inodes.get i).isSome)
    (hlen : g.inos.length ≤ 1) (s : FsState) :
    execute_group L device g s = (s, 0, [], none) := by
  have hregmem : ∀ i ∈ g.inos, device.inodes.get i
      = some ((device.inodes.get i).getD (Inode.new 0 0 0)) := by
    intro i hi
    obtain ⟨r, hr⟩ := Option.isSome_iff_exists.mp (hreg i hi)
    rw [hr]
    rfl
  have hcol := collectInodes_eq_map device
    (fun i => (device.inodes.get i).getD (Inode.new 0 0 0)) g.inos hregmem
  have hslen : (sortInodes (g.inos.map
      (fun i => (device.inodes.get i).getD (Inode.new 0 0 0)))).length ≤ 1 := by
    rw [sortInodes_length, List.length_map]
    exact hlen
  unfold execute_group
  rw [hcol]
  simp only [if_pos hslen]

theorem execute_groups_trivial {L : FsLayout} {device : Device} :
    ∀ (gs : List (HashV × IdenticalFile)),
    (∀ hg ∈ gs, ∀ s, execute_group L device hg.2 s = (s, 0, [], none)) →
    ∀ s, execute_groups L device gs s = (s, 0, [], none)
  | [], _, s => rfl
  | (h, g) :: rest, htriv, s => by
      unfold execute_groups
      rw [htriv (h, g) (List.mem_cons_self _ _) s]
      show (match execute_groups L device rest s with
        | (s2, g2, ops2, e2) => (s2, 0 + g2, [] ++ ops2, e2)) = (s, 0, [], none)
      rw [execute_groups_trivial rest
        (fun hg hm => htriv hg (List.mem_cons_of_mem _ hm)) s]
      rfl

theorem execute_devices_trivial {L : FsLayout} :
    ∀ (ds : List (Dev × Device)),
    (∀ dd ∈ ds, ∀ s, execute_groups L dd.2 dd.2.identicals.map s = (s, 0, [], none)) →
    ∀ s, execute_devices L ds s = (s, 0, [], none)
  | [], _, s => rfl
  | (d, device) :: rest, htriv, s => by
      unfold execute_devices
      rw [htriv (d, device) (List.mem_cons_self _ _) s]
      show (match execute_devices L rest s with
        | (s2, g2, ops2, e2) => (s2, 0 + g2, [] ++ ops2, e2)) = (s, 0, [], none)
      rw [execute_devices_trivial rest
        (fun dd hm => htriv dd (List.mem_cons_of_mem _ hm)) s]
      rfl

/-- a database all of whose content groups have at most one member performs
no consolidation at all: no state change, no gain, no output, no error -/
theorem execute_relink_trivial {hashFn : FsPath → HashV}
    {l : List (FsPath × Metadata)} {db : Database} {calls : List HashCall}
    (inv : TravInv hashFn l db calls)
    (htriv : ∀ d h, (callsFor hashFn d h calls).length ≤ 1)
    (L : FsLayout) (s : FsState) :
    execute_relink L db s = (s, 0, [], none) := by
  unfold execute_relink
  apply execute_devices_trivial
  intro dd hm s2
  apply execute_groups_trivial
  intro hg hm2 s3
  have hgd : db.get_device dd.1 = dd.2 :=
    get_device_of_mem inv (by rw [Prod.mk.eta]; exact hm)
  have hkid := inv.keys_id dd.1
  rw [hgd] at hkid
  have hlk : lookupA hg.1 dd.2.identicals.map = some hg.2 :=
    lookupA_of_mem_nodup hkid (by rw [Prod.mk.eta]; exact hm2)
  have hgrp := inv.groups_eq dd.1 hg.1
  unfold IdenticalFiles.group at hgrp
  rw [hgd, hlk] at hgrp
  have hgrp2 : hg.2.inos = callsFor hashFn dd.1 hg.1 calls := hgrp
  have hreg : ∀ i ∈ hg.2.inos, (dd.2.inodes.get i).isSome := by
    intro i hi
    rw [hgrp2] at hi
    have hseen : seen dd.1 i l := seen_of_hashed inv (hashed_of_mem_callsFor hi)
    have hr := (inv.reg_iff dd.1 i).mpr hseen
    rwa [hgd] at hr
  exact execute_group_trivial hreg (by rw [hgrp2]; exact htriv dd.1 hg.1) s3

/-- C9: the full pipeline is idempotent.  `scan1` is the regular-file scan of
the first run (paths resolving in `s0` as recorded, sizes consistent, the
digest a function of the file content so that paths of one inode hash
equally), and the first run's traversal produced `(db1, calls1)` and its
consolidation succeeded, turning `s0` into `s1`.  The second run walks the
same tree: its scan `scan2` lists the same paths, with metadata read back
from `s1` (each path's inode is its `s1` resolution, devices given by the
layout, sizes unchanged per inode).  Then the second run's consolidation
performs zero relink operations and leaves the filesystem untouched: every
content group of the second traversal has at most one member inode. -/
theorem C9_second_run_no_relinks
    (hashFn : FsPath → HashV) (L : FsLayout)
    (scan1 scan2 : List (FsPath × Metadata))
    (db1 db2 : Database) (calls1 calls2 : List HashCall)
    (s0 s1 : FsState) (gn : Nat) (ops : List Op) (sz : Dev → Ino → Nat)
    (run1 : prepare_files hashFn scan1 Database.new [] = some (db1, calls1))
    (SC1 : SizeConsistent scan1)
    (hnd : (scan1.map Prod.fst).Nodup)
    (hdev1 : ∀ e ∈ scan1, e.2.dev = L.inoDev e.2.ino)
    (hres0 : ∀ e ∈ scan1, lookupA e.1 s0.entries = some e.2.ino)
    (hcont : ∀ e1 ∈ scan1, ∀ e2 ∈ scan1, e1.2.dev = e2.2.dev →
      e1.2.ino = e2.2.ino → hashFn e1.1 = hashFn e2.1)
    (hsz1 : ∀ e ∈ scan1, e.2.size = sz e.2.dev e.2.ino)
    (hrun : execute_relink L db1 s0 = (s1, gn, ops, none))
    (hpaths2 : scan2.map Prod.fst = scan1.map Prod.fst)
    (hmd2 : ∀ e ∈ scan2, lookupA e.1 s1.entries = some e.2.ino ∧
      e.2.dev = L.inoDev e.2.ino ∧ e.2.size = sz e.2.dev e.2.ino)
    (run2 : prepare_files hashFn scan2 Database.new [] = some (db2, calls2)) :
    execute_relink L db2 s1 = (s1, 0, [], none) := by
  -- the traversal invariant for both runs
  have hinv1 : TravInv hashFn scan1 db1 calls1 := by
    obtain ⟨dbx, callsx, hpf, invx⟩ := traversal_sound hashFn scan1 SC1
    rw [run1] at hpf
    injection hpf with hpf
    injection hpf with h1 h2
    rw [← h1, ← h2] at invx
    exact invx
  have SC2 : SizeConsistent scan2 := by
    intro e1 he1 e2 he2 hdev hino
    obtain ⟨-, -, hs1⟩ := hmd2 e1 he1
    obtain ⟨-, -, hs2⟩ := hmd2 e2 he2
    rw [hs1, hs2, hdev, hino]
  have hinv2 : TravInv hashFn scan2 db2 calls2 := by
    obtain ⟨dbx, callsx, hpf, invx⟩ := traversal_sound hashFn scan2 SC2
    rw [run2] at hpf
    injection hpf with hpf
    injection hpf with h1 h2
    rw [← h1, ← h2] at invx
    exact invx
  -- the run-1 canonical-representative assignment
  obtain ⟨canon, hA, hB0, hBp⟩ := run1_canon (L := L) hinv1 hnd hres0 hrun
  -- every second-run inode survives run 1: it is a seen scan1 inode on its
  -- device, it is a fixed point of `canon`, and it is the canonical image of
  -- the scan1 inode of the same path
  have hsurv : ∀ e ∈ scan2, seen e.2.dev e.2.ino scan1 ∧
      canon e.2.dev e.2.ino = e.2.ino ∧
      ∃ mdx, (e.1, mdx) ∈ scan1 ∧ mdx.dev = e.2.dev ∧
        canon mdx.dev mdx.ino = e.2.ino := by
    intro e he
    obtain ⟨hlk, hdv, hszv⟩ := hmd2 e he
    have hp1 : e.1 ∈ scan1.map Prod.fst := by
      rw [← hpaths2]
      exact List.mem_map.mpr ⟨e, he, rfl⟩
    obtain ⟨ex, hex, hex1⟩ := List.mem_map.mp hp1
    have hAx : lookupA e.1 s1.entries = some (canon ex.2.dev ex.2.ino) := by
      have hax := hA ex hex
      rwa [hex1] at hax
    rw [hlk] at hAx
    have hcaneq : canon ex.2.dev ex.2.ino = e.2.ino := by
      injection hAx with hAx
      exact hAx.symm
    have hdevx : ex.2.dev = L.inoDev ex.2.ino := hdev1 ex hex
    have hexmem : (e.1, ex.2) ∈ scan1 := by
      rw [← hex1, Prod.mk.eta]
      exact hex
    rcases hB0 ex.2.dev ex.2.ino with hl | ⟨h2, hmemM, hcanM⟩
    · -- canon leaves the path's scan1 inode in place
      have hio : ex.2.ino = e.2.ino := by rw [← hl, hcaneq]
      have hdd : ex.2.dev = e.2.dev := by
        rw [hdevx, hio, ← hdv]
      refine ⟨⟨ex, hex, hdd, hio⟩, ?_, ex.2, hexmem, hdd, hcaneq⟩
      rw [← hdd, ← hio]
      exact hl
    · -- the path's scan1 inode was merged into its group's representative
      rw [hcaneq] at hcanM
      have hhashed : hashed ex.2.dev e.2.ino calls1 := hashed_of_mem_callsFor hcanM
      have hseenM : seen ex.2.dev e.2.ino scan1 := seen_of_hashed hinv1 hhashed
      obtain ⟨ey, hey, hyd, hyi⟩ := hseenM
      have hdd : ex.2.dev = e.2.dev :=
        calc ex.2.dev = ey.2.dev := hyd.symm
          _ = L.inoDev ey.2.ino := hdev1 ey hey
          _ = L.inoDev e.2.ino := by rw [hyi]
          _ = e.2.dev := hdv.symm
      refine ⟨⟨ey, hey, by rw [hyd, hdd], hyi⟩, ?_, ex.2, hexmem, hdd, hcaneq⟩
      by_cases hbig2 : 2 ≤ (callsFor hashFn ex.2.dev h2 calls1).length
      · obtain ⟨i0, hi0, hall⟩ := hBp ex.2.dev h2 hbig2
        have hei0 : e.2.ino = i0 := by
          rw [← hcaneq, hall ex.2.ino hmemM]
        rw [← hdd, hei0]
        exact hall i0 hi0
      · have hmm : ex.2.ino = e.2.ino :=
          mem_eq_of_length_le_one hmemM hcanM (by omega)
        rw [← hdd, ← hmm]
        exact hcaneq.trans hmm.symm
  -- second-run sizes pull back to scan1 at the shared per-inode size
  have hsized1 : ∀ e ∈ scan2, sized e.2.dev (sz e.2.dev e.2.ino) e.2.ino scan1 := by
    intro e he
    obtain ⟨hseen, -, -⟩ := hsurv e he
    obtain ⟨ey, hey, hd, hi⟩ := hseen
    refine ⟨ey, hey, hd, hi, ?_⟩
    rw [hsz1 ey hey, hd, hi]
  -- every inode hashed on the second run was already hashed on the first
  have hhashed1 : ∀ c ∈ calls2, hashed c.dev c.ino calls1 := by
    intro c hc
    obtain ⟨s2sz, j, hjne, hsi, hsj⟩ := hashed_companion hinv2 SC2 hc
    obtain ⟨ei, hei, hdi, hii, hszi⟩ := hsi
    obtain ⟨-, -, hszi2⟩ := hmd2 ei hei
    obtain ⟨ej, hej, hdj, hij, hszj⟩ := hsj
    obtain ⟨-, -, hszj2⟩ := hmd2 ej hej
    have h1i : sized c.dev (sz c.dev c.ino) c.ino scan1 := by
      have hs := hsized1 ei hei
      rwa [hdi, hii] at hs
    have h1j : sized c.dev (sz c.dev j) j scan1 := by
      have hs := hsized1 ej hej
      rwa [hdj, hij] at hs
    have hszeq : sz c.dev c.ino = sz c.dev j :=
      calc sz c.dev c.ino = sz ei.2.dev ei.2.ino := by rw [hdi, hii]
        _ = ei.2.size := hszi2.symm
        _ = s2sz := hszi
        _ = ej.2.size := hszj.symm
        _ = sz ej.2.dev ej.2.ino := hszj2
        _ = sz c.dev j := by rw [hdj, hij]
    rw [hszeq] at h1i
    exact (both_hashed hinv1 (fun hcx => hjne hcx.symm) h1i h1j).1
  -- every second-run digest call's inode belongs to the run-1 content group
  -- keyed by its path's digest
  have hkey : ∀ c ∈ calls2, c.ino ∈ callsFor hashFn c.dev (hashFn c.path) calls1 := by
    intro c hc
    obtain ⟨m1, hm1, hdm1, him1⟩ := mem_pathsOf.mp (hinv2.calls_path c hc)
    obtain ⟨-, -, mdx, hmdx, hmdxd, hmdxc⟩ := hsurv (c.path, m1) hm1
    have hmdev : mdx.dev = c.dev := by rw [hmdxd, hdm1]
    have hcanon : canon mdx.dev mdx.ino = c.ino := by rw [hmdxc, him1]
    rcases hB0 mdx.dev mdx.ino with hl | ⟨h2, hmemM, hcanM⟩
    · have hio : mdx.ino = c.ino := by rw [← hl, hcanon]
      obtain ⟨cc1, hcc1, hccd, hcci⟩ := hhashed1 c hc
      obtain ⟨mdcc, hmcc, hdcc, hicc⟩ := mem_pathsOf.mp (hinv1.calls_path cc1 hcc1)
      have hhx : hashFn c.path = hashFn cc1.path := by
        refine hcont (c.path, mdx) hmdx (cc1.path, mdcc) hmcc ?_ ?_
        · show mdx.dev = mdcc.dev
          rw [hmdev, hdcc, hccd]
        · show mdx.ino = mdcc.ino
          rw [hio, hicc, hcci]
      rw [hhx]
      exact mem_callsFor.mpr ⟨cc1, hcc1, hccd, rfl, hcci⟩
    · obtain ⟨cM, hcM, hcMd, hcMh, hcMi⟩ := mem_callsFor.mp hmemM
      obtain ⟨mdM, hmM, hdM, hiM⟩ := mem_pathsOf.mp (hinv1.calls_path cM hcM)
      have hhx : hashFn c.path = hashFn cM.path := by
        refine hcont (c.path, mdx) hmdx (cM.path, mdM) hmM ?_ ?_
        · show mdx.dev = mdM.dev
          rw [hdM, hcMd]
        · show mdx.ino = mdM.ino
          rw [hiM, hcMi]
      rw [hhx, hcMh, ← hmdev, ← hcanon]
      exact hcanM
  -- distinct surviving inodes have distinct digests: the second-run call
  -- log is injective per (device, digest)
  have hinj2 : ∀ c1 ∈ calls2, ∀ c2 ∈ calls2, c1.dev = c2.dev →
      hashFn c1.path = hashFn c2.path → c1.ino = c2.ino := by
    intro c1 hc1 c2 hc2 hdd hhh
    have hk1 := hkey c1 hc1
    have hk2 := hkey c2 hc2
    rw [← hdd, ← hhh] at hk2
    by_contra hne
    have hlen : 2 ≤ (callsFor hashFn c1.dev (hashFn c1.path) calls1).length :=
      two_le_length_of_two_mem hk1 hk2 hne
    obtain ⟨i0, hi0, hall⟩ := hBp c1.dev (hashFn c1.path) hlen
    obtain ⟨m1, hm1, hdm1, him1⟩ := mem_pathsOf.mp (hinv2.calls_path c1 hc1)
    obtain ⟨-, hfix1, -⟩ := hsurv (c1.path, m1) hm1
    obtain ⟨m2, hm2, hdm2, him2⟩ := mem_pathsOf.mp (hinv2.calls_path c2 hc2)
    obtain ⟨-, hfix2, -⟩ := hsurv (c2.path, m2) hm2
    rw [hdm1, him1] at hfix1
    rw [hdm2, him2, ← hdd] at hfix2
    apply hne
    rw [← hfix1, ← hfix2, hall c1.ino hk1, hall c2.ino hk2]
  -- hence every second-run content group has at most one member, and the
  -- second consolidation does nothing
  exact execute_relink_trivial hinv2
    (callsFor_le_one_of_inj hinj2 hinv2.calls_nodup) L s1

/-! ### Concrete witness scenario for C9: two same-size files with equal
content hash on one device, consolidated by the first run -/

def hashW9 : FsPath → HashV := fun p => if p ≤ 1 then 7 else p

def LW9 : FsLayout := ⟨fun _ => some 0, fun _ => 1, fun _ => 1⟩

def scan1W9 : List (FsPath × Metadata) :=
  [(0, ⟨1, 10, 4, 100, 1, 8⟩), (1, ⟨1, 11, 4, 50, 1, 8⟩)]

def s0W9 : FsState :=
  ⟨[(0, 10), (1, 11)], fun i => if i = 10 then 100 else 50, fun _ => 0, 1000⟩

def szW9 : Dev → Ino → Nat := fun _ _ => 4

def run1W9 : Database × List HashCall :=
  (prepare_files hashW9 scan1W9 Database.new []).getD (Database.new, [])

def db1W9 : Database := run1W9.1

def calls1W9 : List HashCall := run1W9.2

def exeW9 : FsState × Nat × List Op × Option RunErr :=
  execute_relink LW9 db1W9 s0W9

def s1W9 : FsState := exeW9.1

def gnW9 : Nat := exeW9.2.1

def opsW9 : List Op := exeW9.2.2.1

def scan2W9 : List (FsPath × Metadata) :=
  [(0, ⟨1, 10, 4, 50, 2, 8⟩), (1, ⟨1, 10, 4, 50, 2, 8⟩)]

def run2W9 : Database × List HashCall :=
  (prepare_files hashW9 scan2W9 Database.new []).getD (Database.new, [])

def db2W9 : Database := run2W9.1

def calls2W9 : List HashCall := run2W9.2

theorem C9_second_run_no_relinks_witness :
    execute_relink LW9 db2W9 s1W9 = (s1W9, 0, [], none) :=
  C9_second_run_no_relinks hashW9 LW9 scan1W9 scan2W9 db1W9 db2W9 calls1W9 calls2W9
    s0W9 s1W9 gnW9 opsW9 szW9
    (by rfl)
    (by decide)
    (by decide)
    (by decide)
    (by decide)
    (by decide)
    (by decide)
    (by rfl)
    (by rfl)
    (by decide)
    (by rfl)
